import Mathlib

/-!
Verification of the decision-tree-builder core (src/App.tsx): the indent
parser, the ASCII-connector renderer, the Jira importer, the tree flattener
and the SVG layout engine.  JavaScript strings are modelled as lists of
characters (`Line`); the mutable parser stack is modelled by explicit state
passing; floating-point coordinates are modelled as rationals.
-/

namespace DTB

/-- A JavaScript string, modelled as its list of characters. -/
abbrev Line := List Char

/-- Whitespace as matched by JavaScript regular-expression class s and
by the string trim functions (restricted to the characters that occur in
this application's data). -/
def isJsWs (c : Char) : Bool :=
  c = ' ' || c = '\t' || c = '\n' || c = '\r' || c = '\x0b' || c = '\x0c' ||
  c = '\u00a0' || c = '\u2028' || c = '\u2029' || c = '\ufeff'

/-- JavaScript `s.replace(/\s+$/g, "")`: drop trailing whitespace. -/
def trimRight (xs : Line) : Line := (xs.reverse.dropWhile isJsWs).reverse

/-- Drop leading whitespace. -/
def trimLeft (xs : Line) : Line := xs.dropWhile isJsWs

/-- JavaScript `s.trim()`. -/
def trim (xs : Line) : Line := trimRight (trimLeft xs)

/-- `countLeadingSpaces` from src/App.tsx: the number of leading `' '`
characters (exactly `' '`, not general whitespace). -/
def countLeadingSpaces (s : Line) : Nat := (s.takeWhile (fun c => c = ' ')).length

/-- `input.replace(/\t/g, " ".repeat(indentSize))`. -/
def expandTabs (indentSize : Nat) (s : Line) : Line :=
  s.flatMap (fun c => if c = '\t' then List.replicate indentSize ' ' else [c])

/-- JavaScript `s.split("\n")` (an empty string yields one empty piece). -/
def splitOnNl : Line → List Line
  | [] => [[]]
  | c :: t =>
    if c = '\n' then [] :: splitOnNl t
    else
      match splitOnNl t with
      | [] => [[c]]
      | l :: ls => (c :: l) :: ls

/-- JavaScript `lines.join("\n")`. -/
def joinNl : List Line → Line
  | [] => []
  | [l] => l
  | l :: l' :: rest => l ++ '\n' :: joinNl (l' :: rest)

/-- The tree node type of src/App.tsx: a label and ordered children. -/
inductive Node where
  | mk (text : Line) (children : List Node)

def Node.text : Node → Line
  | .mk t _ => t

def Node.children : Node → List Node
  | .mk _ cs => cs

/-- One entry of the parser's stack.  In the source the node object is
attached to its parent at push time and its `children` array is mutated in
place; the pure model instead accumulates the children (in reverse) in the
frame and builds the node when the frame is popped. -/
structure Frame where
  level : Int
  text : Line
  childrenRev : List Node

/-- Popping a frame: the finished node is attached to the frame below. -/
def foldFrame (f parent : Frame) : Frame :=
  { parent with childrenRev := Node.mk f.text f.childrenRev.reverse :: parent.childrenRev }

/-- `while (stack.length && stack[stack.length-1].level >= level) stack.pop()`.
The bottom frame is the virtual root at level -1 and every line's level is
at least 0, so in the source the loop never empties the stack; the model
therefore keeps the last frame. -/
def popWhileGo (lv : Int) (f : Frame) : List Frame → List Frame
  | [] => [f]
  | f' :: rest =>
    if lv ≤ f.level then popWhileGo lv (foldFrame f f') rest else f :: f' :: rest

def popWhile (lv : Int) : List Frame → List Frame
  | [] => []
  | f :: rest => popWhileGo lv f rest

/-- Processing one line: pop to the right level, then push the new node. -/
def pushLine (s : List Frame) (it : Int × Line) : List Frame :=
  { level := it.1, text := it.2, childrenRev := [] } :: popWhile it.1 s

def runLines (s : List Frame) (items : List (Int × Line)) : List Frame :=
  items.foldl pushLine s

/-- End of input: every still-open frame is popped; the virtual root's
accumulated children (in source order) are the parse result. -/
def collapseGo (f : Frame) : List Frame → List Node
  | [] => f.childrenRev.reverse
  | f' :: rest => collapseGo (foldFrame f f') rest

def collapseStack : List Frame → List Node
  | [] => []
  | f :: rest => collapseGo f rest

def initialStack : List Frame :=
  [{ level := -1, text := "__ROOT__".toList, childrenRev := [] }]

/-- The line list of `parseIndentedTree`: expand tabs, split, strip
trailing whitespace, drop blank lines. -/
def parseLinesOf (input : Line) (indentSize : Nat) : List Line :=
  ((splitOnNl (expandTabs indentSize input)).map trimRight).filter
    (fun l => !(trim l).isEmpty)

/-- The (level, text) pair computed for one surviving line. -/
def lineItem (indentSize : Nat) (l : Line) : Int × Line :=
  (((countLeadingSpaces l / indentSize : Nat) : Int), trim l)

/-- `parseIndentedTree` from src/App.tsx, over character lists. -/
def parseIndentedTreeL (input : Line) (indentSize : Nat) : List Node :=
  collapseStack
    (runLines initialStack ((parseLinesOf input indentSize).map (lineItem indentSize)))

/-- `parseIndentedTree` from src/App.tsx. -/
def parseIndentedTree (input : String) (indentSize : Nat := 2) : List Node :=
  parseIndentedTreeL input.toList indentSize

mutual

/-- The inner `render(node, prefix, isLast)` of `renderAsciiTree`. -/
def renderNode : Node → Line → Bool → List Line
  | .mk t cs, pfx, isLast =>
    let connector := if isLast then "└─ ".toList else "├─ ".toList
    let line := pfx ++ connector ++ t
    if cs.isEmpty then [line]
    else
      let childPfx := pfx ++ (if isLast then "   ".toList else "│  ".toList)
      line :: (childPfx ++ ['│']) :: renderChildren cs childPfx

/-- The loop over `node.children` inside `render`, with the extra
`childPrefix + "│"` spacer after each non-last child. -/
def renderChildren : List Node → Line → List Line
  | [], _ => []
  | [c], pfx => renderNode c pfx true
  | c :: c' :: rest, pfx =>
    renderNode c pfx false ++ (pfx ++ ['│']) :: renderChildren (c' :: rest) pfx

end

/-- The `root.children.forEach` loop of `renderAsciiTree`: each child is
rendered with an empty prefix; no spacer line is emitted here (only the
recursive `render` emits spacers between siblings). -/
def renderRootChildren : List Node → List Line
  | [] => []
  | [c] => renderNode c [] true
  | c :: c' :: rest => renderNode c [] false ++ renderRootChildren (c' :: rest)

/-- The body of the `nodes.forEach` loop of `renderAsciiTree` for one root:
the bare label, then (when it has children) a bare vertical bar line and
the rendered children with empty prefix. -/
def renderRootLines (r : Node) : List Line :=
  r.text :: (if r.children.isEmpty then [] else (['│'] : Line) :: renderRootChildren r.children)

/-- All roots, with one empty line between consecutive roots. -/
def renderRootsLines : List Node → List Line
  | [] => []
  | [r] => renderRootLines r
  | r :: r' :: rest => renderRootLines r ++ ([] : Line) :: renderRootsLines (r' :: rest)

/-- `renderAsciiTree` from src/App.tsx, over character lists. -/
def renderAsciiTreeL (roots : List Node) : Line := joinNl (renderRootsLines roots)

/-- `renderAsciiTree` from src/App.tsx. -/
def renderAsciiTree (roots : List Node) : String := ⟨renderAsciiTreeL roots⟩

/-- Case-insensitive literal match (the `/i` regex flag): drop `needle`
from the front of the haystack, comparing lower-cased characters. -/
def dropPrefixCI : Line → Line → Option Line
  | [], hay => some hay
  | _ :: _, [] => none
  | n :: ns, h :: hs => if h.toLower = n.toLower then dropPrefixCI ns hs else none

/-- `raw.replace(/^\s*\{code(?::[^}]*)?\}\s*\n?/i, "")`: the matched part,
when the pattern matches, is leading whitespace, an opening fence marker
with optional language tag, and the whitespace run after it. -/
def matchOpenFence (xs : Line) : Option Line :=
  match dropPrefixCI "\x7bcode".toList (xs.dropWhile isJsWs) with
  | none => none
  | some r1 =>
    let r2 := match r1 with
      | ':' :: t => t.dropWhile (fun c => !(c = '}'))
      | _ => r1
    match r2 with
    | '}' :: t => some (t.dropWhile isJsWs)
    | _ => none

def stripOpenFence (xs : Line) : Line := (matchOpenFence xs).getD xs

/-- `second replace call of importJiraToIndented(/\n?\s*\{code\}\s*$/i, "")`: when the text (less trailing
whitespace) ends in a closing fence marker, that marker and the whitespace
around it are removed. -/
def stripCloseFence (xs : Line) : Line :=
  match dropPrefixCI ("{code}".toList.reverse) (trimRight xs).reverse with
  | some rest => trimRight rest.reverse
  | none => xs

/-- `raw.replace(/\r\n/g, "\n")`. -/
def replaceCrNl : Line → Line
  | [] => []
  | [c] => [c]
  | c :: c' :: t =>
    if c = '\r' ∧ c' = '\n' then '\n' :: replaceCrNl t
    else c :: replaceCrNl (c' :: t)

/-- The pure-connector test `/^[│\s]+$/` applied to a trimmed line. -/
def connectorOnly (l : Line) : Bool :=
  !l.isEmpty && l.all (fun c => c = '│' || isJsWs c)

/-- JavaScript `hay.indexOf(needle)` (`none` plays the role of -1). -/
def indexOfSub : Line → Line → Option Nat
  | [], needle => if needle.isPrefixOf ([] : Line) then some 0 else none
  | c :: t, needle =>
    if needle.isPrefixOf (c :: t) then some 0
    else (indexOfSub t needle).map (· + 1)

def markerA : Line := "├─ ".toList
def markerB : Line := "└─ ".toList

/-- The body of the per-line loop of `importJiraToIndented`: `none` means
the line is dropped, `some l` means `l` is appended to the output. -/
def importLine (indentSize : Nat) (line : Line) : Option Line :=
  let trimmed := trim line
  if trimmed.isEmpty then some []
  else if connectorOnly trimmed then none
  else
    let idxA := indexOfSub line markerA
    let idxB := indexOfSub line markerB
    let idx := match idxA with
      | some i => some i
      | none => idxB
    match idx with
    | none => some trimmed
    | some i =>
      let pfx := line.take i
      let text := trim (line.drop (i + 3))
      let level := Nat.max 0 (pfx.length / 3 + 1)
      some (List.replicate (level * indentSize) ' ' ++ text)

/-- `while (out.length && out[out.length-1].trim() === "") out.pop()`. -/
def dropTrailingBlank (ls : List Line) : List Line :=
  (ls.reverse.dropWhile (fun l => (trim l).isEmpty)).reverse

/-- `importJiraToIndented` from src/App.tsx, over character lists. -/
def importJiraToIndentedL (raw : Line) (indentSize : Nat) : Line :=
  let withoutCode := stripCloseFence (stripOpenFence raw)
  let lines := (splitOnNl (replaceCrNl withoutCode)).map trimRight
  joinNl (dropTrailingBlank (lines.filterMap (importLine indentSize)))

/-- `importJiraToIndented` from src/App.tsx. -/
def importJiraToIndented (raw : String) (indentSize : Nat := 2) : String :=
  ⟨importJiraToIndentedL raw.toList indentSize⟩

/-! ## Helper lemmas about the string primitives -/

theorem expandTabs_eq_self {n : Nat} {xs : Line} (h : ∀ c ∈ xs, ¬ c = '\t') :
    expandTabs n xs = xs := by
  induction xs with
  | nil => rfl
  | cons c t ih =>
    have hc : ¬ c = '\t' := h c (by simp)
    simp only [expandTabs, List.flatMap_cons, if_neg hc]
    have := ih (fun d hd => h d (by simp [hd]))
    simpa [expandTabs] using this

theorem splitOnNl_no_nl {xs : Line} (h : ∀ c ∈ xs, ¬ c = '\n') :
    splitOnNl xs = [xs] := by
  induction xs with
  | nil => rfl
  | cons c t ih =>
    have hc : ¬ c = '\n' := h c (by simp)
    have ht := ih (fun d hd => h d (by simp [hd]))
    simp only [splitOnNl, if_neg hc, ht]

theorem trimRight_append_nonws {xs : Line} {c : Char} (h : isJsWs c = false) :
    trimRight (xs ++ [c]) = xs ++ [c] := by
  simp [trimRight, List.dropWhile_cons, h]

/-! ## C2: concrete rendering of the two-sibling scenario -/

/-- C2 counterexample: for the tree parsed from `"A\n  B\n  C"`, the
renderer does not produce the five lines `A / │ / ├─ B / │ / └─ C`
claimed by the spec scenario. -/
theorem renderAsciiTree_root_spacer_cex :
    renderAsciiTree [Node.mk "A".toList [Node.mk "B".toList [], Node.mk "C".toList []]] ≠
      "A\n│\n├─ B\n│\n└─ C" := by decide

/-- C2 (amended): `"A\n  B\n  C"` with indent size 2 parses to one root
`A` with children `B`, `C`, and `renderAsciiTree` of that tree produces
exactly the four lines `A`, `│`, `├─ B`, `└─ C`: no vertical-bar spacer
line is emitted between sibling branches directly under a root (the
spacer only appears between siblings rendered by the recursive
procedure, i.e. at depth two or more). -/
theorem renderAsciiTree_scenario1 :
    parseIndentedTree "A\n  B\n  C" 2 =
        [Node.mk "A".toList [Node.mk "B".toList [], Node.mk "C".toList []]] ∧
    renderAsciiTree [Node.mk "A".toList [Node.mk "B".toList [], Node.mk "C".toList []]] =
      "A\n│\n├─ B\n└─ C" :=
  ⟨rfl, rfl⟩

/-! ## C9: pure-connector labels are lost by the round trip -/

/-- C9: a tree containing a node whose label is the pure connector
string `│` (here a root labelled `│`, parsed from the input `"│"`)
loses that node on the render/import round trip: the importer
misclassifies the rendered label line as a spacer and drops it, so the
re-parsed tree is empty. -/
theorem roundTrip_drops_pure_connector_label :
    parseIndentedTree "│" 2 = [Node.mk ['│'] []] ∧
    importJiraToIndented (renderAsciiTree [Node.mk ['│'] []]) 2 = "" ∧
    parseIndentedTree (importJiraToIndented (renderAsciiTree [Node.mk ['│'] []])) 2 = [] :=
  ⟨rfl, rfl, rfl⟩

/-! ## C3: where the importer splits a line with both markers -/

/-- C3 counterexample: on the line `└─ x ├─ y`, where the marker `└─ `
occurs (at index 0) before the marker `├─ ` (at index 5), the importer
splits at the `├─ ` occurrence, not at the earliest marker: the output
is four spaces and `y`, not the two-space line `x ├─ y` that an
earliest-occurrence split (prefix empty, level 1) would produce. -/
theorem importJira_earliest_marker_cex :
    importJiraToIndented "└─ x ├─ y" 2 = "    y" ∧
    ("    y" : String) ≠ "  x ├─ y" :=
  ⟨rfl, by decide⟩

/-- `indexOf` semantics: the returned index is the first position where
the needle occurs. -/
theorem indexOfSub_eq_some_iff : ∀ (hay needle : Line) (i : Nat),
    indexOfSub hay needle = some i ↔
      (needle.isPrefixOf (hay.drop i) = true ∧
       ∀ j, j < i → ¬ needle.isPrefixOf (hay.drop j) = true)
  | [], needle, i => by
    simp only [indexOfSub, List.drop_nil]
    split
    · next h =>
      constructor
      · rintro ⟨rfl⟩
        exact ⟨h, by omega⟩
      · rintro ⟨h1, h2⟩
        rcases Nat.eq_zero_or_pos i with rfl | hi
        · rfl
        · exact absurd h (h2 0 hi)
    · next h =>
      constructor
      · rintro ⟨⟩
      · rintro ⟨h1, -⟩
        exact absurd h1 h
  | c :: t, needle, i => by
    simp only [indexOfSub]
    split
    · next h =>
      constructor
      · rintro ⟨rfl⟩
        exact ⟨h, by omega⟩
      · rintro ⟨h1, h2⟩
        rcases Nat.eq_zero_or_pos i with rfl | hi
        · rfl
        · exact absurd h (by simpa using h2 0 hi)
    · next h =>
      rw [Option.map_eq_some']
      constructor
      · rintro ⟨i', hi', rfl⟩
        rcases (indexOfSub_eq_some_iff t needle i').1 hi' with ⟨h1, h2⟩
        refine ⟨by simpa using h1, ?_⟩
        intro j hj
        cases j with
        | zero => simpa using h
        | succ j' => simpa using h2 j' (by omega)
      · rintro ⟨h1, h2⟩
        cases i with
        | zero => exact absurd (by simpa using h1) h
        | succ i' =>
          refine ⟨i', (indexOfSub_eq_some_iff t needle i').2 ⟨by simpa using h1, ?_⟩, rfl⟩
          intro j hj
          have := h2 (j + 1) (by omega)
          simpa using this

/-- C3 (amended): a non-blank, non-pure-connector line is split at the
first occurrence of `├─ ` whenever that marker is present — regardless
of any earlier `└─ ` occurrence; the prefix before that occurrence
determines the level `i / 3 + 1` and the trimmed text after it is the
label.  (Only when `├─ ` is absent does the first `└─ ` occurrence get
used.) -/
theorem importLine_splits_at_first_markerA (n : Nat) (line : Line) (i : Nat)
    (hblank : (trim line).isEmpty = false)
    (hconn : connectorOnly (trim line) = false)
    (hpre : markerA.isPrefixOf (line.drop i) = true)
    (hmin : ∀ j, j < i → ¬ markerA.isPrefixOf (line.drop j) = true) :
    importLine n line =
      some (List.replicate ((i / 3 + 1) * n) ' ' ++ trim (line.drop (i + 3))) := by
  have hidx : indexOfSub line markerA = some i :=
    (indexOfSub_eq_some_iff line markerA i).2 ⟨hpre, hmin⟩
  have hi : i < line.length := by
    by_contra hle
    have hnil : line.drop i = [] := List.drop_eq_nil_of_le (by omega)
    rw [hnil] at hpre
    exact absurd hpre (by decide)
  have htake : (line.take i).length = i := by
    rw [List.length_take]
    omega
  simp only [importLine, hblank, hconn, hidx, Bool.false_eq_true, if_false, htake,
    Nat.zero_max]

/-- Witness for the C3 theorem at the counterexample line: the `├─ `
occurrence at index 5 wins over the `└─ ` occurrence at index 0. -/
theorem importLine_splits_at_first_markerA_witness :
    importLine 2 "└─ x ├─ y".toList =
      some (List.replicate 4 ' ' ++ trim ("└─ x ├─ y".toList.drop 8)) :=
  importLine_splits_at_first_markerA 2 "└─ x ├─ y".toList 5
    (by decide) (by decide) (by decide) (by decide)

/-! ## C7: deep indentation is clamped to one extra level -/

theorem dropWhile_ws_replicate_space (k : Nat) (ys : Line) :
    List.dropWhile isJsWs (List.replicate k ' ' ++ ys) = List.dropWhile isJsWs ys := by
  apply List.dropWhile_append_of_pos
  intro a ha
  rw [List.eq_of_mem_replicate ha]
  decide

theorem takeWhile_space_replicate (k : Nat) (ys : Line)
    (h : List.takeWhile (fun c => c = ' ') ys = []) :
    List.takeWhile (fun c => c = ' ') (List.replicate k ' ' ++ ys) = List.replicate k ' ' := by
  rw [List.takeWhile_append_of_pos, h, List.append_nil]
  intro a ha
  rw [List.eq_of_mem_replicate ha]
  decide

/-- C7: the input `"A\n    B"` (four leading spaces, indent size 2)
parses to a single root `A` with one direct child `B` at depth 1; and in
general a two-line input whose second line is indented by any `k ≥ 2`
spaces yields the same tree — the over-indented line becomes a direct
child of its nearest remaining ancestor and no intermediate nodes are
created. -/
theorem parseIndentedTree_clamps_deep_indent :
    parseIndentedTree "A\n    B" 2 = [Node.mk "A".toList [Node.mk "B".toList []]] ∧
    ∀ k, 2 ≤ k →
      parseIndentedTreeL ('A' :: '\n' :: (List.replicate k ' ' ++ ['B'])) 2 =
        [Node.mk "A".toList [Node.mk "B".toList []]] := by
  refine ⟨rfl, fun k hk => ?_⟩
  have hnotab : expandTabs 2 ('A' :: '\n' :: (List.replicate k ' ' ++ ['B'])) =
      'A' :: '\n' :: (List.replicate k ' ' ++ ['B']) := by
    apply expandTabs_eq_self
    intro c hc
    simp only [List.mem_cons, List.mem_append, List.mem_replicate,
      List.mem_singleton] at hc
    rcases hc with rfl | rfl | ⟨-, rfl⟩ | rfl | h
    · decide
    · decide
    · decide
    · decide
    · exact absurd h (by simp)
  have hsplit : splitOnNl ('A' :: '\n' :: (List.replicate k ' ' ++ ['B'])) =
      [['A'], List.replicate k ' ' ++ ['B']] := by
    have hrest : splitOnNl (List.replicate k ' ' ++ ['B']) = [List.replicate k ' ' ++ ['B']] := by
      apply splitOnNl_no_nl
      intro c hc
      simp only [List.mem_append, List.mem_replicate, List.mem_singleton] at hc
      rcases hc with ⟨-, rfl⟩ | rfl
      · decide
      · decide
    simp [splitOnNl, hrest]
  have htrimB : trimRight (List.replicate k ' ' ++ ['B']) = List.replicate k ' ' ++ ['B'] :=
    trimRight_append_nonws (by decide)
  have hdropB : List.dropWhile isJsWs (List.replicate k ' ' ++ ['B']) = ['B'] := by
    rw [dropWhile_ws_replicate_space]
    decide
  have htrimfull : trim (List.replicate k ' ' ++ ['B']) = ['B'] := by
    simp only [trim, trimLeft, hdropB]
    decide
  have hlead : countLeadingSpaces (List.replicate k ' ' ++ ['B']) = k := by
    simp [countLeadingSpaces, takeWhile_space_replicate k ['B'] (by decide)]
  have hfB : (!(trim (List.replicate k ' ' ++ ['B'])).isEmpty) = true := by
    rw [htrimfull]
    decide
  have hlines : parseLinesOf ('A' :: '\n' :: (List.replicate k ' ' ++ ['B'])) 2 =
      [['A'], List.replicate k ' ' ++ ['B']] := by
    simp only [parseLinesOf, hnotab, hsplit, List.map_cons, List.map_nil, htrimB]
    rw [show trimRight ['A'] = ['A'] from rfl]
    rw [List.filter_cons, List.filter_cons, List.filter_nil]
    rw [hfB]
    norm_num
    decide
  have hitemA : lineItem 2 ['A'] = ((0 : Int), ['A']) := by decide
  have hitemB : lineItem 2 (List.replicate k ' ' ++ ['B']) = (((k / 2 : Nat) : Int), ['B']) := by
    simp only [lineItem, hlead, htrimfull]
  have hk2 : ¬ ((k / 2 : Nat) : Int) ≤ 0 := by
    have h1 : 1 ≤ k / 2 := by omega
    omega
  simp only [parseIndentedTreeL, hlines, List.map_cons, List.map_nil, hitemA, hitemB,
    runLines, List.foldl_cons, List.foldl_nil]
  rw [show pushLine initialStack ((0 : Int), ['A']) =
      [⟨0, ['A'], []⟩, ⟨-1, "__ROOT__".toList, []⟩] from rfl]
  simp only [pushLine, popWhile, popWhileGo]
  rw [if_neg hk2]
  rfl

/-- Witness for C7 at the concrete over-indented input (k = 4). -/
theorem parseIndentedTree_clamps_deep_indent_witness :
    2 ≤ 4 ∧
    parseIndentedTreeL ('A' :: '\n' :: (List.replicate 4 ' ' ++ ['B'])) 2 =
      [Node.mk "A".toList [Node.mk "B".toList []]] :=
  ⟨by decide, parseIndentedTree_clamps_deep_indent.2 4 (by decide)⟩

/-! ## C8: the code fence is stripped regardless of its language tag -/

theorem dropPrefixCI_self_append (ns xs : Line) : dropPrefixCI ns (ns ++ xs) = some xs := by
  induction ns with
  | nil => rfl
  | cons n t ih => simp [dropPrefixCI, ih]

/-- C8: importing the fenced text `{code:java} / A / │ / └─ B / {code}`
with indent size 2 returns exactly `"A\n  B"`; and the same holds with
`java` replaced by any language tag (any character list free of `}`),
since the wrapper is stripped regardless of the tag: the connector-only
line `│` is dropped, `A` lands at level 0 and `B` at level 1. -/
theorem importJira_strips_code_fence :
    importJiraToIndented "\x7bcode:java\x7d\nA\n│\n└─ B\n\x7bcode\x7d" 2 = "A\n  B" ∧
    ∀ tag : Line, (∀ c ∈ tag, ¬ c = '}') →
      importJiraToIndentedL ("\x7bcode:".toList ++ (tag ++ "\x7d\nA\n│\n└─ B\n\x7bcode\x7d".toList)) 2 =
        "A\n  B".toList := by
  refine ⟨rfl, fun tag htag => ?_⟩
  have hshape : "\x7bcode:".toList ++ (tag ++ "\x7d\nA\n│\n└─ B\n\x7bcode\x7d".toList) =
      '{' :: (['c','o','d','e',':'] ++ (tag ++ ('}' :: "\nA\n│\n└─ B\n{code}".toList))) := by
    simp
  have hdropTag : List.dropWhile (fun c => !(c = '}'))
        (tag ++ ('}' :: "\nA\n│\n└─ B\n{code}".toList)) =
      '}' :: "\nA\n│\n└─ B\n{code}".toList := by
    rw [List.dropWhile_append_of_pos]
    · rw [List.dropWhile_cons, if_neg (by norm_num)]
    · intro a ha
      simp [htag a ha]
  have hmatch : matchOpenFence ('{' :: (['c','o','d','e',':'] ++
        (tag ++ ('}' :: "\nA\n│\n└─ B\n{code}".toList)))) =
      some ("\nA\n│\n└─ B\n{code}".toList.dropWhile isJsWs) := by
    rw [matchOpenFence]
    rw [List.dropWhile_cons, if_neg (by decide)]
    rw [show ('{' :: (['c','o','d','e',':'] ++ (tag ++ ('}' :: "\nA\n│\n└─ B\n{code}".toList)))) =
        "\x7bcode".toList ++ (':' :: (tag ++ ('}' :: "\nA\n│\n└─ B\n{code}".toList))) from by simp]
    rw [dropPrefixCI_self_append]
    simp only [hdropTag]
  have hopen : stripOpenFence ("\x7bcode:".toList ++ (tag ++ "\x7d\nA\n│\n└─ B\n\x7bcode\x7d".toList)) =
      "A\n│\n└─ B\n{code}".toList := by
    rw [stripOpenFence, hshape, hmatch]
    rfl
  simp only [importJiraToIndentedL, hopen]
  rfl

/-- Witness for C8 with the concrete tag `java`. -/
theorem importJira_strips_code_fence_witness :
    importJiraToIndentedL ("\x7bcode:".toList ++ ("java".toList ++ "\x7d\nA\n│\n└─ B\n\x7bcode\x7d".toList)) 2 =
      "A\n  B".toList :=
  importJira_strips_code_fence.2 "java".toList (by decide)

/-! ## Trim and whitespace lemmas -/

theorem head?_dropWhile_not {α : Type} (p : α → Bool) :
    ∀ (l : List α) {c : α}, ((l.dropWhile p).head? = some c) → p c = false := by
  intro l
  induction l with
  | nil => intro c h; simp at h
  | cons a t ih =>
    intro c h
    rw [List.dropWhile_cons] at h
    split at h
    · exact ih h
    · next hpa =>
      simp only [List.head?_cons, Option.some.injEq] at h
      subst h
      simpa using hpa

theorem trimRight_pfx (l : Line) : trimRight l <+: l := by
  have h1 : List.dropWhile isJsWs l.reverse <:+ l.reverse := List.dropWhile_suffix isJsWs
  have h2 := List.reverse_prefix.2 h1
  rwa [List.reverse_reverse] at h2

theorem getLast?_trimRight {l : Line} {c : Char} (h : (trimRight l).getLast? = some c) :
    isJsWs c = false := by
  rw [trimRight, List.getLast?_reverse] at h
  exact head?_dropWhile_not isJsWs l.reverse h

theorem trimLeft_eq_self {l : Line} (h : ∀ c, l.head? = some c → isJsWs c = false) :
    trimLeft l = l := by
  cases l with
  | nil => rfl
  | cons a t =>
    rw [trimLeft, List.dropWhile_cons, if_neg]
    simp [h a rfl]

theorem trimRight_eq_self {l : Line} (h : ∀ c, l.getLast? = some c → isJsWs c = false) :
    trimRight l = l := by
  rw [trimRight]
  have : List.dropWhile isJsWs l.reverse = l.reverse := by
    cases hr : l.reverse with
    | nil => rfl
    | cons a t =>
      rw [List.dropWhile_cons, if_neg]
      have : l.getLast? = some a := by
        rw [← List.head?_reverse, hr, List.head?_cons]
      simp [h a this]
  rw [this, List.reverse_reverse]

theorem head?_trimRight {l : Line} {c : Char} (h : (trimRight l).head? = some c) :
    l.head? = some c := by
  obtain ⟨t, ht⟩ := trimRight_pfx l
  cases htr : trimRight l with
  | nil => rw [htr] at h; simp at h
  | cons a s =>
    rw [htr] at h ht
    simp only [List.head?_cons, Option.some.injEq] at h
    subst h
    rw [← ht]
    rfl

theorem head?_trim {xs : Line} {c : Char} (h : (trim xs).head? = some c) :
    isJsWs c = false := by
  rw [trim] at h
  exact head?_dropWhile_not isJsWs xs (head?_trimRight h)

theorem getLast?_trim {xs : Line} {c : Char} (h : (trim xs).getLast? = some c) :
    isJsWs c = false := by
  rw [trim] at h
  exact getLast?_trimRight h

theorem trim_trim (xs : Line) : trim (trim xs) = trim xs := by
  conv_lhs => rw [trim]
  rw [trimLeft_eq_self (fun c hc => head?_trim hc)]
  exact trimRight_eq_self (fun c hc => getLast?_trim hc)

theorem mem_trim {xs : Line} {c : Char} (h : c ∈ trim xs) : c ∈ xs := by
  rw [trim] at h
  have h1 : c ∈ trimLeft xs := (trimRight_pfx (trimLeft xs)).sublist.subset h
  exact List.dropWhile_subset isJsWs h1

/-! ## Labels of a parse result -/

mutual

/-- All labels of a tree, in pre-order. -/
def Node.labels : Node → List Line
  | .mk t cs => t :: labelsForest cs

/-- All labels of a forest. -/
def labelsForest : List Node → List Line
  | [] => []
  | c :: rest => c.labels ++ labelsForest rest

end

theorem mem_labelsForest : ∀ (cs : List Node) (l : Line),
    l ∈ labelsForest cs ↔ ∃ n ∈ cs, l ∈ n.labels := by
  intro cs
  induction cs with
  | nil => simp [labelsForest]
  | cons c rest ih =>
    intro l
    simp [labelsForest, ih]

theorem labelsForest_reverse (cs : List Node) (l : Line) :
    l ∈ labelsForest cs.reverse ↔ l ∈ labelsForest cs := by
  rw [mem_labelsForest, mem_labelsForest]
  constructor
  · rintro ⟨n, hn, hl⟩
    exact ⟨n, List.mem_reverse.1 hn, hl⟩
  · rintro ⟨n, hn, hl⟩
    exact ⟨n, List.mem_reverse.2 hn, hl⟩

/-- The labels a stack frame can still contribute to the final forest. -/
def GoodFrame (P : Line → Prop) (f : Frame) : Prop :=
  P f.text ∧ ∀ l ∈ labelsForest f.childrenRev, P l

def GoodStack (P : Line → Prop) (s : List Frame) : Prop := ∀ f ∈ s, GoodFrame P f

theorem goodFrame_fold {P : Line → Prop} {f f' : Frame}
    (hf : GoodFrame P f) (hf' : GoodFrame P f') : GoodFrame P (foldFrame f f') := by
  refine ⟨hf'.1, ?_⟩
  intro l hl
  simp only [foldFrame, labelsForest, Node.labels, List.mem_append, List.mem_cons,
    labelsForest_reverse] at hl
  rcases hl with (rfl | h) | h
  · exact hf.1
  · exact hf.2 l h
  · exact hf'.2 l h

theorem popWhileGo_good {P : Line → Prop} :
    ∀ (s : List Frame) (lv : Int) (f : Frame),
      GoodFrame P f → GoodStack P s → GoodStack P (popWhileGo lv f s) := by
  intro s
  induction s with
  | nil =>
    intro lv f hf _
    intro g hg
    rcases List.mem_singleton.1 hg with rfl
    exact hf
  | cons f' rest ih =>
    intro lv f hf hs
    rw [popWhileGo]
    split
    · apply ih
      · exact goodFrame_fold hf (hs f' (by simp))
      · intro g hg
        exact hs g (by simp [hg])
    · intro g hg
      rcases List.mem_cons.1 hg with rfl | hg'
      · exact hf
      · rcases List.mem_cons.1 hg' with rfl | hg''
        · exact hs g (by simp)
        · exact hs g (by simp [hg''])

theorem pushLine_good {P : Line → Prop} {s : List Frame} {it : Int × Line}
    (hs : GoodStack P s) (hit : P it.2) : GoodStack P (pushLine s it) := by
  intro g hg
  rw [pushLine] at hg
  rcases List.mem_cons.1 hg with rfl | hg'
  · exact ⟨hit, by intro l hl; simp [labelsForest] at hl⟩
  · rcases s with _ | ⟨f, rest⟩
    · simp [popWhile] at hg'
    · rw [popWhile] at hg'
      exact popWhileGo_good rest it.1 f (hs f (by simp)) (fun g' hg'' => hs g' (by simp [hg''])) g hg'

theorem runLines_good {P : Line → Prop} :
    ∀ (items : List (Int × Line)) (s : List Frame),
      GoodStack P s → (∀ it ∈ items, P it.2) → GoodStack P (runLines s items) := by
  intro items
  induction items with
  | nil => intro s hs _; exact hs
  | cons it rest ih =>
    intro s hs hits
    rw [runLines, List.foldl_cons]
    exact ih (pushLine s it) (pushLine_good hs (hits it (by simp))) (fun j hj => hits j (by simp [hj]))

theorem collapseGo_good {P : Line → Prop} :
    ∀ (rest : List Frame) (f : Frame),
      GoodFrame P f → GoodStack P rest → ∀ l ∈ labelsForest (collapseGo f rest), P l := by
  intro rest
  induction rest with
  | nil =>
    intro f hf _ l hl
    rw [collapseGo] at hl
    exact hf.2 l ((labelsForest_reverse f.childrenRev l).1 hl)
  | cons f' rest' ih =>
    intro f hf hs l hl
    rw [collapseGo] at hl
    exact ih (foldFrame f f') (goodFrame_fold hf (hs f' (by simp)))
      (fun g hg => hs g (by simp [hg])) l hl

theorem collapseStack_good {P : Line → Prop} {s : List Frame}
    (hs : GoodStack P s) : ∀ l ∈ labelsForest (collapseStack s), P l := by
  rcases s with _ | ⟨f, rest⟩
  · intro l hl
    simp [collapseStack, labelsForest] at hl
  · rw [collapseStack]
    exact collapseGo_good rest f (hs f (by simp)) (fun g hg => hs g (by simp [hg]))

/-! ## C10: labels of a parse are never blank -/

theorem mem_expandTabs {n : Nat} {xs : Line} {c : Char} (h : c ∈ expandTabs n xs) :
    ¬ c = '\t' := by
  rw [expandTabs, List.mem_flatMap] at h
  obtain ⟨a, -, hc⟩ := h
  split at hc
  · rw [List.eq_of_mem_replicate hc]
    decide
  · next ha =>
    rcases List.mem_singleton.1 hc with rfl
    exact ha

theorem mem_splitOnNl : ∀ {xs : Line} {p : Line}, p ∈ splitOnNl xs →
    ∀ c ∈ p, c ∈ xs ∧ ¬ c = '\n' := by
  intro xs
  induction xs with
  | nil =>
    intro p hp c hc
    rw [splitOnNl] at hp
    rcases List.mem_singleton.1 hp with rfl
    simp at hc
  | cons a t ih =>
    intro p hp c hc
    rw [splitOnNl] at hp
    split at hp
    · next ha =>
      rcases List.mem_cons.1 hp with rfl | hp'
      · simp at hc
      · have := ih hp' c hc
        exact ⟨by simp [this.1], this.2⟩
    · next ha =>
      split at hp
      · next hnil =>
        rcases List.mem_singleton.1 hp with rfl
        rcases List.mem_singleton.1 hc with rfl
        exact ⟨by simp, ha⟩
      · next l ls hsp =>
        rcases List.mem_cons.1 hp with rfl | hp'
        · rcases List.mem_cons.1 hc with rfl | hc'
          · exact ⟨by simp, ha⟩
          · have hl : l ∈ splitOnNl t := by rw [hsp]; simp
            have := ih hl c hc'
            exact ⟨by simp [this.1], this.2⟩
        · have hmem : p ∈ splitOnNl t := by rw [hsp]; simp [hp']
          have := ih hmem c hc
          exact ⟨by simp [this.1], this.2⟩

/-- A label as produced by the parser: a fixed point of trim, non-empty,
with no tab and no newline characters. -/
def goodLabel (l : Line) : Prop :=
  trim l = l ∧ l ≠ [] ∧ ∀ c ∈ l, ¬ c = '\t' ∧ ¬ c = '\n'

/-- Every label of a parsed forest is trim-fixed, non-empty, and free of
tabs and newlines. -/
theorem parse_labels_good (input : Line) (n : Nat) :
    ∀ l ∈ labelsForest (parseIndentedTreeL input n), goodLabel l := by
  rw [parseIndentedTreeL]
  apply collapseStack_good
  apply runLines_good
  · intro f hf
    rcases List.mem_singleton.1 hf with rfl
    refine ⟨⟨rfl, ?_, ?_⟩, ?_⟩
    · decide
    · decide
    · intro l hl
      simp [labelsForest] at hl
  · intro it hit
    rw [List.mem_map] at hit
    obtain ⟨raw, hraw, rfl⟩ := hit
    rw [parseLinesOf, List.mem_filter] at hraw
    obtain ⟨hmem, hne⟩ := hraw
    rw [List.mem_map] at hmem
    obtain ⟨piece, hpiece, rfl⟩ := hmem
    refine ⟨trim_trim _, ?_, ?_⟩
    · intro hnil
      rw [lineItem] at hnil
      simp only at hnil
      rw [hnil] at hne
      simp at hne
    · intro c hc
      have hc' : c ∈ trimRight piece := mem_trim (by simpa [lineItem] using hc)
      have hc'' : c ∈ piece := (trimRight_pfx piece).sublist.subset hc'
      have h1 := mem_splitOnNl hpiece c hc''
      exact ⟨mem_expandTabs h1.1, h1.2⟩

/-- C10: for every input string and positive indent size, every node in
the parsed forest (including all descendants) has a non-empty label that
is moreover a fixed point of trim — blank lines never become nodes and
no whitespace-only label is ever constructed. -/
theorem parseIndentedTree_labels_nonblank (input : String) (n : Nat) (hn : 0 < n) :
    ∀ l ∈ labelsForest (parseIndentedTree input n), l ≠ [] ∧ trim l = l := by
  intro l hl
  have h := parse_labels_good input.toList n l hl
  exact ⟨h.2.1, h.1⟩

/-- Witness for C10 at a concrete input. -/
theorem parseIndentedTree_labels_nonblank_witness :
    0 < 2 ∧ ∀ l ∈ labelsForest (parseIndentedTree "A\n  B" 2), l ≠ [] ∧ trim l = l :=
  ⟨by decide, parseIndentedTree_labels_nonblank "A\n  B" 2 (by decide)⟩

/-! ## C1 scaffolding: pre-order item and line serialisations -/

mutual

/-- Pre-order (level, label) items of one tree rooted at level d. -/
def spillNode : Node → Int → List (Int × Line)
  | .mk t cs, d => (d, t) :: spillForest cs (d + 1)

/-- Pre-order (level, label) items of a forest at level d. -/
def spillForest : List Node → Int → List (Int × Line)
  | [], _ => []
  | c :: rest, d => spillNode c d ++ spillForest rest d

end

mutual

/-- The indentation lines of one tree at depth d. -/
def indentNode (n : Nat) : Node → Nat → List Line
  | .mk t cs, d => (List.replicate (d * n) ' ' ++ t) :: indentForest n cs (d + 1)

/-- The indentation lines of a forest at depth d. -/
def indentForest (n : Nat) : List Node → Nat → List Line
  | [], _ => []
  | c :: rest, d => indentNode n c d ++ indentForest n rest d

end

/-- The indentation lines the importer produces from a rendered forest:
the pre-order lines with one blank line between consecutive roots. -/
def indentRoots (n : Nat) : List Node → List Line
  | [] => []
  | [r] => indentNode n r 0
  | r :: r' :: rest => indentNode n r 0 ++ [] :: indentRoots n (r' :: rest)

/-- Attach a finished tree to the stack's top frame. -/
def pushNodeTop (t : Node) : List Frame → List Frame
  | [] => []
  | f :: rest => { f with childrenRev := t :: f.childrenRev } :: rest

def pushForestTop (cs : List Node) (s : List Frame) : List Frame :=
  cs.foldl (fun s' c => pushNodeTop c s') s

theorem popWhile_top_lt {lv : Int} {f : Frame} (h : f.level < lv) (rest : List Frame) :
    popWhile lv (f :: rest) = f :: rest := by
  cases rest with
  | nil => rfl
  | cons f' rs =>
    rw [popWhile, popWhileGo, if_neg]
    omega

theorem pushForestTop_cons_frame :
    ∀ (cs : List Node) (f : Frame) (rest : List Frame),
      pushForestTop cs (f :: rest) = { f with childrenRev := cs.reverse ++ f.childrenRev } :: rest := by
  intro cs
  induction cs with
  | nil => intro f rest; rfl
  | cons c cs' ih =>
    intro f rest
    rw [show pushForestTop (c :: cs') (f :: rest) =
        pushForestTop cs' (pushNodeTop c (f :: rest)) from rfl]
    rw [pushNodeTop, ih]
    simp

theorem collapse_popWhileGo :
    ∀ (rest : List Frame) (f : Frame) (lv : Int),
      collapseStack (popWhileGo lv f rest) = collapseGo f rest := by
  intro rest
  induction rest with
  | nil => intro f lv; rfl
  | cons f' rs ih =>
    intro f lv
    rw [popWhileGo]
    split
    · rw [ih, collapseGo]
    · rfl

theorem collapse_popWhile (s : List Frame) (lv : Int) :
    collapseStack (popWhile lv s) = collapseStack s := by
  cases s with
  | nil => rfl
  | cons f rest => rw [popWhile, collapse_popWhileGo, collapseStack]

theorem runLines_cons (s : List Frame) (it : Int × Line) (l : List (Int × Line)) :
    runLines s (it :: l) = runLines (pushLine s it) l := rfl

theorem runLines_append (s : List Frame) (a b : List (Int × Line)) :
    runLines s (a ++ b) = runLines (runLines s a) b := by
  rw [runLines, runLines, runLines, List.foldl_append]

mutual

/-- Running the pre-order items of one tree on a stack whose top is
strictly shallower, then popping to any level at most d, is the same as
attaching the finished tree to the top frame and popping. -/
theorem runLines_spillNode : ∀ (t : Node) (d ℓ : Int) (f : Frame) (rest : List Frame),
    f.level < d → ℓ ≤ d →
    popWhile ℓ (runLines (f :: rest) (spillNode t d)) =
      popWhile ℓ (pushNodeTop t (f :: rest))
  | .mk txt cs, d, ℓ, f, rest, hf, hℓ => by
    rw [spillNode, runLines_cons, pushLine, popWhile_top_lt hf]
    have hforest := runLines_spillForest cs (d + 1) ℓ
      { level := d, text := txt, childrenRev := [] } (f :: rest) (by simp) (by omega)
    rw [hforest, pushForestTop_cons_frame]
    simp only [List.append_nil]
    rw [pushNodeTop]
    rcases rest with _ | ⟨f', rest'⟩
    · rw [popWhile, popWhileGo, if_pos hℓ]
      rw [show foldFrame { level := d, text := txt, childrenRev := cs.reverse } f =
          { f with childrenRev := Node.mk txt cs :: f.childrenRev } from by
        rw [foldFrame]; simp]
      rfl
    · rw [popWhile, popWhileGo, if_pos hℓ]
      rw [show foldFrame { level := d, text := txt, childrenRev := cs.reverse } f =
          { f with childrenRev := Node.mk txt cs :: f.childrenRev } from by
        rw [foldFrame]; simp]
      rfl

/-- Forest version of `runLines_spillNode`. -/
theorem runLines_spillForest : ∀ (cs : List Node) (d ℓ : Int) (f : Frame) (rest : List Frame),
    f.level < d → ℓ ≤ d →
    popWhile ℓ (runLines (f :: rest) (spillForest cs d)) =
      popWhile ℓ (pushForestTop cs (f :: rest))
  | [], _, _, _, _, _, _ => rfl
  | [c], d, ℓ, f, rest, hf, hℓ => by
    rw [spillForest, spillForest, List.append_nil]
    exact runLines_spillNode c d ℓ f rest hf hℓ
  | c :: c' :: cs'', d, ℓ, f, rest, hf, hℓ => by
    rw [spillForest, runLines_append]
    have hX : popWhile d (runLines (f :: rest) (spillNode c d)) =
        pushNodeTop c (f :: rest) := by
      rw [runLines_spillNode c d d f rest hf (by omega), pushNodeTop,
        popWhile_top_lt (show Frame.level { f with childrenRev := c :: f.childrenRev } < d from hf)]
    rcases c' with ⟨t', cs'⟩
    rw [show spillForest (Node.mk t' cs' :: cs'') d =
        (d, t') :: (spillForest cs' (d + 1) ++ spillForest cs'' d) from by
      rw [spillForest, spillNode]; simp]
    rw [runLines_cons, pushLine, hX]
    rw [show pushNodeTop c (f :: rest) =
        { f with childrenRev := c :: f.childrenRev } :: rest from rfl]
    have hrec := runLines_spillForest (Node.mk t' cs' :: cs'') d ℓ
      { f with childrenRev := c :: f.childrenRev } rest hf hℓ
    rw [show spillForest (Node.mk t' cs' :: cs'') d =
        (d, t') :: (spillForest cs' (d + 1) ++ spillForest cs'' d) from by
      rw [spillForest, spillNode]; simp] at hrec
    rw [runLines_cons, pushLine,
      popWhile_top_lt (show Frame.level { f with childrenRev := c :: f.childrenRev } < d from hf)]
      at hrec
    rw [hrec]
    rfl

end

/-! ## Parsing the indented serialisation reconstructs the forest -/

theorem parse_spill (ts : List Node) :
    collapseStack (runLines initialStack (spillForest ts 0)) = ts := by
  rcases ts with _ | ⟨r, rest⟩
  · rfl
  · have h := runLines_spillForest (r :: rest) 0 0
      { level := -1, text := "__ROOT__".toList, childrenRev := [] } [] (by decide) (by omega)
    rw [← collapse_popWhile (runLines initialStack (spillForest (r :: rest) 0)) 0]
    rw [show initialStack =
        ({ level := -1, text := "__ROOT__".toList, childrenRev := [] } : Frame) :: [] from rfl]
    rw [h, collapse_popWhile, pushForestTop_cons_frame]
    rw [collapseStack, collapseGo]
    simp

theorem mem_joinNl : ∀ {ls : List Line} {c : Char}, c ∈ joinNl ls →
    c = '\n' ∨ ∃ l ∈ ls, c ∈ l := by
  intro ls
  induction ls with
  | nil => intro c hc; simp [joinNl] at hc
  | cons l rest ih =>
    intro c hc
    rcases rest with _ | ⟨l', rest'⟩
    · rw [joinNl] at hc
      exact Or.inr ⟨l, by simp, hc⟩
    · rw [joinNl] at hc
      rcases List.mem_append.1 hc with h | h
      · exact Or.inr ⟨l, by simp, h⟩
      · rcases List.mem_cons.1 h with rfl | h'
        · exact Or.inl rfl
        · rcases ih h' with h'' | ⟨m, hm, hcm⟩
          · exact Or.inl h''
          · exact Or.inr ⟨m, by simp [hm], hcm⟩

theorem splitOnNl_append_nl : ∀ (l z : Line), (∀ c ∈ l, ¬ c = '\n') →
    splitOnNl (l ++ '\n' :: z) = l :: splitOnNl z := by
  intro l
  induction l with
  | nil => intro z _; simp [splitOnNl]
  | cons c t ih =>
    intro z h
    have hc : ¬ c = '\n' := h c (by simp)
    rw [List.cons_append, splitOnNl, if_neg hc, ih z (fun d hd => h d (by simp [hd]))]

theorem splitOnNl_joinNl : ∀ (ls : List Line), ls ≠ [] →
    (∀ l ∈ ls, ∀ c ∈ l, ¬ c = '\n') → splitOnNl (joinNl ls) = ls := by
  intro ls
  induction ls with
  | nil => intro h; exact absurd rfl h
  | cons l rest ih =>
    intro _ h
    rcases rest with _ | ⟨l', rest'⟩
    · rw [joinNl]
      exact splitOnNl_no_nl (h l (by simp))
    · rw [joinNl, splitOnNl_append_nl l _ (h l (by simp))]
      rw [ih (by simp) (fun m hm => h m (by simp [hm]))]

mutual

theorem indentNode_shape (n : Nat) : ∀ (t : Node) (d : Nat) (l : Line),
    l ∈ indentNode n t d →
    ∃ d' lbl, lbl ∈ t.labels ∧ l = List.replicate (d' * n) ' ' ++ lbl
  | .mk txt cs, d, l => by
    intro hl
    rw [indentNode] at hl
    rcases List.mem_cons.1 hl with rfl | hl'
    · exact ⟨d, txt, by rw [Node.labels]; simp, rfl⟩
    · obtain ⟨d', lbl, hlbl, hshape⟩ := indentForest_shape n cs (d + 1) l hl'
      exact ⟨d', lbl, by rw [Node.labels]; simp [hlbl], hshape⟩

theorem indentForest_shape (n : Nat) : ∀ (cs : List Node) (d : Nat) (l : Line),
    l ∈ indentForest n cs d →
    ∃ d' lbl, lbl ∈ labelsForest cs ∧ l = List.replicate (d' * n) ' ' ++ lbl
  | [], _, l => by intro hl; rw [indentForest] at hl; simp at hl
  | c :: rest, d, l => by
    intro hl
    rw [indentForest] at hl
    rcases List.mem_append.1 hl with hl' | hl'
    · obtain ⟨d', lbl, hlbl, hshape⟩ := indentNode_shape n c d l hl'
      exact ⟨d', lbl, by rw [labelsForest]; simp [hlbl], hshape⟩
    · obtain ⟨d', lbl, hlbl, hshape⟩ := indentForest_shape n rest d l hl'
      exact ⟨d', lbl, by rw [labelsForest]; simp [hlbl], hshape⟩

end

theorem indentRoots_shape (n : Nat) : ∀ (ts : List Node) (l : Line),
    l ∈ indentRoots n ts →
    l = [] ∨ ∃ d' lbl, lbl ∈ labelsForest ts ∧ l = List.replicate (d' * n) ' ' ++ lbl := by
  intro ts
  induction ts with
  | nil => intro l hl; rw [indentRoots] at hl; simp at hl
  | cons r rest ih =>
    intro l hl
    rcases rest with _ | ⟨r', rest'⟩
    · rw [indentRoots] at hl
      obtain ⟨d', lbl, hlbl, hshape⟩ := indentNode_shape n r 0 l hl
      exact Or.inr ⟨d', lbl, by rw [labelsForest]; simp [hlbl], hshape⟩
    · rw [indentRoots] at hl
      rcases List.mem_append.1 hl with hl' | hl'
      · obtain ⟨d', lbl, hlbl, hshape⟩ := indentNode_shape n r 0 l hl'
        exact Or.inr ⟨d', lbl, by rw [labelsForest]; simp [hlbl], hshape⟩
      · rcases List.mem_cons.1 hl' with rfl | hl''
        · exact Or.inl rfl
        · rcases ih l hl'' with h | ⟨d', lbl, hlbl, hshape⟩
          · exact Or.inl h
          · refine Or.inr ⟨d', lbl, ?_, hshape⟩
            rw [labelsForest]
            simp only [List.mem_append]
            exact Or.inr hlbl

theorem map_eq_self_of {α : Type} {f : α → α} :
    ∀ {l : List α}, (∀ a ∈ l, f a = a) → l.map f = l := by
  intro l
  induction l with
  | nil => intro _; rfl
  | cons a t ih =>
    intro h
    rw [List.map_cons, h a (by simp), ih (fun b hb => h b (by simp [hb]))]

theorem goodLabel_head_not_ws {t : Line} (h : goodLabel t) :
    ∀ c, t.head? = some c → isJsWs c = false := by
  intro c hc
  exact head?_trim (by rw [h.1]; exact hc)

theorem goodLabel_getLast_not_ws {t : Line} (h : goodLabel t) :
    ∀ c, t.getLast? = some c → isJsWs c = false := by
  intro c hc
  exact getLast?_trim (by rw [h.1]; exact hc)

theorem goodLabel_takeWhile_space {t : Line} (h : goodLabel t) :
    List.takeWhile (fun c => c = ' ') t = [] := by
  cases t with
  | nil => rfl
  | cons c t' =>
    have hc := goodLabel_head_not_ws h c rfl
    have hcs : ¬ (c = ' ') := by
      intro h'
      rw [h'] at hc
      exact absurd hc (by decide)
    simp [List.takeWhile_cons, hcs]

theorem trim_replicate_space (k : Nat) (t : Line) :
    trim (List.replicate k ' ' ++ t) = trim t := by
  rw [trim, trimLeft, dropWhile_ws_replicate_space]
  rfl

theorem trimRight_indent_line {t : Line} (h : goodLabel t) (k : Nat) :
    trimRight (List.replicate k ' ' ++ t) = List.replicate k ' ' ++ t := by
  apply trimRight_eq_self
  intro c hc
  rcases t with _ | ⟨a, t'⟩
  · exact absurd h.2.1 (by simp)
  · have hx : (a :: t').getLast? = some ((a :: t').getLast (by simp)) :=
      List.getLast?_eq_getLast _ _
    rw [List.getLast?_append, hx] at hc
    simp only [Option.or_some, Option.some.injEq] at hc
    subst hc
    exact goodLabel_getLast_not_ws h _ hx

theorem lineItem_indent {t : Line} (h : goodLabel t) {n : Nat} (hn : 0 < n) (d : Nat) :
    lineItem n (List.replicate (d * n) ' ' ++ t) = (((d : Nat) : Int), t) := by
  rw [lineItem]
  rw [countLeadingSpaces, takeWhile_space_replicate _ _ (goodLabel_takeWhile_space h)]
  rw [List.length_replicate, Nat.mul_div_cancel _ hn]
  rw [trim_replicate_space, h.1]

mutual

theorem map_lineItem_indentNode (n : Nat) (hn : 0 < n) :
    ∀ (t : Node) (d : Nat), (∀ l ∈ t.labels, goodLabel l) →
      List.map (lineItem n) (indentNode n t d) = spillNode t ((d : Nat) : Int)
  | .mk txt cs, d, hg => by
    rw [indentNode, List.map_cons, spillNode]
    rw [lineItem_indent (hg txt (by rw [Node.labels]; simp)) hn d]
    rw [map_lineItem_indentForest n hn cs (d + 1)
      (fun l hl => hg l (by rw [Node.labels]; simp [hl]))]
    norm_num

theorem map_lineItem_indentForest (n : Nat) (hn : 0 < n) :
    ∀ (cs : List Node) (d : Nat), (∀ l ∈ labelsForest cs, goodLabel l) →
      List.map (lineItem n) (indentForest n cs d) = spillForest cs ((d : Nat) : Int)
  | [], _, _ => rfl
  | c :: rest, d, hg => by
    rw [indentForest, List.map_append, spillForest]
    rw [map_lineItem_indentNode n hn c d
      (fun l hl => hg l (by rw [labelsForest]; simp [hl]))]
    rw [map_lineItem_indentForest n hn rest d
      (fun l hl => hg l (by rw [labelsForest]; simp [hl]))]

end

theorem indentNode_filter_kept {n : Nat} {t : Node} {d : Nat}
    (hg : ∀ l ∈ t.labels, goodLabel l) :
    List.filter (fun l => !(trim l).isEmpty) (indentNode n t d) = indentNode n t d := by
  rw [List.filter_eq_self]
  intro l hl
  obtain ⟨d', lbl, hlbl, rfl⟩ := indentNode_shape n t d l hl
  rw [trim_replicate_space, (hg lbl hlbl).1]
  have := (hg lbl hlbl).2.1
  cases lbl with
  | nil => exact absurd rfl this
  | cons a t' => simp

theorem filter_indentRoots (n : Nat) :
    ∀ (ts : List Node), (∀ l ∈ labelsForest ts, goodLabel l) →
      List.filter (fun l => !(trim l).isEmpty) (indentRoots n ts) = indentForest n ts 0 := by
  intro ts
  induction ts with
  | nil => intro _; rfl
  | cons r rest ih =>
    intro hg
    have hgr : ∀ l ∈ r.labels, goodLabel l := by
      intro l hl
      exact hg l (by rw [labelsForest]; simp [hl])
    rcases rest with _ | ⟨r', rest'⟩
    · rw [indentRoots, indentNode_filter_kept hgr, indentForest, indentForest, List.append_nil]
    · rw [indentRoots, List.filter_append, indentNode_filter_kept hgr, indentForest]
      congr 1
      rw [List.filter_cons]
      have : (!(trim ([] : Line)).isEmpty) = false := by decide
      rw [this]
      simp only [Bool.false_eq_true, if_false]
      exact ih (fun l hl => hg l (by rw [labelsForest]; simp [hl]))

theorem map_trimRight_indentRoots (n : Nat) (ts : List Node)
    (hg : ∀ l ∈ labelsForest ts, goodLabel l) :
    (indentRoots n ts).map trimRight = indentRoots n ts := by
  apply map_eq_self_of
  intro l hl
  rcases indentRoots_shape n ts l hl with rfl | ⟨d', lbl, hlbl, rfl⟩
  · rfl
  · exact trimRight_indent_line (hg lbl hlbl) _

theorem indentRoots_ne_nil {n : Nat} {ts : List Node} (h : ts ≠ []) :
    indentRoots n ts ≠ [] := by
  rcases ts with _ | ⟨r, rest⟩
  · exact absurd rfl h
  · rcases rest with _ | ⟨r', rest'⟩
    · rw [indentRoots]
      rcases r with ⟨txt, cs⟩
      rw [indentNode]
      simp
    · rw [indentRoots]
      rcases r with ⟨txt, cs⟩
      rw [indentNode]
      simp

theorem parse_of_indentRoots (n : Nat) (hn : 0 < n) (ts : List Node)
    (hg : ∀ l ∈ labelsForest ts, goodLabel l) :
    parseIndentedTreeL (joinNl (indentRoots n ts)) n = ts := by
  rcases ts with _ | ⟨r, rest⟩
  · rfl
  · have hchars : ∀ l ∈ indentRoots n (r :: rest), ∀ c ∈ l, ¬ c = '\n' := by
      intro l hl c hc
      rcases indentRoots_shape n (r :: rest) l hl with rfl | ⟨d', lbl, hlbl, rfl⟩
      · simp at hc
      · rcases List.mem_append.1 hc with hc' | hc'
        · rw [List.eq_of_mem_replicate hc']
          decide
        · exact ((hg lbl hlbl).2.2 c hc').2
    have hnotab : ∀ c ∈ joinNl (indentRoots n (r :: rest)), ¬ c = '\t' := by
      intro c hc
      rcases mem_joinNl hc with rfl | ⟨l, hl, hcl⟩
      · decide
      · rcases indentRoots_shape n (r :: rest) l hl with rfl | ⟨d', lbl, hlbl, rfl⟩
        · simp at hcl
        · rcases List.mem_append.1 hcl with hc' | hc'
          · rw [List.eq_of_mem_replicate hc']
            decide
          · exact ((hg lbl hlbl).2.2 c hc').1
    rw [parseIndentedTreeL, parseLinesOf, expandTabs_eq_self hnotab,
      splitOnNl_joinNl _ (indentRoots_ne_nil (by simp)) hchars,
      map_trimRight_indentRoots n _ hg, filter_indentRoots n _ hg,
      map_lineItem_indentForest n hn _ 0 hg]
    norm_num
    exact parse_spill (r :: rest)

/-! ## Per-line behaviour of the importer on rendered lines -/

theorem mem_trim_of_not_ws {l : Line} {c : Char} (hc : c ∈ l) (hws : isJsWs c = false) :
    c ∈ trim l := by
  have h1 : c ∈ trimLeft l := by
    rw [trimLeft]
    have := List.takeWhile_append_dropWhile isJsWs l
    rcases List.mem_append.1 (by rw [this]; exact hc : c ∈ l.takeWhile isJsWs ++ l.dropWhile isJsWs) with h | h
    · exact absurd (List.mem_takeWhile_imp h) (by simp [hws])
    · exact h
  rw [trim, trimRight]
  rw [List.mem_reverse]
  have h2 : c ∈ (trimLeft l).reverse := List.mem_reverse.2 h1
  have := List.takeWhile_append_dropWhile isJsWs (trimLeft l).reverse
  rcases List.mem_append.1 (by rw [this]; exact h2 :
      c ∈ (trimLeft l).reverse.takeWhile isJsWs ++ (trimLeft l).reverse.dropWhile isJsWs) with h | h
  · exact absurd (List.mem_takeWhile_imp h) (by simp [hws])
  · exact h

theorem importLine_blank (n : Nat) : importLine n [] = some [] := rfl

theorem importLine_spacer (n : Nat) {l : Line}
    (hall : ∀ c ∈ l, c = '│' ∨ isJsWs c = true)
    (hsome : ∃ c ∈ l, isJsWs c = false) : importLine n l = none := by
  obtain ⟨c0, hc0, hc0ws⟩ := hsome
  have hmem : c0 ∈ trim l := mem_trim_of_not_ws hc0 hc0ws
  have hne : (trim l).isEmpty = false := by
    cases htr : trim l with
    | nil => rw [htr] at hmem; simp at hmem
    | cons a t => simp
  have hconn : connectorOnly (trim l) = true := by
    rw [connectorOnly]
    have h1 : (trim l).isEmpty = false := hne
    have h2 : (trim l).all (fun c => c = '│' || isJsWs c) = true := by
      rw [List.all_eq_true]
      intro c hc
      rcases hall c (mem_trim hc) with rfl | hws
      · simp
      · simp [hws]
    rw [h2]
    cases htr : trim l with
    | nil => rw [htr] at hmem; simp at hmem
    | cons a t => simp
  rw [importLine]
  rw [hne]
  simp only [Bool.false_eq_true, if_false]
  rw [hconn]
  simp

theorem importLine_root_label (n : Nat) {lbl : Line} (hg : goodLabel lbl)
    (hconn : connectorOnly lbl = false)
    (hA : indexOfSub lbl markerA = none) (hB : indexOfSub lbl markerB = none) :
    importLine n lbl = some lbl := by
  rw [importLine]
  rw [hg.1]
  have hne : lbl.isEmpty = false := by
    cases h : lbl with
    | nil => exact absurd h hg.2.1
    | cons a t => simp
  rw [hne]
  simp only [Bool.false_eq_true, if_false]
  rw [hconn]
  simp only [Bool.false_eq_true, if_false]
  rw [hA, hB]

theorem indexOfSub_self_append (m z : Line) : indexOfSub (m ++ z) m = some 0 := by
  cases m with
  | nil => cases z <;> simp [indexOfSub]
  | cons b ms =>
    rw [show ((b :: ms) ++ z) = b :: (ms ++ z) from rfl, indexOfSub, if_pos]
    rw [List.isPrefixOf_iff_prefix]
    exact List.prefix_append _ _

theorem indexOfSub_cons_of_head_ne {z : Line} {b : Char} {ms : Line} {a : Char} (h : ¬ b = a) :
    indexOfSub (a :: z) (b :: ms) = (indexOfSub z (b :: ms)).map (· + 1) := by
  rw [indexOfSub, if_neg]
  intro hpre
  rw [List.isPrefixOf_iff_prefix] at hpre
  obtain ⟨t, ht⟩ := hpre
  rw [List.cons_append] at ht
  exact h (by injection ht)

theorem indexOfSub_append_offset {pfx : Line} {b : Char} {ms : Line}
    (hb : b ∉ pfx) (z : Line) :
    indexOfSub (pfx ++ z) (b :: ms) =
      (indexOfSub z (b :: ms)).map (· + pfx.length) := by
  induction pfx with
  | nil =>
    simp only [List.nil_append, List.length_nil]
    cases indexOfSub z (b :: ms) <;> simp
  | cons c p' ih =>
    have hc : ¬ b = c := fun h => hb (by simp [h])
    rw [List.cons_append, indexOfSub_cons_of_head_ne hc,
      ih (fun h => hb (by simp [h]))]
    cases indexOfSub z (b :: ms) with
    | none => simp
    | some i =>
      simp only [Option.map_some', List.length_cons]
      rw [Nat.add_assoc]

/-- Prefixes the renderer builds: 3-character blocks, each a continuation
block or a blank block. -/
inductive BlockPfx : Line → Nat → Prop where
  | nil : BlockPfx [] 0
  | cont {p : Line} {k : Nat} : BlockPfx p k → BlockPfx (p ++ "│  ".toList) (k + 1)
  | blank {p : Line} {k : Nat} : BlockPfx p k → BlockPfx (p ++ "   ".toList) (k + 1)

theorem BlockPfx.len {p : Line} {k : Nat} (h : BlockPfx p k) : p.length = 3 * k := by
  induction h with
  | nil => rfl
  | cont _ ih => simp [ih]; omega
  | blank _ ih => simp [ih]; omega

theorem BlockPfx.chars {p : Line} {k : Nat} (h : BlockPfx p k) :
    ∀ c ∈ p, c = '│' ∨ c = ' ' := by
  induction h with
  | nil => intro c hc; simp at hc
  | cont _ ih =>
    intro c hc
    rcases List.mem_append.1 hc with h' | h'
    · exact ih c h'
    · rw [show "│  ".toList = ['│', ' ', ' '] from rfl] at h'
      rcases (by simpa using h' : c = '│' ∨ c = ' ' ∨ c = ' ') with rfl | rfl | rfl
      · exact Or.inl rfl
      · exact Or.inr rfl
      · exact Or.inr rfl
  | blank _ ih =>
    intro c hc
    rcases List.mem_append.1 hc with h' | h'
    · exact ih c h'
    · rw [show "   ".toList = [' ', ' ', ' '] from rfl] at h'
      rcases (by simpa using h' : c = ' ' ∨ c = ' ' ∨ c = ' ') with rfl | rfl | rfl
      · exact Or.inr rfl
      · exact Or.inr rfl
      · exact Or.inr rfl

theorem importLine_split (n : Nat) {line : Line}
    (hne : (trim line).isEmpty = false) (hco : connectorOnly (trim line) = false)
    {i : Nat}
    (hidx : (match indexOfSub line markerA with
             | some j => some j
             | none => indexOfSub line markerB) = some i) :
    importLine n line =
      some (List.replicate ((Nat.max 0 ((line.take i).length / 3 + 1)) * n) ' '
        ++ trim (line.drop (i + 3))) := by
  rw [importLine, hne]
  simp only [Bool.false_eq_true, if_false]
  rw [hco]
  simp only [Bool.false_eq_true, if_false]
  rw [hidx]

theorem importLine_node_line (n : Nat) {pfx : Line} {k : Nat} (hp : BlockPfx pfx k)
    {lbl : Line} (hg : goodLabel lbl)
    (hA : indexOfSub lbl markerA = none)
    {conn : Line} (hc : conn = markerA ∨ conn = markerB) :
    importLine n (pfx ++ conn ++ lbl) =
      some (List.replicate ((k + 1) * n) ' ' ++ lbl) := by
  have hmemdash : '─' ∈ pfx ++ conn ++ lbl := by
    rcases hc with rfl | rfl
    · exact List.mem_append.2 (Or.inl (List.mem_append.2 (Or.inr (by decide))))
    · exact List.mem_append.2 (Or.inl (List.mem_append.2 (Or.inr (by decide))))
  have htr : '─' ∈ trim (pfx ++ conn ++ lbl) := mem_trim_of_not_ws hmemdash (by decide)
  have hne : (trim (pfx ++ conn ++ lbl)).isEmpty = false := by
    cases h : trim (pfx ++ conn ++ lbl) with
    | nil => rw [h] at htr; simp at htr
    | cons a t => simp
  have hallf : (trim (pfx ++ conn ++ lbl)).all (fun c => c = '│' || isJsWs c) = false :=
    List.all_eq_false.2 ⟨'─', htr, by decide⟩
  have hco : connectorOnly (trim (pfx ++ conn ++ lbl)) = false := by
    rw [connectorOnly, hallf]
    simp
  have hnotA : '├' ∉ pfx := by
    intro hmem
    rcases hp.chars '├' hmem with h | h
    · exact absurd h (by decide)
    · exact absurd h (by decide)
  have hnotB : '└' ∉ pfx := by
    intro hmem
    rcases hp.chars '└' hmem with h | h
    · exact absurd h (by decide)
    · exact absurd h (by decide)
  have hconnlen : conn.length = 3 := by
    rcases hc with rfl | rfl <;> rfl
  have htake : ((pfx ++ conn ++ lbl).take pfx.length) = pfx := by
    rw [List.append_assoc, List.take_left]
  have hdrop : ((pfx ++ conn ++ lbl).drop (pfx.length + 3)) = lbl := by
    apply List.drop_left'
    rw [List.length_append, hconnlen]
  have hdiv : pfx.length / 3 + 1 = k + 1 := by
    rw [hp.len]
    omega
  have hidx : (match indexOfSub (pfx ++ conn ++ lbl) markerA with
               | some j => some j
               | none => indexOfSub (pfx ++ conn ++ lbl) markerB) = some pfx.length := by
    rcases hc with rfl | rfl
    · have h2 : indexOfSub (pfx ++ (markerA ++ lbl)) markerA =
          (indexOfSub (markerA ++ lbl) markerA).map (· + pfx.length) :=
        indexOfSub_append_offset hnotA (markerA ++ lbl)
      rw [List.append_assoc, h2, indexOfSub_self_append]
      simp
    · have h2 : indexOfSub (pfx ++ (markerB ++ lbl)) markerA =
          (indexOfSub (markerB ++ lbl) markerA).map (· + pfx.length) :=
        indexOfSub_append_offset hnotA (markerB ++ lbl)
      have h3 : indexOfSub (markerB ++ lbl) markerA = none := by
        rw [show (markerB ++ lbl : Line) = '└' :: ('─' :: (' ' :: lbl)) from rfl]
        rw [show (markerA : Line) = '├' :: ['─', ' '] from rfl]
        rw [indexOfSub_cons_of_head_ne (by decide),
          indexOfSub_cons_of_head_ne (by decide),
          indexOfSub_cons_of_head_ne (by decide)]
        rw [show ('├' :: ['─', ' '] : Line) = markerA from rfl, hA]
        rfl
      have h4 : indexOfSub (pfx ++ (markerB ++ lbl)) markerB =
          (indexOfSub (markerB ++ lbl) markerB).map (· + pfx.length) :=
        indexOfSub_append_offset hnotB (markerB ++ lbl)
      rw [List.append_assoc, h2, h3, h4, indexOfSub_self_append]
      simp
  rw [importLine_split n hne hco hidx, htake, hdrop, hg.1, hdiv]
  have hmax : Nat.max 0 (k + 1) = k + 1 := Nat.max_eq_right (Nat.zero_le _)
  rw [hmax]

/-- Labels for which the importer inverts the renderer: not a pure
connector string, no connector-marker substring, and no code-fence
opener as a prefix nor closer as a suffix (case-insensitively). -/
def SafeLabel (l : Line) : Prop :=
  connectorOnly l = false ∧
  indexOfSub l markerA = none ∧
  indexOfSub l markerB = none ∧
  dropPrefixCI "\x7bcode".toList l = none ∧
  dropPrefixCI ("{code}".toList.reverse) l.reverse = none

theorem importLine_spacer_block {n : Nat} {pfx : Line} {k : Nat} (hp : BlockPfx pfx k) :
    importLine n (pfx ++ ['│']) = none := by
  apply importLine_spacer
  · intro c hc
    rcases List.mem_append.1 hc with h | h
    · rcases hp.chars c h with rfl | rfl
      · exact Or.inl rfl
      · exact Or.inr (by decide)
    · rcases List.mem_singleton.1 h with rfl
      exact Or.inl rfl
  · exact ⟨'│', List.mem_append.2 (Or.inr (by decide)), by decide⟩

mutual

theorem filterMap_renderNode (n : Nat) :
    ∀ (t : Node) (pfx : Line) (k : Nat) (isLast : Bool),
      BlockPfx pfx k →
      (∀ l ∈ t.labels, goodLabel l ∧ SafeLabel l) →
      List.filterMap (importLine n) (renderNode t pfx isLast) = indentNode n t (k + 1)
  | .mk txt cs, pfx, k, isLast, hp, hg => by
    have hgt : goodLabel txt ∧ SafeLabel txt := hg txt (by rw [Node.labels]; simp)
    have hconn : (if isLast then "└─ ".toList else "├─ ".toList) = markerA ∨
        (if isLast then "└─ ".toList else "├─ ".toList) = markerB := by
      cases isLast
      · exact Or.inl rfl
      · exact Or.inr rfl
    have hline := importLine_node_line n hp hgt.1 hgt.2.2.1 hconn
    rcases cs with _ | ⟨c0, cs'⟩
    · rw [show renderNode (Node.mk txt []) pfx isLast =
          [pfx ++ (if isLast then "└─ ".toList else "├─ ".toList) ++ txt] from by
        cases isLast <;> rfl]
      rw [List.filterMap_cons, hline, List.filterMap_nil, indentNode, indentForest]
    · rw [show renderNode (Node.mk txt (c0 :: cs')) pfx isLast =
          (pfx ++ (if isLast then "└─ ".toList else "├─ ".toList) ++ txt) ::
            ((pfx ++ (if isLast then "   ".toList else "│  ".toList)) ++ ['│']) ::
            renderChildren (c0 :: cs')
              (pfx ++ (if isLast then "   ".toList else "│  ".toList)) from by
        cases isLast <;> rfl]
      have hp' : BlockPfx (pfx ++ (if isLast then "   ".toList else "│  ".toList)) (k + 1) := by
        cases isLast
        · exact BlockPfx.cont hp
        · exact BlockPfx.blank hp
      rw [List.filterMap_cons, hline, List.filterMap_cons, importLine_spacer_block hp']
      rw [filterMap_renderChildren n (c0 :: cs') _ (k + 1) hp'
        (fun l hl => hg l (by rw [Node.labels]; simp [hl]))]
      rw [indentNode]

theorem filterMap_renderChildren (n : Nat) :
    ∀ (cs : List Node) (pfx : Line) (k : Nat),
      BlockPfx pfx k →
      (∀ l ∈ labelsForest cs, goodLabel l ∧ SafeLabel l) →
      List.filterMap (importLine n) (renderChildren cs pfx) = indentForest n cs (k + 1)
  | [], _, _, _, _ => rfl
  | [c], pfx, k, hp, hg => by
    rw [renderChildren, indentForest, indentForest, List.append_nil]
    exact filterMap_renderNode n c pfx k true hp
      (fun l hl => hg l (by rw [labelsForest]; simp [hl]))
  | c :: c' :: rest, pfx, k, hp, hg => by
    rw [renderChildren, List.filterMap_append, List.filterMap_cons,
      importLine_spacer_block hp]
    rw [filterMap_renderNode n c pfx k false hp
      (fun l hl => hg l (by rw [labelsForest]; simp [hl]))]
    rw [filterMap_renderChildren n (c' :: rest) pfx k hp
      (fun l hl => hg l (by rw [labelsForest]; simp [hl]))]
    rfl

end

theorem filterMap_renderRootChildren (n : Nat) :
    ∀ (cs : List Node),
      (∀ l ∈ labelsForest cs, goodLabel l ∧ SafeLabel l) →
      List.filterMap (importLine n) (renderRootChildren cs) = indentForest n cs 1 := by
  intro cs
  induction cs with
  | nil => intro _; rfl
  | cons c rest ih =>
    intro hg
    rcases rest with _ | ⟨c', rest'⟩
    · rw [renderRootChildren, indentForest, indentForest, List.append_nil]
      exact filterMap_renderNode n c [] 0 true BlockPfx.nil
        (fun l hl => hg l (by rw [labelsForest]; simp [hl]))
    · rw [renderRootChildren, List.filterMap_append]
      rw [filterMap_renderNode n c [] 0 false BlockPfx.nil
        (fun l hl => hg l (by rw [labelsForest]; simp [hl]))]
      rw [ih (fun l hl => hg l (by rw [labelsForest]; simp [hl]))]
      simp [indentForest]

theorem filterMap_renderRootLines (n : Nat) (r : Node)
    (hg : ∀ l ∈ r.labels, goodLabel l ∧ SafeLabel l) :
    List.filterMap (importLine n) (renderRootLines r) = indentNode n r 0 := by
  rcases r with ⟨txt, cs⟩
  have hgt : goodLabel txt ∧ SafeLabel txt := hg txt (by rw [Node.labels]; simp)
  have hroot : importLine n txt = some txt :=
    importLine_root_label n hgt.1 hgt.2.1 hgt.2.2.1 hgt.2.2.2.1
  rcases cs with _ | ⟨c0, cs'⟩
  · rw [show renderRootLines (Node.mk txt []) = [txt] from rfl]
    rw [List.filterMap_cons, hroot, List.filterMap_nil, indentNode, indentForest]
    simp
  · rw [show renderRootLines (Node.mk txt (c0 :: cs')) =
        txt :: (['│'] : Line) :: renderRootChildren (c0 :: cs') from rfl]
    rw [List.filterMap_cons, hroot, List.filterMap_cons]
    have hspacer : importLine n (['│'] : Line) = none := by
      have := @importLine_spacer_block n [] 0 BlockPfx.nil
      simpa using this
    rw [hspacer]
    rw [filterMap_renderRootChildren n (c0 :: cs')
      (fun l hl => hg l (by rw [Node.labels]; simp [hl]))]
    rw [indentNode]
    simp

theorem filterMap_renderRootsLines (n : Nat) :
    ∀ (ts : List Node), (∀ l ∈ labelsForest ts, goodLabel l ∧ SafeLabel l) →
      List.filterMap (importLine n) (renderRootsLines ts) = indentRoots n ts := by
  intro ts
  induction ts with
  | nil => intro _; rfl
  | cons r rest ih =>
    intro hg
    rcases rest with _ | ⟨r', rest'⟩
    · rw [renderRootsLines, indentRoots]
      exact filterMap_renderRootLines n r
        (fun l hl => hg l (by rw [labelsForest]; simp [hl]))
    · rw [renderRootsLines, indentRoots, List.filterMap_append, List.filterMap_cons]
      rw [importLine_blank]
      rw [filterMap_renderRootLines n r
        (fun l hl => hg l (by rw [labelsForest]; simp [hl]))]
      rw [ih (fun l hl => hg l (by rw [labelsForest]; simp [hl]))]

/-! ## Structure of the rendered text -/

/-- The trailing-whitespace strip and the carriage-return rewrite leave a
rendered line unchanged. -/
def NiceLine (l : Line) : Prop := trimRight l = l ∧ ∀ c ∈ l, ¬ c = '\n'

theorem trimRight_append_label {x lbl : Line} (hg : goodLabel lbl) :
    trimRight (x ++ lbl) = x ++ lbl := by
  apply trimRight_eq_self
  intro c hc
  rcases lbl with _ | ⟨a, t'⟩
  · exact absurd hg.2.1 (by simp)
  · have hx : (a :: t').getLast? = some ((a :: t').getLast (by simp)) :=
      List.getLast?_eq_getLast _ _
    rw [List.getLast?_append, hx] at hc
    simp only [Option.or_some, Option.some.injEq] at hc
    subst hc
    exact goodLabel_getLast_not_ws hg _ hx

theorem trimRight_append_bar (x : Line) : trimRight (x ++ ['│']) = x ++ ['│'] := by
  apply trimRight_eq_self
  intro c hc
  rw [List.getLast?_append] at hc
  simp only [List.getLast?_singleton, Option.or_some, Option.some.injEq] at hc
  subst hc
  decide

theorem niceLine_node {pfx conn lbl : Line}
    (hpfx : ∀ c ∈ pfx, c = '│' ∨ c = ' ')
    (hconn : conn = markerA ∨ conn = markerB)
    (hg : goodLabel lbl) : NiceLine (pfx ++ conn ++ lbl) := by
  constructor
  · exact trimRight_append_label hg
  · intro c hc
    rcases List.mem_append.1 hc with h | h
    · rcases List.mem_append.1 h with h' | h'
      · rcases hpfx c h' with rfl | rfl
        · decide
        · decide
      · rcases hconn with rfl | rfl
        · rw [show (markerA : Line) = ['├', '─', ' '] from rfl] at h'
          rcases (by simpa using h' : c = '├' ∨ c = '─' ∨ c = ' ') with rfl | rfl | rfl
          · decide
          · decide
          · decide
        · rw [show (markerB : Line) = ['└', '─', ' '] from rfl] at h'
          rcases (by simpa using h' : c = '└' ∨ c = '─' ∨ c = ' ') with rfl | rfl | rfl
          · decide
          · decide
          · decide
    · exact (hg.2.2 c h).2

theorem niceLine_spacer {pfx : Line} (hpfx : ∀ c ∈ pfx, c = '│' ∨ c = ' ') :
    NiceLine (pfx ++ ['│']) := by
  constructor
  · exact trimRight_append_bar pfx
  · intro c hc
    rcases List.mem_append.1 hc with h | h
    · rcases hpfx c h with rfl | rfl
      · decide
      · decide
    · rcases List.mem_singleton.1 h with rfl
      decide

theorem niceLine_label {lbl : Line} (hg : goodLabel lbl) : NiceLine lbl := by
  constructor
  · rw [show (lbl : Line) = [] ++ lbl from rfl]
    exact trimRight_append_label hg
  · intro c hc
    exact (hg.2.2 c hc).2

theorem niceLine_blank : NiceLine ([] : Line) := by
  constructor
  · rfl
  · intro c hc
    simp at hc

theorem blockChars_extend {pfx : Line} (hpfx : ∀ c ∈ pfx, c = '│' ∨ c = ' ') (isLast : Bool) :
    ∀ c ∈ pfx ++ (if isLast then "   ".toList else "│  ".toList), c = '│' ∨ c = ' ' := by
  intro c hc
  rcases List.mem_append.1 hc with h | h
  · exact hpfx c h
  · cases isLast
    · rw [show (if false = true then "   ".toList else "│  ".toList) = ['│', ' ', ' '] from rfl] at h
      rcases (by simpa using h : c = '│' ∨ c = ' ' ∨ c = ' ') with rfl | rfl | rfl
      · exact Or.inl rfl
      · exact Or.inr rfl
      · exact Or.inr rfl
    · rw [show (if true = true then "   ".toList else "│  ".toList) = [' ', ' ', ' '] from rfl] at h
      rcases (by simpa using h : c = ' ' ∨ c = ' ' ∨ c = ' ') with rfl | rfl | rfl
      · exact Or.inr rfl
      · exact Or.inr rfl
      · exact Or.inr rfl

mutual

theorem renderNode_nice : ∀ (t : Node) (pfx : Line) (isLast : Bool),
    (∀ c ∈ pfx, c = '│' ∨ c = ' ') →
    (∀ l ∈ t.labels, goodLabel l) →
    ∀ l ∈ renderNode t pfx isLast, NiceLine l
  | .mk txt cs, pfx, isLast, hpfx, hg => by
    have hgt : goodLabel txt := hg txt (by rw [Node.labels]; simp)
    have hconn : (if isLast then "└─ ".toList else "├─ ".toList) = markerA ∨
        (if isLast then "└─ ".toList else "├─ ".toList) = markerB := by
      cases isLast
      · exact Or.inl rfl
      · exact Or.inr rfl
    intro l hl
    rcases cs with _ | ⟨c0, cs'⟩
    · rw [show renderNode (Node.mk txt []) pfx isLast =
          [pfx ++ (if isLast then "└─ ".toList else "├─ ".toList) ++ txt] from by
        cases isLast <;> rfl] at hl
      rcases List.mem_singleton.1 hl with rfl
      exact niceLine_node hpfx hconn hgt
    · rw [show renderNode (Node.mk txt (c0 :: cs')) pfx isLast =
          (pfx ++ (if isLast then "└─ ".toList else "├─ ".toList) ++ txt) ::
            ((pfx ++ (if isLast then "   ".toList else "│  ".toList)) ++ ['│']) ::
            renderChildren (c0 :: cs')
              (pfx ++ (if isLast then "   ".toList else "│  ".toList)) from by
        cases isLast <;> rfl] at hl
      rcases List.mem_cons.1 hl with rfl | hl'
      · exact niceLine_node hpfx hconn hgt
      · rcases List.mem_cons.1 hl' with rfl | hl''
        · exact niceLine_spacer (blockChars_extend hpfx isLast)
        · exact renderChildren_nice (c0 :: cs') _ (blockChars_extend hpfx isLast)
            (fun m hm => hg m (by rw [Node.labels]; simp [hm])) l hl''

theorem renderChildren_nice : ∀ (cs : List Node) (pfx : Line),
    (∀ c ∈ pfx, c = '│' ∨ c = ' ') →
    (∀ l ∈ labelsForest cs, goodLabel l) →
    ∀ l ∈ renderChildren cs pfx, NiceLine l
  | [], _, _, _ => by intro l hl; rw [renderChildren] at hl; simp at hl
  | [c], pfx, hpfx, hg => by
    intro l hl
    rw [renderChildren] at hl
    exact renderNode_nice c pfx true hpfx
      (fun m hm => hg m (by rw [labelsForest]; simp [hm])) l hl
  | c :: c' :: rest, pfx, hpfx, hg => by
    intro l hl
    rw [renderChildren] at hl
    rcases List.mem_append.1 hl with h | h
    · exact renderNode_nice c pfx false hpfx
        (fun m hm => hg m (by rw [labelsForest]; simp [hm])) l h
    · rcases List.mem_cons.1 h with rfl | h'
      · exact niceLine_spacer hpfx
      · exact renderChildren_nice (c' :: rest) pfx hpfx
          (fun m hm => hg m (by rw [labelsForest]; simp [hm])) l h'

end

theorem renderRootChildren_nice : ∀ (cs : List Node),
    (∀ l ∈ labelsForest cs, goodLabel l) →
    ∀ l ∈ renderRootChildren cs, NiceLine l := by
  intro cs
  induction cs with
  | nil => intro _ l hl; rw [renderRootChildren] at hl; simp at hl
  | cons c rest ih =>
    intro hg l hl
    rcases rest with _ | ⟨c', rest'⟩
    · rw [renderRootChildren] at hl
      exact renderNode_nice c [] true (by simp)
        (fun m hm => hg m (by rw [labelsForest]; simp [hm])) l hl
    · rw [renderRootChildren] at hl
      rcases List.mem_append.1 hl with h | h
      · exact renderNode_nice c [] false (by simp)
          (fun m hm => hg m (by rw [labelsForest]; simp [hm])) l h
      · exact ih (fun m hm => hg m (by rw [labelsForest]; simp [hm])) l h

theorem renderRootsLines_nice : ∀ (ts : List Node),
    (∀ l ∈ labelsForest ts, goodLabel l) →
    ∀ l ∈ renderRootsLines ts, NiceLine l := by
  intro ts
  induction ts with
  | nil => intro _ l hl; rw [renderRootsLines] at hl; simp at hl
  | cons r rest ih =>
    intro hg l hl
    have hrl : ∀ m ∈ renderRootLines r, NiceLine m := by
      intro m hm
      rw [renderRootLines] at hm
      rcases List.mem_cons.1 hm with rfl | hm'
      · exact niceLine_label (hg r.text (by
          rcases r with ⟨txt, cs⟩
          rw [labelsForest, Node.labels]
          simp [Node.text]))
      · rcases r with ⟨txt, cs⟩
        rcases cs with _ | ⟨c0, cs'⟩
        · simp [Node.children] at hm'
        · rw [show Node.children (Node.mk txt (c0 :: cs')) = c0 :: cs' from rfl] at hm'
          simp only [List.isEmpty_cons] at hm'
          rcases List.mem_cons.1 (by simpa using hm') with rfl | hm''
          · have : NiceLine ([] ++ ['│'] : Line) := niceLine_spacer (by simp)
            simpa using this
          · exact renderRootChildren_nice (c0 :: cs')
              (fun m' hm3 => hg m' (by rw [labelsForest, Node.labels]; simp [hm3])) m hm''
    rcases rest with _ | ⟨r', rest'⟩
    · rw [renderRootsLines] at hl
      exact hrl l hl
    · rw [renderRootsLines] at hl
      rcases List.mem_append.1 hl with h | h
      · exact hrl l h
      · rcases List.mem_cons.1 h with rfl | h'
        · exact niceLine_blank
        · exact ih (fun m hm => hg m (by rw [labelsForest]; simp [hm])) l h'

/-! ## The first and last rendered lines -/

theorem renderRootsLines_head : ∀ (r : Node) (rest : List Node),
    ∃ L, renderRootsLines (r :: rest) = r.text :: L := by
  intro r rest
  rcases rest with _ | ⟨r', rest'⟩
  · exact ⟨_, by rw [renderRootsLines, renderRootLines]⟩
  · exact ⟨(if r.children.isEmpty then [] else ['│'] :: renderRootChildren r.children) ++
      ([] : Line) :: renderRootsLines (r' :: rest'), by
        rw [renderRootsLines, renderRootLines]
        rfl⟩

theorem getLast?_cons_of_some {α : Type} {l : List α} {x a : α}
    (h : l.getLast? = some x) : (a :: l).getLast? = some x := by
  cases l with
  | nil => simp at h
  | cons b t => rw [List.getLast?_cons_cons]; exact h

mutual

theorem renderNode_getLast : ∀ (t : Node) (pfx : Line) (isLast : Bool),
    ∃ y lbl, lbl ∈ t.labels ∧
      (renderNode t pfx isLast).getLast? = some (y ++ ' ' :: lbl)
  | .mk txt cs, pfx, isLast => by
    rcases cs with _ | ⟨c0, cs'⟩
    · refine ⟨pfx ++ (if isLast then ['└', '─'] else ['├', '─']), txt,
        by rw [Node.labels]; simp, ?_⟩
      rw [show renderNode (Node.mk txt []) pfx isLast =
          [pfx ++ (if isLast then "└─ ".toList else "├─ ".toList) ++ txt] from by
        cases isLast <;> rfl]
      cases isLast <;> simp
    · obtain ⟨y, lbl, hlbl, hlast⟩ := renderChildren_getLast (c0 :: cs')
        (pfx ++ (if isLast then "   ".toList else "│  ".toList)) (by simp)
      refine ⟨y, lbl, by rw [Node.labels]; simp [hlbl], ?_⟩
      rw [show renderNode (Node.mk txt (c0 :: cs')) pfx isLast =
          (pfx ++ (if isLast then "└─ ".toList else "├─ ".toList) ++ txt) ::
            ((pfx ++ (if isLast then "   ".toList else "│  ".toList)) ++ ['│']) ::
            renderChildren (c0 :: cs')
              (pfx ++ (if isLast then "   ".toList else "│  ".toList)) from by
        cases isLast <;> rfl]
      exact getLast?_cons_of_some (getLast?_cons_of_some hlast)

theorem renderChildren_getLast : ∀ (cs : List Node) (pfx : Line), cs ≠ [] →
    ∃ y lbl, lbl ∈ labelsForest cs ∧
      (renderChildren cs pfx).getLast? = some (y ++ ' ' :: lbl)
  | [], _, h => absurd rfl h
  | [c], pfx, _ => by
    obtain ⟨y, lbl, hlbl, hlast⟩ := renderNode_getLast c pfx true
    exact ⟨y, lbl, by rw [labelsForest]; simp [hlbl], by rw [renderChildren]; exact hlast⟩
  | c :: c' :: rest, pfx, _ => by
    obtain ⟨y, lbl, hlbl, hlast⟩ := renderChildren_getLast (c' :: rest) pfx (by simp)
    refine ⟨y, lbl, by rw [labelsForest]; simp [hlbl], ?_⟩
    rw [renderChildren, List.getLast?_append, getLast?_cons_of_some hlast]
    rfl

end

theorem renderRootChildren_getLast : ∀ (cs : List Node), cs ≠ [] →
    ∃ y lbl, lbl ∈ labelsForest cs ∧
      (renderRootChildren cs).getLast? = some (y ++ ' ' :: lbl) := by
  intro cs
  induction cs with
  | nil => intro h; exact absurd rfl h
  | cons c rest ih =>
    intro _
    rcases rest with _ | ⟨c', rest'⟩
    · obtain ⟨y, lbl, hlbl, hlast⟩ := renderNode_getLast c [] true
      exact ⟨y, lbl, by rw [labelsForest]; simp [hlbl],
        by rw [renderRootChildren]; exact hlast⟩
    · obtain ⟨y, lbl, hlbl, hlast⟩ := ih (by simp)
      refine ⟨y, lbl, by rw [labelsForest]; simp [hlbl], ?_⟩
      rw [renderRootChildren, List.getLast?_append, hlast]
      rfl

theorem renderRootLines_getLast (r : Node) :
    ∃ lbl, lbl ∈ r.labels ∧
      ((renderRootLines r).getLast? = some lbl ∨
       ∃ y, (renderRootLines r).getLast? = some (y ++ ' ' :: lbl)) := by
  rcases r with ⟨txt, cs⟩
  rcases cs with _ | ⟨c0, cs'⟩
  · exact ⟨txt, by rw [Node.labels]; simp,
      Or.inl (by rw [show renderRootLines (Node.mk txt []) = [txt] from rfl]; rfl)⟩
  · obtain ⟨y, lbl, hlbl, hlast⟩ := renderRootChildren_getLast (c0 :: cs') (by simp)
    refine ⟨lbl, by rw [Node.labels]; simp [hlbl], Or.inr ⟨y, ?_⟩⟩
    rw [show renderRootLines (Node.mk txt (c0 :: cs')) =
        txt :: (['│'] : Line) :: renderRootChildren (c0 :: cs') from rfl]
    exact getLast?_cons_of_some (getLast?_cons_of_some hlast)

theorem renderRootsLines_ne_nil {ts : List Node} (h : ts ≠ []) :
    renderRootsLines ts ≠ [] := by
  rcases ts with _ | ⟨r, rest⟩
  · exact absurd rfl h
  · rcases rest with _ | ⟨r', rest'⟩
    · rw [renderRootsLines, renderRootLines]
      simp
    · rw [renderRootsLines, renderRootLines]
      simp

theorem renderRootsLines_getLast : ∀ (ts : List Node), ts ≠ [] →
    ∃ lbl, lbl ∈ labelsForest ts ∧
      ((renderRootsLines ts).getLast? = some lbl ∨
       ∃ y, (renderRootsLines ts).getLast? = some (y ++ ' ' :: lbl)) := by
  intro ts
  induction ts with
  | nil => intro h; exact absurd rfl h
  | cons r rest ih =>
    intro _
    rcases rest with _ | ⟨r', rest'⟩
    · obtain ⟨lbl, hlbl, hcase⟩ := renderRootLines_getLast r
      exact ⟨lbl, by rw [labelsForest]; simp [hlbl], by rw [renderRootsLines]; exact hcase⟩
    · obtain ⟨lbl, hlbl, hcase⟩ := ih (by simp)
      have hne := renderRootsLines_ne_nil (show (r' :: rest' : List Node) ≠ [] by simp)
      refine ⟨lbl, by rw [labelsForest]; simp only [List.mem_append]; exact Or.inr hlbl, ?_⟩
      rcases hcase with hl | ⟨y, hl⟩
      · left
        rw [renderRootsLines, List.getLast?_append, getLast?_cons_of_some hl]
        rfl
      · right
        exact ⟨y, by rw [renderRootsLines, List.getLast?_append, getLast?_cons_of_some hl]; rfl⟩

/-! ## Join decomposition, carriage returns and fences on rendered text -/

theorem joinNl_head_decomp (l : Line) (L : List Line) :
    joinNl (l :: L) = l ∨ ∃ z, joinNl (l :: L) = l ++ '\n' :: z := by
  rcases L with _ | ⟨l', rest⟩
  · exact Or.inl rfl
  · exact Or.inr ⟨joinNl (l' :: rest), rfl⟩

theorem joinNl_getLast_decomp : ∀ (ls : List Line) (l : Line), ls.getLast? = some l →
    joinNl ls = l ∨ ∃ front, joinNl ls = front ++ '\n' :: l := by
  intro ls
  induction ls with
  | nil => intro l h; simp at h
  | cons l0 rest ih =>
    intro l h
    rcases rest with _ | ⟨l1, rest'⟩
    · simp only [List.getLast?_singleton, Option.some.injEq] at h
      subst h
      exact Or.inl rfl
    · rw [List.getLast?_cons_cons] at h
      rcases ih l h with h' | ⟨front, h'⟩
      · exact Or.inr ⟨l0, by rw [joinNl, h']⟩
      · refine Or.inr ⟨l0 ++ '\n' :: front, ?_⟩
        rw [joinNl, h']
        simp

theorem getLast?_joinNl : ∀ (ls : List Line) (l : Line), ls.getLast? = some l → l ≠ [] →
    (joinNl ls).getLast? = l.getLast? := by
  intro ls l h hne
  rcases joinNl_getLast_decomp ls l h with h' | ⟨front, h'⟩
  · rw [h']
  · rw [h', List.getLast?_append]
    have : ('\n' :: l).getLast? = l.getLast? := by
      rcases l with _ | ⟨a, t⟩
      · exact absurd rfl hne
      · rw [List.getLast?_cons_cons]
    rw [this]
    rcases l with _ | ⟨a, t⟩
    · exact absurd rfl hne
    · have := List.getLast?_eq_getLast (a :: t) (by simp)
      rw [this]
      rfl

theorem replaceCrNl_no_nl : ∀ (l : Line), (∀ c ∈ l, ¬ c = '\n') → replaceCrNl l = l
  | [] => fun _ => rfl
  | [c] => fun _ => rfl
  | c :: c' :: t => fun h => by
    rw [replaceCrNl, if_neg (fun hand => h c' (by simp) hand.2)]
    rw [replaceCrNl_no_nl (c' :: t) (fun d hd => h d (by simp [hd]))]

theorem replaceCrNl_append_line : ∀ (l z : Line), (∀ c ∈ l, ¬ c = '\n') →
    ¬ l.getLast? = some '\r' →
    replaceCrNl (l ++ '\n' :: z) = l ++ '\n' :: replaceCrNl z
  | [], z => fun _ _ => by
    rw [List.nil_append, List.nil_append]
    rcases z with _ | ⟨c, t⟩
    · rfl
    · rw [replaceCrNl, if_neg (fun hand => absurd hand.1 (by decide))]
  | [a], z => fun h hr => by
    have ha : ¬ a = '\r' := fun e => hr (by simp [e])
    rw [List.cons_append, List.nil_append, replaceCrNl, if_neg (fun hand => ha hand.1)]
    have := replaceCrNl_append_line [] z (by simp) (by simp)
    rw [List.nil_append, List.nil_append] at this
    rw [this]
    rfl
  | a :: b :: t, z => fun h hr => by
    have hb : ¬ b = '\n' := h b (by simp)
    rw [List.cons_append, List.cons_append, replaceCrNl, if_neg (fun hand => hb hand.2)]
    rw [show (b :: (t ++ '\n' :: z)) = (b :: t) ++ '\n' :: z from rfl]
    rw [replaceCrNl_append_line (b :: t) z
      (fun d hd => h d (by simp [hd])) (by rw [List.getLast?_cons_cons] at hr; exact hr)]
    rfl

theorem NiceLine_last_not_cr {l : Line} (h : NiceLine l) : ¬ l.getLast? = some '\r' := by
  intro hlast
  have := getLast?_trimRight (by rw [h.1]; exact hlast)
  exact absurd this (by decide)

theorem replaceCrNl_joinNl : ∀ (ls : List Line), (∀ l ∈ ls, NiceLine l) →
    replaceCrNl (joinNl ls) = joinNl ls := by
  intro ls
  induction ls with
  | nil => intro _; rfl
  | cons l rest ih =>
    intro h
    rcases rest with _ | ⟨l', rest'⟩
    · rw [joinNl]
      exact replaceCrNl_no_nl l (h l (by simp)).2
    · rw [joinNl]
      rw [replaceCrNl_append_line l _ (h l (by simp)).2 (NiceLine_last_not_cr (h l (by simp)))]
      rw [ih (fun m hm => h m (by simp [hm]))]

theorem dropPrefixCI_append_cases : ∀ (ns a b r : Line),
    dropPrefixCI ns (a ++ b) = some r →
    (∃ a', dropPrefixCI ns a = some a' ∧ r = a' ++ b) ∨
    (∃ ns₂, ns₂ <:+ ns ∧ ns₂ ≠ [] ∧ dropPrefixCI ns₂ b = some r) := by
  intro ns
  induction ns with
  | nil =>
    intro a b r h
    rw [dropPrefixCI] at h
    rcases Option.some.injEq _ _ ▸ h with rfl
    exact Or.inl ⟨a, rfl, by injection h⟩
  | cons m ms ih =>
    intro a b r h
    rcases a with _ | ⟨c, a'⟩
    · exact Or.inr ⟨m :: ms, List.suffix_refl _, by simp, h⟩
    · rw [List.cons_append, dropPrefixCI] at h
      split at h
      · rcases ih a' b r h with ⟨a₂, ha₂, rfl⟩ | ⟨ns₂, hsuf, hne, hdp⟩
        · refine Or.inl ⟨a₂, ?_, rfl⟩
          rw [dropPrefixCI, if_pos (by assumption), ha₂]
        · exact Or.inr ⟨ns₂, hsuf.trans (List.suffix_cons m ms), hne, hdp⟩
      · exact absurd h (by simp)

theorem dropPrefixCI_mismatch_head {ns₂ NS : Line} (hsuf : ns₂ <:+ NS) (hne : ns₂ ≠ [])
    {c : Char} (hc : ∀ m ∈ NS, ¬ c.toLower = m.toLower) (z : Line) :
    dropPrefixCI ns₂ (c :: z) = none := by
  rcases ns₂ with _ | ⟨m, ms⟩
  · exact absurd rfl hne
  · rw [dropPrefixCI, if_neg (hc m (hsuf.sublist.subset (by simp)))]

theorem dropPrefixCI_nil_hay {ns : Line} (hne : ns ≠ []) :
    dropPrefixCI ns ([] : Line) = none := by
  rcases ns with _ | ⟨m, ms⟩
  · exact absurd rfl hne
  · rfl

theorem dropPrefixCI_render_none {lbl : Line} (hs : dropPrefixCI "\x7bcode".toList lbl = none)
    {w : Line} (hw : w = [] ∨ ∃ z, w = '\n' :: z) :
    dropPrefixCI "\x7bcode".toList (lbl ++ w) = none := by
  cases hdp : dropPrefixCI "\x7bcode".toList (lbl ++ w) with
  | none => rfl
  | some r =>
    rcases dropPrefixCI_append_cases _ _ _ _ hdp with ⟨a', ha', -⟩ | ⟨ns₂, hsuf, hne, hd⟩
    · rw [hs] at ha'
      exact absurd ha' (by simp)
    · rcases hw with rfl | ⟨z, rfl⟩
      · rw [dropPrefixCI_nil_hay hne] at hd
        exact absurd hd (by simp)
      · rw [dropPrefixCI_mismatch_head hsuf hne (by decide) z] at hd
        exact absurd hd (by simp)

theorem stripOpenFence_render (ts : List Node)
    (hg : ∀ l ∈ labelsForest ts, goodLabel l)
    (hs : ∀ l ∈ labelsForest ts, SafeLabel l) :
    stripOpenFence (joinNl (renderRootsLines ts)) = joinNl (renderRootsLines ts) := by
  rcases ts with _ | ⟨r, rest⟩
  · rfl
  · obtain ⟨L, hL⟩ := renderRootsLines_head r rest
    have hrt : r.text ∈ labelsForest (r :: rest) := by
      rcases r with ⟨txt, cs⟩
      rw [labelsForest, Node.labels]
      simp [Node.text]
    have hgt : goodLabel r.text := hg _ hrt
    have hst : SafeLabel r.text := hs _ hrt
    have hdecomp : ∃ w, joinNl (renderRootsLines (r :: rest)) = r.text ++ w ∧
        (w = [] ∨ ∃ z, w = '\n' :: z) := by
      rw [hL]
      rcases joinNl_head_decomp r.text L with h | ⟨z, h⟩
      · exact ⟨[], by rw [h]; simp, Or.inl rfl⟩
      · exact ⟨'\n' :: z, h, Or.inr ⟨z, rfl⟩⟩
    obtain ⟨w, hw, hwcase⟩ := hdecomp
    have hne : matchOpenFence (joinNl (renderRootsLines (r :: rest))) = none := by
      rw [matchOpenFence, hw]
      have hds : (r.text ++ w).dropWhile isJsWs = r.text ++ w := by
        rcases ht : r.text with _ | ⟨c, t⟩
        · exact absurd ht hgt.2.1
        · have hc := goodLabel_head_not_ws hgt c (by rw [ht]; rfl)
          rw [List.cons_append, List.dropWhile_cons, if_neg (by simp [hc])]
      rw [hds, dropPrefixCI_render_none hst.2.2.2.1 hwcase]
    rw [stripOpenFence, hne]
    rfl

theorem dropPrefixCI_extend_none {NS lbl w : Line} (hs : dropPrefixCI NS lbl = none)
    (hw : w = [] ∨ ∃ c z, w = c :: z ∧ ∀ m ∈ NS, ¬ c.toLower = m.toLower) :
    dropPrefixCI NS (lbl ++ w) = none := by
  cases hdp : dropPrefixCI NS (lbl ++ w) with
  | none => rfl
  | some r =>
    rcases dropPrefixCI_append_cases _ _ _ _ hdp with ⟨a', ha', -⟩ | ⟨ns₂, hsuf, hne, hd⟩
    · rw [hs] at ha'
      exact absurd ha' (by simp)
    · rcases hw with rfl | ⟨c, z, rfl, hc⟩
      · rw [dropPrefixCI_nil_hay hne] at hd
        exact absurd hd (by simp)
      · rw [dropPrefixCI_mismatch_head hsuf hne hc z] at hd
        exact absurd hd (by simp)

theorem stripCloseFence_render (ts : List Node)
    (hg : ∀ l ∈ labelsForest ts, goodLabel l)
    (hs : ∀ l ∈ labelsForest ts, SafeLabel l) :
    stripCloseFence (joinNl (renderRootsLines ts)) = joinNl (renderRootsLines ts) := by
  rcases ts with _ | ⟨r, rest⟩
  · rfl
  · obtain ⟨lbl, hlbl, hcase⟩ := renderRootsLines_getLast (r :: rest) (by simp)
    have hglbl : goodLabel lbl := hg _ hlbl
    have hslbl : SafeLabel lbl := hs _ hlbl
    have hlblne : lbl ≠ [] := hglbl.2.1
    have hlbllast : ∃ cl, lbl.getLast? = some cl := by
      rcases lbl with _ | ⟨a, t⟩
      · exact absurd rfl hlblne
      · exact ⟨_, List.getLast?_eq_getLast _ (by simp)⟩
    obtain ⟨cl, hcl⟩ := hlbllast
    have hclws : isJsWs cl = false := goodLabel_getLast_not_ws hglbl cl hcl
    -- the last line and its last character
    have hrevshape : ∃ w, (joinNl (renderRootsLines (r :: rest))).reverse = lbl.reverse ++ w ∧
        (w = [] ∨ ∃ c z, w = c :: z ∧ (c = '\n' ∨ c = ' ')) := by
      rcases hcase with hl | ⟨y, hl⟩
      · rcases joinNl_getLast_decomp _ lbl hl with h | ⟨front, h⟩
        · exact ⟨[], by rw [h]; simp, Or.inl rfl⟩
        · refine ⟨'\n' :: front.reverse, ?_, Or.inr ⟨'\n', front.reverse, rfl, Or.inl rfl⟩⟩
          rw [h]
          simp
      · rcases joinNl_getLast_decomp _ _ hl with h | ⟨front, h⟩
        · refine ⟨' ' :: y.reverse, ?_, Or.inr ⟨' ', y.reverse, rfl, Or.inr rfl⟩⟩
          rw [h]
          simp
        · refine ⟨' ' :: (y.reverse ++ '\n' :: front.reverse), ?_,
            Or.inr ⟨' ', y.reverse ++ '\n' :: front.reverse, rfl, Or.inr rfl⟩⟩
          rw [h]
          simp
    have htrim : trimRight (joinNl (renderRootsLines (r :: rest))) =
        joinNl (renderRootsLines (r :: rest)) := by
      apply trimRight_eq_self
      intro c hc
      have hlast : (joinNl (renderRootsLines (r :: rest))).getLast? = lbl.getLast? := by
        rcases hcase with hl | ⟨y, hl⟩
        · exact getLast?_joinNl _ lbl hl hlblne
        · rw [getLast?_joinNl _ _ hl (by simp)]
          rw [List.getLast?_append]
          rcases lbl with _ | ⟨a, t⟩
          · exact absurd rfl hlblne
          · rw [List.getLast?_cons_cons]
            have := List.getLast?_eq_getLast (a :: t) (by simp)
            rw [this]
            rfl
      rw [hlast, hcl] at hc
      injection hc with hc'
      rw [← hc']
      exact hclws
    obtain ⟨w, hwrev, hwcase⟩ := hrevshape
    have hnone : dropPrefixCI ("{code}".toList.reverse)
        (trimRight (joinNl (renderRootsLines (r :: rest)))).reverse = none := by
      rw [htrim, hwrev]
      apply dropPrefixCI_extend_none hslbl.2.2.2.2
      rcases hwcase with rfl | ⟨c, z, rfl, hcz⟩
      · exact Or.inl rfl
      · refine Or.inr ⟨c, z, rfl, ?_⟩
        intro m hm
        rw [show ("{code}".toList.reverse : Line) = ['}', 'e', 'd', 'o', 'c', '{'] from rfl] at hm
        rcases hcz with rfl | rfl
        · rcases (by simpa using hm : m = '}' ∨ m = 'e' ∨ m = 'd' ∨ m = 'o' ∨ m = 'c' ∨ m = '{')
            with rfl | rfl | rfl | rfl | rfl | rfl <;> decide
        · rcases (by simpa using hm : m = '}' ∨ m = 'e' ∨ m = 'd' ∨ m = 'o' ∨ m = 'c' ∨ m = '{')
            with rfl | rfl | rfl | rfl | rfl | rfl <;> decide
    rw [stripCloseFence, hnone]

/-! ## The importer inverts the renderer -/

theorem dropTrailingBlank_eq_self {ls : List Line}
    (h : ∀ l, ls.getLast? = some l → (trim l).isEmpty = false) : dropTrailingBlank ls = ls := by
  rw [dropTrailingBlank]
  cases hr : ls.reverse with
  | nil =>
    have : ls = [] := by simpa using congrArg List.reverse hr
    rw [this]
    rfl
  | cons l0 rest =>
    have hl0 : ls.getLast? = some l0 := by
      rw [← List.head?_reverse, hr]
      rfl
    rw [List.dropWhile_cons, if_neg (by simp [h l0 hl0])]
    rw [← hr, List.reverse_reverse]

theorem indentRoots_getLast_nonblank (n : Nat) :
    ∀ (ts : List Node), (∀ l ∈ labelsForest ts, goodLabel l) →
      ∀ l, (indentRoots n ts).getLast? = some l → (trim l).isEmpty = false := by
  intro ts
  induction ts with
  | nil => intro _ l hl; rw [indentRoots] at hl; simp at hl
  | cons r rest ih =>
    intro hg l hl
    have hmem_case : l ∈ indentRoots n (r :: rest) := List.mem_of_getLast?_eq_some hl
    rcases rest with _ | ⟨r', rest'⟩
    · rw [indentRoots] at hl
      have hm : l ∈ indentNode n r 0 := List.mem_of_getLast?_eq_some hl
      obtain ⟨d', lbl, hlbl, rfl⟩ := indentNode_shape n r 0 l hm
      have hglbl : goodLabel lbl := hg lbl (by rw [labelsForest]; simp [hlbl])
      rw [trim_replicate_space, hglbl.1]
      rcases lbl with _ | ⟨a, t⟩
      · exact absurd rfl hglbl.2.1
      · simp
    · rw [indentRoots, List.getLast?_append] at hl
      have hRne : indentRoots n (r' :: rest') ≠ [] := indentRoots_ne_nil (by simp)
      rcases hR : indentRoots n (r' :: rest') with _ | ⟨x, xs⟩
      · exact absurd hR hRne
      · rw [hR, List.getLast?_cons_cons] at hl
        have : (x :: xs).getLast? = some l := by
          cases hx : (x :: xs).getLast? with
          | none => exact absurd (List.getLast?_eq_none_iff.1 hx) (by simp)
          | some v =>
            rw [hx] at hl
            simpa using hl
        exact ih (fun m hm => hg m (by rw [labelsForest]; simp [hm])) l (by rw [hR]; exact this)

theorem importRender (n : Nat) (ts : List Node)
    (hg : ∀ l ∈ labelsForest ts, goodLabel l)
    (hs : ∀ l ∈ labelsForest ts, SafeLabel l) :
    importJiraToIndentedL (renderAsciiTreeL ts) n = joinNl (indentRoots n ts) := by
  rcases ts with _ | ⟨r, rest⟩
  · rfl
  · have hnice := renderRootsLines_nice (r :: rest) hg
    rw [renderAsciiTreeL, importJiraToIndentedL]
    rw [stripOpenFence_render (r :: rest) hg hs, stripCloseFence_render (r :: rest) hg hs]
    rw [replaceCrNl_joinNl _ hnice]
    rw [splitOnNl_joinNl _ (renderRootsLines_ne_nil (by simp)) (fun l hl => (hnice l hl).2)]
    rw [map_eq_self_of (fun l hl => (hnice l hl).1)]
    rw [filterMap_renderRootsLines n (r :: rest) (fun l hl => ⟨hg l hl, hs l hl⟩)]
    rw [dropTrailingBlank_eq_self (indentRoots_getLast_nonblank n (r :: rest) hg)]

/-- C1 counterexample: the tree parsed from `"x ├─ y"` has a single root
whose label `x ├─ y` is not a pure-connector string, yet the round trip
does not reproduce it: the importer splits the rendered root line at the
embedded `├─ ` marker and the re-parsed tree is a single root `y`. -/
theorem roundTrip_cex :
    parseIndentedTree "x ├─ y" 2 = [Node.mk "x ├─ y".toList []] ∧
    connectorOnly "x ├─ y".toList = false ∧
    parseIndentedTree (importJiraToIndented (renderAsciiTree (parseIndentedTree "x ├─ y" 2)) 2) 2 =
      [Node.mk "y".toList []] ∧
    Node.mk "y".toList [] ≠ Node.mk "x ├─ y".toList [] := by
  refine ⟨rfl, by decide, rfl, ?_⟩
  intro h
  rw [Node.mk.injEq] at h
  exact absurd h.1 (by decide)

/-- Safety of a label is decidable, so concrete instances close by decide. -/
instance (l : Line) : Decidable (SafeLabel l) := by
  unfold SafeLabel
  exact inferInstance

theorem importJiraToIndented_toList (raw : String) (n : Nat) :
    (importJiraToIndented raw n).toList = importJiraToIndentedL raw.toList n := by
  rw [importJiraToIndented]
  rfl

theorem renderAsciiTree_toList (ts : List Node) :
    (renderAsciiTree ts).toList = renderAsciiTreeL ts := by
  rw [renderAsciiTree]
  rfl

theorem parseIndentedTree_eqL (input : String) (n : Nat) :
    parseIndentedTree input n = parseIndentedTreeL input.toList n := rfl

/-- C1 (amended): for every tree produced by `parseIndentedTree` from
some input text, provided every node label is safe — not a pure-connector
string, containing neither `├─ ` nor `└─ ` as a substring, and neither
starting with the fence opener `{code` nor ending with the fence closer
`{code}` (case-insensitively) — parsing the result of
`importJiraToIndented (renderAsciiTree roots)` with the same (positive)
indent size yields a tree identical in structure and labels to the
original. -/
theorem roundTrip_of_safe_labels (input : String) (n : Nat) (hn : 0 < n)
    (hsafe : ∀ l ∈ labelsForest (parseIndentedTree input n), SafeLabel l) :
    parseIndentedTree (importJiraToIndented (renderAsciiTree (parseIndentedTree input n)) n) n =
      parseIndentedTree input n := by
  have hg : ∀ l ∈ labelsForest (parseIndentedTree input n), goodLabel l :=
    fun l hl => parse_labels_good input.toList n l hl
  rw [parseIndentedTree_eqL (importJiraToIndented
      (renderAsciiTree (parseIndentedTree input n)) n) n]
  rw [importJiraToIndented_toList, renderAsciiTree_toList]
  rw [importRender n (parseIndentedTree input n) hg hsafe]
  exact parse_of_indentRoots n hn (parseIndentedTree input n) hg

/-- Witness for C1 at the concrete input of scenario 1. -/
theorem roundTrip_of_safe_labels_witness :
    (0 < 2 ∧ ∀ l ∈ labelsForest (parseIndentedTree "A\n  B\n  C" 2), SafeLabel l) ∧
    parseIndentedTree
        (importJiraToIndented (renderAsciiTree (parseIndentedTree "A\n  B\n  C" 2)) 2) 2 =
      parseIndentedTree "A\n  B\n  C" 2 :=
  ⟨⟨by decide, by decide⟩, roundTrip_of_safe_labels "A\n  B\n  C" 2 (by decide) (by decide)⟩


/-! ## Layout engine scaffolding: tree sizes and flattening (App.tsx flattenTree) -/

mutual

/-- Number of nodes in a tree. -/
def size : Node → Nat
  | .mk _ cs => 1 + sizeF cs

/-- Number of nodes in a forest. -/
def sizeF : List Node → Nat
  | [] => 0
  | c :: rest => size c + sizeF rest

end

mutual

/-- Number of leaves in a tree (a childless node counts as one leaf). -/
def leafCnt : Node → Nat
  | .mk _ cs =>
    match cs with
    | [] => 1
    | c :: rest => leafCnt c + leafCntF rest

/-- Number of leaves in a forest. -/
def leafCntF : List Node → Nat
  | [] => 0
  | c :: rest => leafCnt c + leafCntF rest

end

/-- Ids assigned by the flattening walk to the roots of a forest whose first
node receives id k: each subsequent sibling starts after the previous subtree. -/
def childStarts : Nat → List Node → List Nat
  | _, [] => []
  | k, c :: rest => k :: childStarts (k + size c) rest

/-- One element of the flat array produced by flattenTree. -/
structure FlatNode where
  id : Nat
  text : Line
  depth : Nat
  parentId : Option Nat
  childrenIds : List Nat
deriving DecidableEq

mutual

/-- The walk of flattenTree on one node: takes depth, parentId and the next
free id; returns the id counter after the subtree and the entries pushed,
in push order (the node itself first, then its descendants). -/
def walkNode : Node → Nat → Option Nat → Nat → Nat × List FlatNode
  | .mk t cs, d, p, i =>
    let r := walkForest cs (d + 1) (some i) (i + 1)
    (r.1, ⟨i, t, d, p, r.2.1⟩ :: r.2.2)

/-- The walk over a list of children: returns the final id counter, the list
of ids handed back to the parent (entry.childrenIds), and the entries. -/
def walkForest : List Node → Nat → Option Nat → Nat → Nat × List Nat × List FlatNode
  | [], _, _, i => (i, [], [])
  | c :: rest, d, p, i =>
    let rc := walkNode c d p i
    let rr := walkForest rest d p rc.1
    (rr.1, i :: rr.2.1, rc.2 ++ rr.2.2)

end

/-- flattenTree's root loop: `for (const r of roots) walk(r, 0, null)`. -/
def flattenGo : List Node → Nat → List FlatNode
  | [], _ => []
  | r :: rest, i =>
    let rc := walkNode r 0 none i
    rc.2 ++ flattenGo rest rc.1

/-- App.tsx flattenTree: flatten a forest into an array with parent/child
references; the id counter starts at 1. -/
def flattenTree (roots : List Node) : List FlatNode := flattenGo roots 1

/-! ## Text measurement and wrapping (App.tsx wrapTextToLinesPx)

The canvas text-measuring function measureTextPx depends on the browser; it
is modelled as a parameter μ : Line → ℚ throughout. -/

/-- text.replace(/\s+/g, " "): collapse each maximal run of JS whitespace
into a single space. -/
def collapseWs : Line → Line
  | [] => []
  | [c] => [if isJsWs c then ' ' else c]
  | c :: c' :: rest =>
    if isJsWs c ∧ isJsWs c' then collapseWs (c' :: rest)
    else (if isJsWs c then ' ' else c) :: collapseWs (c' :: rest)

/-- Helper for splitting on a single space character. -/
def splitOnSpaceGo : Line → Line → List Line
  | [], cur => [cur.reverse]
  | c :: rest, cur =>
    if c = ' ' then cur.reverse :: splitOnSpaceGo rest []
    else splitOnSpaceGo rest (c :: cur)

/-- clean.split(" "). -/
def splitOnSpace (l : Line) : List Line := splitOnSpaceGo l []

/-- The soft-break delimiters of wrapTextToLinesPx: [\-\/:\+]. -/
def isSoftDelim (c : Char) : Bool := c = '-' ∨ c = '/' ∨ c = ':' ∨ c = '+'

/-- word.split(/([\-\/:\+])/g).filter(p => p.length > 0): split keeping each
delimiter as its own one-character token, dropping empty segments. -/
def splitKeepGo : Line → Line → List Line
  | [], cur => if cur = [] then [] else [cur.reverse]
  | c :: rest, cur =>
    if isSoftDelim c then
      (if cur = [] then [] else [cur.reverse]) ++ [c] :: splitKeepGo rest []
    else splitKeepGo rest (c :: cur)

/-- Split a word at soft-break delimiters, keeping the delimiters. -/
def splitKeep (w : Line) : List Line := splitKeepGo w []

/-- splitWordWithSoftBreaks: re-attach each delimiter token to the token on
its left, so breaks happen after the delimiter. -/
def splitSoft (w : Line) : List Line :=
  (splitKeep w).foldl (fun out p =>
    match p with
    | [c] =>
      if isSoftDelim c then
        match out.getLast? with
        | none => [p]
        | some last => out.dropLast ++ [last ++ p]
      else out ++ [p]
    | _ => out ++ [p]) []

/-- The character-splitting loop of pushToken: walks the token character by
character, accumulating a chunk while it fits and flushing it otherwise.
Returns the accumulated lines and the final chunk. -/
def charSplitGo (μ : Line → ℚ) (maxW : ℚ) : Line → Line → List Line → List Line × Line
  | [], chunk, acc => (acc, chunk)
  | c :: rest, chunk, acc =>
    let nxt := chunk ++ [c]
    if μ nxt ≤ maxW then charSplitGo μ maxW rest nxt acc
    else charSplitGo μ maxW rest [c] (if chunk ≠ [] then acc ++ [chunk] else acc)

/-- pushToken of wrapTextToLinesPx as a transition on the (lines, current)
state. At the end of the character-splitting branch the source always resets
current to the empty string. -/
def pushTok (μ : Line → ℚ) (maxW : ℚ) (st : List Line × Line) (tok : Line)
    (lead : Bool) : List Line × Line :=
  let lines := st.1
  let current := st.2
  let prefixed := if lead ∧ current ≠ [] then ' ' :: tok else tok
  let candidate := if current ≠ [] then current ++ prefixed else tok
  if μ candidate ≤ maxW then (lines, candidate)
  else
    let hasCur := trim current ≠ []
    let lines1 := if hasCur then lines ++ [trim current] else lines
    let current1 : Line := if hasCur then [] else current
    if hasCur ∧ μ tok ≤ maxW then (lines1, tok)
    else
      let cs := charSplitGo μ maxW tok [] lines1
      if cs.2 ≠ [] ∧ trim current1 = [] then (cs.1 ++ [cs.2], [])
      else (cs.1, [])

/-- App.tsx wrapTextToLinesPx with the measuring function abstracted as μ. -/
def wrapTextToLinesPx (μ : Line → ℚ) (text : Line) (maxW : ℚ) : List Line :=
  let clean := trim (collapseWs text)
  if clean = [] then [[]]
  else
    let words := splitOnSpace clean
    let st := words.foldl (fun st w =>
      match splitSoft w with
      | [] => st
      | p :: ps => ps.foldl (fun st2 q => pushTok μ maxW st2 q false)
          (pushTok μ maxW st p true)) (([], []) : List Line × Line)
    let fin := if trim st.2 ≠ [] then st.1 ++ [trim st.2] else st.1
    if fin ≠ [] then fin else [clean]

/-! ## Node sizing (App.tsx layoutTreeForSvg, sizing loop) -/

/-- clampW: clamp a width into [MIN_NODE_W, MAX_NODE_W] = [120, 210]. -/
def clampW (w : ℚ) : ℚ := max 120 (min 210 w)

/-- Truncate wrapped lines to MAX_LINES = 7, appending an ellipsis to the
seventh line. -/
def truncLines (ls : List Line) : List Line :=
  if 7 < ls.length then ls.take 6 ++ [ls.getD 6 [] ++ [' ', '…']] else ls

/-- The sizing computation of the per-node loop: wrapped lines, final width
and height (PADDING_X = 12, PADDING_Y = 10, LINE_H = 16). -/
def nodeSize (μ : Line → ℚ) (text : Line) : List Line × ℚ × ℚ :=
  let clean := trim (collapseWs text)
  let w := clampW (μ clean + 2 * 12)
  let innerW := max 40 (w - 2 * 12)
  let lines0 := truncLines (wrapTextToLinesPx μ clean innerW)
  let needsWrap := 210 < μ clean + 2 * 12
  let finalW := if needsWrap then 210 else w
  let finalInnerW := max 40 (finalW - 2 * 12)
  let lines := if needsWrap then truncLines (wrapTextToLinesPx μ clean finalInnerW)
    else lines0
  (lines, finalW, 2 * 10 + (lines.length : ℚ) * 16 + 8)


/-! ## Layout engine (App.tsx layoutTreeForSvg)

Coordinates are rationals. JS Maps are modelled as association lists where
an insertion conses to the front, so a lookup finds the most recent write;
the byId Map is modelled by giving later array entries priority, matching
Map.set overwriting. The non-null assertions (map.get(id)!) are modelled
with a default value; for arrays produced by flattenTree every such lookup
is proved to succeed. -/

/-- Lookup in an association list (most recent write first). -/
def getM {α : Type} : List (Nat × α) → Nat → Option α
  | [], _ => none
  | p :: m, k => if p.1 = k then some p.2 else getM m k

/-- The byId Map: the last entry with a given id wins, as with Map.set. -/
def byId : List FlatNode → Nat → Option FlatNode
  | [], _ => none
  | n :: rest, k =>
    match byId rest k with
    | some m => some m
    | none => if n.id = k then some n else none

/-- isLeaf: (byId.get(id)?.childrenIds.length ?? 0) === 0. -/
def isLeafF (F : List FlatNode) (k : Nat) : Bool :=
  match byId F k with
  | some n => n.childrenIds.isEmpty
  | none => true

/-- assignLeaves as a fuel-indexed recursion: state is the pair
(leafCursor, leafX map). The fuel decreases once per tree level; the callers
pass F.length + 1, which is enough for every array produced by flattenTree. -/
def assignLeavesGo (F : List FlatNode) : Nat → Nat → ℚ × List (Nat × ℚ) → ℚ × List (Nat × ℚ)
  | 0, _, st => st
  | fuel + 1, k, st =>
    if isLeafF F k then (st.1 + 1, (k, st.1) :: st.2)
    else
      match byId F k with
      | some n => n.childrenIds.foldl (fun a c => assignLeavesGo F fuel c a) st
      | none => st

/-- computeX as a fuel-indexed recursion: children first (post-order), then
the node's own xUnit — its leafX slot for a leaf, the arithmetic mean of its
children's xUnit values otherwise. A dangling id (byId none) would throw in
the source; it is unreachable for flattenTree arrays and left as a no-op. -/
def computeXGo (F : List FlatNode) : Nat → Nat → List (Nat × ℚ) → List (Nat × ℚ) → List (Nat × ℚ)
  | 0, _, _, acc => acc
  | fuel + 1, k, lx, acc =>
    match byId F k with
    | none => acc
    | some n =>
      let acc1 := n.childrenIds.foldl (fun a c => computeXGo F fuel c lx a) acc
      if n.childrenIds.isEmpty then (k, (getM lx k).getD 0) :: acc1
      else
        let xs := n.childrenIds.map (fun c => (getM acc1 c).getD 0)
        (k, xs.sum / (xs.length : ℚ)) :: acc1

/-- Math.min over a spread list: none models the empty spread (+Infinity). -/
def minimumM : List ℚ → Option ℚ
  | [] => none
  | x :: xs => some (xs.foldl min x)

/-- Math.max over a spread list: none models the empty spread (-Infinity). -/
def maximumM : List ℚ → Option ℚ
  | [] => none
  | x :: xs => some (xs.foldl max x)

/-- A positioned node: the FlatNode fields spread together with the box
geometry and wrapped lines. -/
structure PositionedNode where
  id : Nat
  text : Line
  depth : Nat
  parentId : Option Nat
  childrenIds : List Nat
  x : ℚ
  y : ℚ
  w : ℚ
  h : ℚ
  lines : List Line
deriving DecidableEq

/-- Shift a positioned node by (dx, dy). -/
def shiftXY (p : PositionedNode) (dx dy : ℚ) : PositionedNode :=
  ⟨p.id, p.text, p.depth, p.parentId, p.childrenIds, p.x + dx, p.y + dy, p.w, p.h, p.lines⟩

/-- The ids of the root entries: flat.filter(n => n.parentId === null).map(n => n.id). -/
def rootIdsOf (F : List FlatNode) : List Nat :=
  (F.filter (fun n => n.parentId.isNone)).map (fun n => n.id)

/-- The linesById/widthById/heightById maps, keyed by id. -/
def sizesOf (μ : Line → ℚ) (F : List FlatNode) : List (Nat × (List Line × ℚ × ℚ)) :=
  F.foldl (fun m n => (n.id, nodeSize μ n.text) :: m) []

/-- heightById.get(k)! with default 0 for a missing id. -/
def heightOfId (μ : Line → ℚ) (F : List FlatNode) (k : Nat) : ℚ :=
  ((getM (sizesOf μ F) k).getD ([], 0, 0)).2.2

/-- The final leafX map (second component; first is the final leafCursor). -/
def leafXOf (F : List FlatNode) : ℚ × List (Nat × ℚ) :=
  (rootIdsOf F).foldl (fun st r => assignLeavesGo F (F.length + 1) r st) (0, [])

/-- The final xUnit map. -/
def xUnitOf (F : List FlatNode) : List (Nat × ℚ) :=
  (rootIdsOf F).foldl (fun a r => computeXGo F (F.length + 1) r (leafXOf F).2 a) []

/-- maxDepth = Math.max(0, ...flat.map(n => n.depth)). In the source this
sizes the per-depth arrays; here those arrays are modelled by total
functions that are only ever read at depths ≤ maxDepth. -/
def maxDepthOf (F : List FlatNode) : Nat :=
  F.foldl (fun m n => max m n.depth) 0

/-- maxHPerDepth[d]: the maximal node height at depth d (0 when none). -/
def maxHAt (μ : Line → ℚ) (F : List FlatNode) (d : Nat) : ℚ :=
  F.foldl (fun m n => if n.depth = d then max m (heightOfId μ F n.id) else m) 0

/-- yTopByDepth[d]: the accY loop with GAP_Y = 50 starting at 30. -/
def yTopAt (μ : Line → ℚ) (F : List FlatNode) : Nat → ℚ
  | 0 => 30
  | d + 1 => yTopAt μ F d + maxHAt μ F d + 50

/-- The per-node positioning: pxX(u) = 30 + u * (SLOT_W + GAP_X) with
SLOT_W = 210 and GAP_X = 54, x = cx - w/2, y from the depth row. -/
def basePosFn (μ : Line → ℚ) (F : List FlatNode) (n : FlatNode) : PositionedNode :=
  let sz := (getM (sizesOf μ F) n.id).getD ([], 0, 0)
  let cx := 30 + ((getM (xUnitOf F) n.id).getD 0) * (210 + 54)
  ⟨n.id, n.text, n.depth, n.parentId, n.childrenIds,
   cx - sz.2.1 / 2, yTopAt μ F n.depth, sz.2.1, sz.2.2, sz.1⟩

/-- The first positioned list. -/
def basePos (μ : Line → ℚ) (F : List FlatNode) : List PositionedNode :=
  F.map (basePosFn μ F)

/-- dx = minX < MARGIN ? MARGIN - minX : 0; Math.min of an empty spread is
Infinity, for which the comparison with MARGIN = 20 is false. -/
def dxOf (μ : Line → ℚ) (F : List FlatNode) : ℚ :=
  match minimumM ((basePos μ F).map (fun p => p.x)) with
  | some m => if m < 20 then 20 - m else 0
  | none => 0

/-- dy, as dx but vertical. -/
def dyOf (μ : Line → ℚ) (F : List FlatNode) : ℚ :=
  match minimumM ((basePos μ F).map (fun p => p.y)) with
  | some m => if m < 20 then 20 - m else 0
  | none => 0

/-- if (dx || dy) positioned = positioned.map(p => ({...p, x: p.x+dx, y: p.y+dy})). -/
def pos1Of (μ : Line → ℚ) (F : List FlatNode) : List PositionedNode :=
  if dxOf μ F ≠ 0 ∨ dyOf μ F ≠ 0 then
    (basePos μ F).map (fun p => shiftXY p (dxOf μ F) (dyOf μ F))
  else basePos μ F

/-- dxCenter = max(MARGIN, (canvasWidth - contentWidth)/2) - contentMinX with
canvasWidth = max(contentMaxX, MIN_CANVAS_W) + MARGIN. On an empty positioned
list the source computes NaN (from Infinity - Infinity), which is falsy in
the subsequent if; that case is modelled as none. -/
def dxCenterOf (μ : Line → ℚ) (F : List FlatNode) : Option ℚ :=
  match minimumM ((pos1Of μ F).map (fun p => p.x)),
      maximumM ((pos1Of μ F).map (fun p => p.x + p.w)) with
  | some mn, some mx => some (max 20 ((max mx 900 + 20 - (mx - mn)) / 2) - mn)
  | _, _ => none

/-- if (dxCenter) positioned = positioned.map(p => ({...p, x: p.x + dxCenter})). -/
def positionedOf (μ : Line → ℚ) (F : List FlatNode) : List PositionedNode :=
  match dxCenterOf μ F with
  | some dc =>
    if dc ≠ 0 then (pos1Of μ F).map (fun p => shiftXY p dc 0) else pos1Of μ F
  | none => pos1Of μ F

/-- The layout result: positioned nodes and canvas dimensions (the record of
rendering constants returned alongside in the source is omitted). -/
structure LayoutResult where
  positioned : List PositionedNode
  width : ℚ
  height : ℚ
deriving DecidableEq

/-- App.tsx layoutTreeForSvg: width = maxX + MARGIN, height = maxY + MARGIN,
with maxX/maxY the maxima of the box extents and the minimum canvas size
MIN_CANVAS_W = 900, MIN_CANVAS_H = 600. -/
def layoutTreeForSvg (μ : Line → ℚ) (F : List FlatNode) : LayoutResult :=
  ⟨positionedOf μ F,
   ((positionedOf μ F).map (fun p => p.x + p.w)).foldl max 900 + 20,
   ((positionedOf μ F).map (fun p => p.y + p.h)).foldl max 600 + 20⟩

/-- The chain of ancestor ids of a node, following parentId links. The fuel
F.length suffices for flattenTree arrays, where parent ids strictly
decrease along the chain. -/
def parentChain (F : List FlatNode) : Nat → Nat → List Nat
  | 0, _ => []
  | fuel + 1, k =>
    match byId F k with
    | some n =>
      match n.parentId with
      | some q => q :: parentChain F fuel q
      | none => []
    | none => []

/-- a is a strict ancestor of b in the flat array. -/
def ancestorOf (F : List FlatNode) (a b : Nat) : Prop :=
  a ∈ parentChain F F.length b

instance (F : List FlatNode) (a b : Nat) : Decidable (ancestorOf F a b) := by
  unfold ancestorOf
  exact inferInstance

/-- Find a positioned node by id. -/
def findById : List PositionedNode → Nat → Option PositionedNode
  | [], _ => none
  | p :: ps, k => if p.id = k then some p else findById ps k

/-- The horizontal center of the positioned node with the given id
(0 when absent; every child id is present in a flattenTree layout). -/
def centerOfId (ps : List PositionedNode) (k : Nat) : ℚ :=
  match findById ps k with
  | some q => q.x + q.w / 2
  | none => 0


/-! ## Structural specifications of the layout passes

These definitions recompute, by structural recursion over the original
forest, exactly the maps that the imperative passes of layoutTreeForSvg
build through the byId Map; the equivalence is proved below. -/

mutual

/-- The xUnit of a tree's root when its subtree's leaves occupy the slots
c0, c0+1, …: the slot itself for a leaf, the mean of the children's xUnit
values otherwise. -/
def xuN : Node → ℚ → ℚ
  | .mk _ cs, c0 =>
    match cs with
    | [] => c0
    | c :: rest => (xuKids (c :: rest) c0).sum / (((c :: rest).length : ℚ))

/-- The xUnit values of the roots of a forest whose leaves start at c0. -/
def xuKids : List Node → ℚ → List ℚ
  | [], _ => []
  | c :: rest, c0 => xuN c c0 :: xuKids rest (c0 + (leafCnt c : ℚ))

end

mutual

/-- The association list built by assignLeaves for one subtree (most recent
write first, as in the Map model). -/
def lxListN : Node → Nat → ℚ → List (Nat × ℚ)
  | .mk _ cs, k, c0 =>
    match cs with
    | [] => [(k, c0)]
    | c :: rest => lxListF (c :: rest) (k + 1) c0

/-- The association list built by assignLeaves over sibling subtrees. -/
def lxListF : List Node → Nat → ℚ → List (Nat × ℚ)
  | [], _, _ => []
  | c :: rest, k, c0 => lxListF rest (k + size c) (c0 + (leafCnt c : ℚ)) ++ lxListN c k c0

end

mutual

/-- The association list built by computeX for one subtree. -/
def xuListN : Node → Nat → ℚ → List (Nat × ℚ)
  | .mk _ cs, k, c0 =>
    match cs with
    | [] => [(k, c0)]
    | c :: rest =>
      (k, (xuKids (c :: rest) c0).sum / (((c :: rest).length : ℚ))) ::
        xuListF (c :: rest) (k + 1) c0

/-- The association list built by computeX over sibling subtrees. -/
def xuListF : List Node → Nat → ℚ → List (Nat × ℚ)
  | [], _, _ => []
  | c :: rest, k, c0 => xuListF rest (k + size c) (c0 + (leafCnt c : ℚ)) ++ xuListN c k c0

end

mutual

/-- The flat entries of one subtree paired with their xUnit values, in push
order. -/
def entN : Node → Nat → Nat → ℚ → Option Nat → List (FlatNode × ℚ)
  | .mk t cs, k, d, c0, p =>
    (⟨k, t, d, p, childStarts (k + 1) cs⟩, xuN (.mk t cs) c0) ::
      entF cs (k + 1) (d + 1) c0 (some k)

/-- The flat entries of a forest paired with their xUnit values. -/
def entF : List Node → Nat → Nat → ℚ → Option Nat → List (FlatNode × ℚ)
  | [], _, _, _, _ => []
  | c :: rest, k, d, c0, p =>
    entN c k d c0 p ++ entF rest (k + size c) d (c0 + (leafCnt c : ℚ)) p

end

mutual

/-- The byId Map resolves every id of the subtree at (k, d, p) to the entry
the walk created for it. -/
def ResolvedN (F : List FlatNode) : Node → Nat → Nat → Option Nat → Prop
  | .mk t cs, k, d, p =>
    byId F k = some ⟨k, t, d, p, childStarts (k + 1) cs⟩ ∧
      ResolvedF F cs (k + 1) (d + 1) (some k)

/-- Resolution for a forest of sibling subtrees. -/
def ResolvedF (F : List FlatNode) : List Node → Nat → Nat → Option Nat → Prop
  | [], _, _, _ => True
  | c :: rest, k, d, p => ResolvedN F c k d p ∧ ResolvedF F rest (k + size c) d p

end

mutual

/-- The map M answers every leaf of the subtree at id k, cursor base c0,
with its leaf slot. -/
def LeafOkN (M : List (Nat × ℚ)) : Node → Nat → ℚ → Prop
  | .mk _ cs, k, c0 =>
    match cs with
    | [] => getM M k = some c0
    | c :: rest => LeafOkF M (c :: rest) (k + 1) c0

/-- Leaf resolution for a forest of sibling subtrees. -/
def LeafOkF (M : List (Nat × ℚ)) : List Node → Nat → ℚ → Prop
  | [], _, _ => True
  | c :: rest, k, c0 =>
    LeafOkN M c k c0 ∧ LeafOkF M rest (k + size c) (c0 + (leafCnt c : ℚ))

end

/-! ## Basic lemmas: sizes, starts, association-list lookups -/

theorem size_pos : (t : Node) → 1 ≤ size t
  | .mk _ _ => Nat.le_add_right 1 _

theorem leafCnt_pos : (t : Node) → 1 ≤ leafCnt t
  | .mk _ [] => le_refl 1
  | .mk _ (c :: _) => by
    have h := leafCnt_pos c
    show 1 ≤ leafCnt c + leafCntF _
    omega

theorem size_le_sizeF {t : Node} {cs : List Node} (h : t ∈ cs) : size t ≤ sizeF cs := by
  induction cs with
  | nil => cases h
  | cons c rest ih =>
    rcases List.mem_cons.1 h with rfl | h2
    · show size t ≤ size t + sizeF rest
      omega
    · have := ih h2
      show size t ≤ size c + sizeF rest
      omega

theorem childStarts_length (cs : List Node) : ∀ k, (childStarts k cs).length = cs.length := by
  induction cs with
  | nil => intro k; rfl
  | cons c rest ih => intro k; simp [childStarts, ih]

theorem childStarts_bounds {cs : List Node} :
    ∀ {k s}, s ∈ childStarts k cs → k ≤ s ∧ s < k + sizeF cs := by
  induction cs with
  | nil => intro k s h; cases h
  | cons c rest ih =>
    intro k s h
    rcases List.mem_cons.1 h with rfl | h2
    · have := size_pos c
      refine ⟨le_refl s, ?_⟩
      show s < s + (size c + sizeF rest)
      omega
    · have := ih h2
      have hc := size_pos c
      show k ≤ s ∧ s < k + (size c + sizeF rest)
      omega

theorem childStarts_eq_nil {cs : List Node} {k : Nat} :
    childStarts k cs = [] ↔ cs = [] := by
  cases cs with
  | nil => simp [childStarts]
  | cons c rest => simp [childStarts]

theorem getM_append {α : Type} (m1 m2 : List (Nat × α)) (k : Nat) :
    getM (m1 ++ m2) k =
      match getM m1 k with
      | some v => some v
      | none => getM m2 k := by
  induction m1 with
  | nil => simp [getM]
  | cons p m ih =>
    by_cases h : p.1 = k
    · simp [getM, h]
    · simp [getM, h, ih]

theorem getM_append_left {α : Type} {m1 : List (Nat × α)} {k : Nat} {v : α}
    (m2 : List (Nat × α)) (h : getM m1 k = some v) : getM (m1 ++ m2) k = some v := by
  rw [getM_append, h]

theorem getM_skip {α : Type} {m1 : List (Nat × α)} {b k : Nat}
    (hb : ∀ pr ∈ m1, b ≤ pr.1) (hk : k < b) (m2 : List (Nat × α)) :
    getM (m1 ++ m2) k = getM m2 k := by
  rw [getM_append]
  have hm : getM m1 k = none := by
    induction m1 with
    | nil => rfl
    | cons p m ih =>
      have hp := hb p (by simp)
      have hne : ¬ p.1 = k := by omega
      simp [getM, hne]
      exact ih (fun q hq => hb q (by simp [hq]))
  rw [hm]

theorem getM_mem {α : Type} {m : List (Nat × α)} {k : Nat} {v : α}
    (h : getM m k = some v) : (k, v) ∈ m := by
  induction m with
  | nil => cases h
  | cons p rest ih =>
    by_cases hp : p.1 = k
    · rw [getM, if_pos hp] at h
      have : p = (k, v) := by
        cases p
        simp at hp h
        simp [hp, h]
      simp [this]
    · rw [getM, if_neg hp] at h
      exact List.mem_cons_of_mem _ (ih h)

mutual

theorem lxList_keys : ∀ (t : Node) (k : Nat) (c0 : ℚ),
    ∀ pr ∈ lxListN t k c0, k ≤ pr.1 ∧ pr.1 < k + size t
  | .mk txt [], k, c0 => by
    intro pr hpr
    have hs := size_pos (Node.mk txt [])
    rw [lxListN] at hpr
    rcases List.mem_singleton.1 hpr with rfl
    simp
    omega
  | .mk txt (c :: rest), k, c0 => by
    intro pr hpr
    rw [lxListN] at hpr
    have h := lxListF_keys (c :: rest) (k + 1) c0 pr hpr
    have : size (Node.mk txt (c :: rest)) = 1 + sizeF (c :: rest) := rfl
    omega

theorem lxListF_keys : ∀ (cs : List Node) (k : Nat) (c0 : ℚ),
    ∀ pr ∈ lxListF cs k c0, k ≤ pr.1 ∧ pr.1 < k + sizeF cs
  | [], _, _ => by intro pr hpr; cases hpr
  | c :: rest, k, c0 => by
    intro pr hpr
    rw [lxListF] at hpr
    rcases List.mem_append.1 hpr with h | h
    · have := lxListF_keys rest (k + size c) (c0 + (leafCnt c : ℚ)) pr h
      have hzf : sizeF (c :: rest) = size c + sizeF rest := rfl
      omega
    · have := lxList_keys c k c0 pr h
      have hzf : sizeF (c :: rest) = size c + sizeF rest := rfl
      omega

end

mutual

theorem xuList_keys : ∀ (t : Node) (k : Nat) (c0 : ℚ),
    ∀ pr ∈ xuListN t k c0, k ≤ pr.1 ∧ pr.1 < k + size t
  | .mk txt [], k, c0 => by
    intro pr hpr
    have hs := size_pos (Node.mk txt [])
    rw [xuListN] at hpr
    rcases List.mem_singleton.1 hpr with rfl
    simp
    omega
  | .mk txt (c :: rest), k, c0 => by
    intro pr hpr
    rw [xuListN] at hpr
    rcases List.mem_cons.1 hpr with rfl | h
    · have hs := size_pos (Node.mk txt (c :: rest))
      simp
      omega
    · have h2 := xuListF_keys (c :: rest) (k + 1) c0 pr h
      have : size (Node.mk txt (c :: rest)) = 1 + sizeF (c :: rest) := rfl
      omega

theorem xuListF_keys : ∀ (cs : List Node) (k : Nat) (c0 : ℚ),
    ∀ pr ∈ xuListF cs k c0, k ≤ pr.1 ∧ pr.1 < k + sizeF cs
  | [], _, _ => by intro pr hpr; cases hpr
  | c :: rest, k, c0 => by
    intro pr hpr
    rw [xuListF] at hpr
    rcases List.mem_append.1 hpr with h | h
    · have := xuListF_keys rest (k + size c) (c0 + (leafCnt c : ℚ)) pr h
      have hzf : sizeF (c :: rest) = size c + sizeF rest := rfl
      omega
    · have := xuList_keys c k c0 pr h
      have hzf : sizeF (c :: rest) = size c + sizeF rest := rfl
      omega

end


/-! ## The flattening walk produces exactly the structural entries -/

mutual

theorem walkNode_eq : ∀ (t : Node) (d : Nat) (p : Option Nat) (k : Nat) (c0 : ℚ),
    walkNode t d p k = (k + size t, (entN t k d c0 p).map (fun pr => pr.1))
  | .mk txt cs, d, p, k, c0 => by
    have hf := walkForest_eq cs (d + 1) (some k) (k + 1) c0
    rw [walkNode, entN, hf]
    have hsz : k + size (Node.mk txt cs) = k + 1 + sizeF cs := by
      show k + (1 + sizeF cs) = k + 1 + sizeF cs
      omega
    simp [hsz]

theorem walkForest_eq : ∀ (cs : List Node) (d : Nat) (p : Option Nat) (k : Nat) (c0 : ℚ),
    walkForest cs d p k =
      (k + sizeF cs, childStarts k cs, (entF cs k d c0 p).map (fun pr => pr.1))
  | [], d, p, k, c0 => by simp [walkForest, entF, childStarts, sizeF]
  | c :: rest, d, p, k, c0 => by
    have hc := walkNode_eq c d p k c0
    rw [walkForest, hc]
    have hr := walkForest_eq rest d p (k + size c) (c0 + (leafCnt c : ℚ))
    rw [hr]
    have hsz : k + size c + sizeF rest = k + sizeF (c :: rest) := by
      show k + size c + sizeF rest = k + (size c + sizeF rest)
      omega
    simp [entF, childStarts, hsz]

end

theorem flattenGo_eq : ∀ (roots : List Node) (k : Nat) (c0 : ℚ),
    flattenGo roots k = (entF roots k 0 c0 none).map (fun pr => pr.1) := by
  intro roots
  induction roots with
  | nil => intro k c0; rfl
  | cons r rest ih =>
    intro k c0
    rw [flattenGo, walkNode_eq r 0 none k c0, entF]
    simp [ih (k + size r) (c0 + (leafCnt r : ℚ))]

theorem flattenTree_eq (roots : List Node) (c0 : ℚ) :
    flattenTree roots = (entF roots 1 0 c0 none).map (fun pr => pr.1) :=
  flattenGo_eq roots 1 c0

/-! ## Ids of the entries -/

theorem range1_append (s m n : Nat) :
    List.range' s m ++ List.range' (s + m) n = List.range' s (m + n) := by
  rw [show m + n = n + m from by omega]
  simpa using List.range'_append s m n 1

mutual

theorem entN_ids : ∀ (t : Node) (k d : Nat) (c0 : ℚ) (p : Option Nat),
    (entN t k d c0 p).map (fun pr => pr.1.id) = List.range' k (size t)
  | .mk txt cs, k, d, c0, p => by
    rw [entN, List.map_cons]
    rw [entF_ids cs (k + 1) (d + 1) c0 (some k)]
    rw [show size (Node.mk txt cs) = 1 + sizeF cs from rfl]
    rw [show (1 + sizeF cs) = sizeF cs + 1 from by omega]
    rw [List.range'_succ]

theorem entF_ids : ∀ (cs : List Node) (k d : Nat) (c0 : ℚ) (p : Option Nat),
    (entF cs k d c0 p).map (fun pr => pr.1.id) = List.range' k (sizeF cs)
  | [], _, _, _, _ => by simp [entF, sizeF]
  | c :: rest, k, d, c0, p => by
    rw [entF, List.map_append]
    rw [entN_ids c k d c0 p]
    rw [entF_ids rest (k + size c) d (c0 + (leafCnt c : ℚ)) p]
    rw [show sizeF (c :: rest) = size c + sizeF rest from rfl]
    exact range1_append k (size c) (sizeF rest)

end

theorem entF_length (cs : List Node) (k d : Nat) (c0 : ℚ) (p : Option Nat) :
    (entF cs k d c0 p).length = sizeF cs := by
  have h := congrArg List.length (entF_ids cs k d c0 p)
  simpa using h

theorem flattenTree_ids (roots : List Node) :
    (flattenTree roots).map (fun e => e.id) = List.range' 1 (sizeF roots) := by
  rw [flattenTree_eq roots 0]
  rw [show ((entF roots 1 0 0 none).map (fun pr => pr.1)).map (fun e => e.id)
      = (entF roots 1 0 0 none).map (fun pr => pr.1.id) from by simp]
  exact entF_ids roots 1 0 0 none

theorem flattenTree_ids_nodup (roots : List Node) :
    ((flattenTree roots).map (fun e => e.id)).Nodup := by
  rw [flattenTree_ids]
  exact List.nodup_range' _ _

theorem flattenTree_length (roots : List Node) :
    (flattenTree roots).length = sizeF roots := by
  have h := congrArg List.length (flattenTree_ids roots)
  simpa using h

/-! ## byId resolves every entry of a duplicate-free array -/

theorem byId_isSome_mem {F : List FlatNode} {k : Nat}
    (h : (byId F k).isSome) : k ∈ F.map (fun e => e.id) := by
  induction F with
  | nil => simp [byId] at h
  | cons n rest ih =>
    rw [byId] at h
    cases hby : byId rest k with
    | some q => exact List.mem_cons_of_mem _ (ih (by simp [hby]))
    | none =>
      rw [hby] at h
      by_cases hid : n.id = k
      · simp [hid]
      · rw [if_neg hid] at h
        simp at h

theorem byId_eq_some {F : List FlatNode} (hnd : (F.map (fun e => e.id)).Nodup)
    {e : FlatNode} (he : e ∈ F) : byId F e.id = some e := by
  induction F with
  | nil => cases he
  | cons n rest ih =>
    have hnd2 : (rest.map (fun x => x.id)).Nodup := (List.nodup_cons.1 hnd).2
    have hni : n.id ∉ rest.map (fun x => x.id) := (List.nodup_cons.1 hnd).1
    rcases List.mem_cons.1 he with rfl | h2
    · have hnone : byId rest e.id = none := by
        cases hby : byId rest e.id with
        | none => rfl
        | some m => exact absurd (byId_isSome_mem (by simp [hby])) hni
      rw [byId, hnone, if_pos rfl]
    · rw [byId, ih hnd2 h2]


/-! ## byId resolution for flattenTree arrays -/

mutual

theorem entN_resolved : ∀ (t : Node) (k d : Nat) (c0 : ℚ) (p : Option Nat) (F : List FlatNode),
    (∀ pr ∈ entN t k d c0 p, byId F pr.1.id = some pr.1) → ResolvedN F t k d p
  | .mk txt cs, k, d, c0, p, F => by
    intro h
    refine ⟨?_, ?_⟩
    · have hh := h (⟨k, txt, d, p, childStarts (k + 1) cs⟩, xuN (.mk txt cs) c0)
        (by rw [entN]; exact List.mem_cons_self _ _)
      simpa using hh
    · exact entF_resolved cs (k + 1) (d + 1) c0 (some k) F
        (fun pr hpr => h pr (by rw [entN]; exact List.mem_cons_of_mem _ hpr))

theorem entF_resolved : ∀ (cs : List Node) (k d : Nat) (c0 : ℚ) (p : Option Nat) (F : List FlatNode),
    (∀ pr ∈ entF cs k d c0 p, byId F pr.1.id = some pr.1) → ResolvedF F cs k d p
  | [], _, _, _, _, _ => fun _ => trivial
  | c :: rest, k, d, c0, p, F => by
    intro h
    refine ⟨?_, ?_⟩
    · exact entN_resolved c k d c0 p F
        (fun pr hpr => h pr (by rw [entF]; exact List.mem_append_left _ hpr))
    · exact entF_resolved rest (k + size c) d (c0 + (leafCnt c : ℚ)) p F
        (fun pr hpr => h pr (by rw [entF]; exact List.mem_append_right _ hpr))

end

theorem flattenTree_resolved (roots : List Node) :
    ResolvedF (flattenTree roots) roots 1 0 none := by
  apply entF_resolved roots 1 0 0 none
  intro pr hpr
  apply byId_eq_some (flattenTree_ids_nodup roots)
  rw [flattenTree_eq roots 0]
  exact List.mem_map_of_mem _ hpr

/-! ## The root ids are the starts of the root subtrees -/

mutual

theorem entN_parent : ∀ (t : Node) (k d : Nat) (c0 : ℚ) (p : Option Nat),
    ∀ pr ∈ entN t k d c0 p, pr.1.parentId = p ∨ ∃ j, pr.1.parentId = some j
  | .mk txt cs, k, d, c0, p => by
    intro pr hpr
    rw [entN] at hpr
    rcases List.mem_cons.1 hpr with rfl | h
    · exact Or.inl rfl
    · rcases entF_parent cs (k + 1) (d + 1) c0 (some k) pr h with h2 | h2
      · exact Or.inr ⟨k, h2⟩
      · exact Or.inr h2

theorem entF_parent : ∀ (cs : List Node) (k d : Nat) (c0 : ℚ) (p : Option Nat),
    ∀ pr ∈ entF cs k d c0 p, pr.1.parentId = p ∨ ∃ j, pr.1.parentId = some j
  | [], _, _, _, _ => by intro pr hpr; cases hpr
  | c :: rest, k, d, c0, p => by
    intro pr hpr
    rw [entF] at hpr
    rcases List.mem_append.1 hpr with h | h
    · exact entN_parent c k d c0 p pr h
    · exact entF_parent rest (k + size c) d (c0 + (leafCnt c : ℚ)) p pr h

end

theorem filter_root_entN (t : Node) (k d : Nat) (c0 : ℚ) :
    ((entN t k d c0 none).map (fun pr => pr.1)).filter (fun n => n.parentId.isNone)
      = [⟨k, t.text, d, none, childStarts (k + 1) t.children⟩] := by
  cases t with
  | mk txt cs =>
    rw [entN]
    rw [List.map_cons, List.filter_cons]
    have htail :
        ((entF cs (k + 1) (d + 1) c0 (some k)).map (fun pr => pr.1)).filter
          (fun n => n.parentId.isNone) = [] := by
      rw [List.filter_eq_nil]
      intro a ha
      rcases List.mem_map.1 ha with ⟨pr, hpr, rfl⟩
      rcases entF_parent cs (k + 1) (d + 1) c0 (some k) pr hpr with h | ⟨j, h⟩
      · simp [h]
      · simp [h]
    simp [htail]
    exact ⟨rfl, rfl⟩

theorem rootIds_flattenTree (roots : List Node) :
    rootIdsOf (flattenTree roots) = childStarts 1 roots := by
  suffices h : ∀ k (c0 : ℚ),
      ((((entF roots k 0 c0 none).map (fun pr => pr.1)).filter
        (fun n => n.parentId.isNone)).map (fun n => n.id)) = childStarts k roots by
    rw [rootIdsOf, flattenTree_eq roots 0]
    exact h 1 0
  induction roots with
  | nil => intro k c0; rfl
  | cons r rest ih =>
    intro k c0
    rw [entF, List.map_append, List.filter_append, List.map_append]
    rw [filter_root_entN r k 0 c0]
    rw [ih (k + size r) (c0 + (leafCnt r : ℚ))]
    rw [childStarts]
    simp


/-! ## Bounds and separation of the xUnit values -/

theorem card_mul_le_sum {l : List ℚ} {lo : ℚ} (h : ∀ v ∈ l, lo ≤ v) :
    (l.length : ℚ) * lo ≤ l.sum := by
  induction l with
  | nil => simp
  | cons a t ih =>
    have ha := h a (by simp)
    have ht := ih (fun v hv => h v (by simp [hv]))
    simp only [List.length_cons, List.sum_cons]
    push_cast
    linarith

theorem sum_le_card_mul {l : List ℚ} {hi : ℚ} (h : ∀ v ∈ l, v ≤ hi) :
    l.sum ≤ (l.length : ℚ) * hi := by
  induction l with
  | nil => simp
  | cons a t ih =>
    have ha := h a (by simp)
    have ht := ih (fun v hv => h v (by simp [hv]))
    simp only [List.length_cons, List.sum_cons]
    push_cast
    linarith

theorem mean_bounds {l : List ℚ} {lo hi : ℚ} (hne : l ≠ [])
    (h : ∀ v ∈ l, lo ≤ v ∧ v ≤ hi) :
    lo ≤ l.sum / (l.length : ℚ) ∧ l.sum / (l.length : ℚ) ≤ hi := by
  have hlen : 0 < (l.length : ℚ) := by
    have : 0 < l.length := List.length_pos.2 hne
    exact_mod_cast this
  constructor
  · rw [le_div_iff hlen]
    have := card_mul_le_sum (fun v hv => (h v hv).1)
    linarith
  · rw [div_le_iff hlen]
    have := sum_le_card_mul (fun v hv => (h v hv).2)
    linarith

theorem xuKids_length : ∀ (cs : List Node) (c0 : ℚ), (xuKids cs c0).length = cs.length
  | [], _ => rfl
  | c :: rest, c0 => by
    rw [show xuKids (c :: rest) c0 = xuN c c0 :: xuKids rest (c0 + (leafCnt c : ℚ)) from rfl]
    simp [xuKids_length rest]

mutual

theorem xuN_bounds : ∀ (t : Node) (c0 : ℚ),
    c0 ≤ xuN t c0 ∧ xuN t c0 ≤ c0 + (leafCnt t : ℚ) - 1
  | .mk txt [], c0 => by
    rw [show xuN (Node.mk txt []) c0 = c0 from rfl]
    rw [show leafCnt (Node.mk txt []) = 1 from rfl]
    norm_num
  | .mk txt (c :: rest), c0 => by
    have hk := xuKids_bounds (c :: rest) c0
    have hx : xuN (Node.mk txt (c :: rest)) c0
        = (xuKids (c :: rest) c0).sum / (((c :: rest).length : ℚ)) := rfl
    have hlen : (xuKids (c :: rest) c0).length = (c :: rest).length :=
      xuKids_length (c :: rest) c0
    have hm := @mean_bounds (xuKids (c :: rest) c0) c0 (c0 + (leafCntF (c :: rest) : ℚ) - 1)
      (by rw [show xuKids (c :: rest) c0 = xuN c c0 :: xuKids rest (c0 + (leafCnt c : ℚ)) from rfl]; simp)
      hk
    rw [hx]
    rw [show leafCnt (Node.mk txt (c :: rest)) = leafCntF (c :: rest) from rfl]
    rw [← hlen]
    exact hm

theorem xuKids_bounds : ∀ (cs : List Node) (c0 : ℚ),
    ∀ v ∈ xuKids cs c0, c0 ≤ v ∧ v ≤ c0 + (leafCntF cs : ℚ) - 1
  | [], _ => by intro v hv; cases hv
  | c :: rest, c0 => by
    intro v hv
    rw [show xuKids (c :: rest) c0 = xuN c c0 :: xuKids rest (c0 + (leafCnt c : ℚ)) from rfl] at hv
    have hcnt : (leafCntF (c :: rest) : ℚ) = (leafCnt c : ℚ) + (leafCntF rest : ℚ) := by
      rw [show leafCntF (c :: rest) = leafCnt c + leafCntF rest from rfl]
      push_cast
      ring
    have hc1 : (1 : ℚ) ≤ (leafCnt c : ℚ) := by exact_mod_cast leafCnt_pos c
    have hr0 : (0 : ℚ) ≤ (leafCntF rest : ℚ) := by positivity
    rcases List.mem_cons.1 hv with rfl | h2
    · have := xuN_bounds c c0
      constructor
      · exact this.1
      · rw [hcnt]
        linarith [this.2]
    · have := xuKids_bounds rest (c0 + (leafCnt c : ℚ)) v h2
      constructor
      · linarith [this.1]
      · rw [hcnt]
        linarith [this.2]

end

mutual

theorem entN_bounds : ∀ (t : Node) (k d : Nat) (c0 : ℚ) (p : Option Nat),
    ∀ pr ∈ entN t k d c0 p,
      (k ≤ pr.1.id ∧ pr.1.id < k + size t) ∧
      d ≤ pr.1.depth ∧
      (pr.1.depth = d → pr.1.id = k) ∧
      (c0 ≤ pr.2 ∧ pr.2 ≤ c0 + (leafCnt t : ℚ) - 1) ∧
      (∀ cid ∈ pr.1.childrenIds, k < cid ∧ cid < k + size t)
  | .mk txt cs, k, d, c0, p => by
    intro pr hpr
    rw [entN] at hpr
    have hsz : size (Node.mk txt cs) = 1 + sizeF cs := rfl
    rcases List.mem_cons.1 hpr with rfl | h
    · refine ⟨⟨le_refl k, ?_⟩, le_refl d, fun _ => rfl, ?_, ?_⟩
      · show k < k + size (Node.mk txt cs)
        omega
      · have hb := xuN_bounds (Node.mk txt cs) c0
        exact ⟨hb.1, hb.2⟩
      · intro cid hcid
        have h2 := childStarts_bounds hcid
        show k < cid ∧ cid < k + size (Node.mk txt cs)
        omega
    · have hb := entF_bounds cs (k + 1) (d + 1) c0 (some k) pr h
      have hcnt : leafCnt (Node.mk txt cs) = leafCntF cs := by
        cases cs with
        | nil => cases h
        | cons a b => rfl
      refine ⟨by omega, by omega, by omega, ?_, ?_⟩
      · rw [hcnt]
        exact hb.2.2.1
      · intro cid hcid
        have := hb.2.2.2 cid hcid
        omega

theorem entF_bounds : ∀ (cs : List Node) (k d : Nat) (c0 : ℚ) (p : Option Nat),
    ∀ pr ∈ entF cs k d c0 p,
      (k ≤ pr.1.id ∧ pr.1.id < k + sizeF cs) ∧
      d ≤ pr.1.depth ∧
      (c0 ≤ pr.2 ∧ pr.2 ≤ c0 + (leafCntF cs : ℚ) - 1) ∧
      (∀ cid ∈ pr.1.childrenIds, k < cid ∧ cid < k + sizeF cs)
  | [], _, _, _, _ => by intro pr hpr; cases hpr
  | c :: rest, k, d, c0, p => by
    intro pr hpr
    rw [entF] at hpr
    have hsz : sizeF (c :: rest) = size c + sizeF rest := rfl
    have hc1 : (1 : ℚ) ≤ (leafCnt c : ℚ) := by exact_mod_cast leafCnt_pos c
    have hr0 : (0 : ℚ) ≤ (leafCntF rest : ℚ) := by positivity
    have hcnt : (leafCntF (c :: rest) : ℚ) = (leafCnt c : ℚ) + (leafCntF rest : ℚ) := by
      rw [show leafCntF (c :: rest) = leafCnt c + leafCntF rest from rfl]
      push_cast
      ring
    rcases List.mem_append.1 hpr with h | h
    · have hb := entN_bounds c k d c0 p pr h
      refine ⟨by omega, hb.2.1, ?_, ?_⟩
      · refine ⟨hb.2.2.2.1.1, ?_⟩
        rw [hcnt]
        linarith [hb.2.2.2.1.2]
      · intro cid hcid
        have := hb.2.2.2.2 cid hcid
        omega
    · have hb := entF_bounds rest (k + size c) d (c0 + (leafCnt c : ℚ)) p pr h
      refine ⟨by omega, hb.2.1, ?_, ?_⟩
      · refine ⟨by linarith [hb.2.2.1.1], ?_⟩
        rw [hcnt]
        linarith [hb.2.2.1.2]
      · intro cid hcid
        have := hb.2.2.2 cid hcid
        omega

end

/-! ## Same-depth entries have xUnit values at least 1 apart -/

mutual

theorem entN_sep : ∀ (t : Node) (k d : Nat) (c0 : ℚ) (p : Option Nat),
    ∀ pr1 ∈ entN t k d c0 p, ∀ pr2 ∈ entN t k d c0 p,
      pr1.1.depth = pr2.1.depth → pr1.1.id ≠ pr2.1.id →
      pr1.2 + 1 ≤ pr2.2 ∨ pr2.2 + 1 ≤ pr1.2
  | .mk txt cs, k, d, c0, p => by
    intro pr1 h1 pr2 h2 hd hne
    rw [entN] at h1 h2
    rcases List.mem_cons.1 h1 with rfl | h1t
    · rcases List.mem_cons.1 h2 with rfl | h2t
      · exact absurd rfl hne
      · have hb := entF_bounds cs (k + 1) (d + 1) c0 (some k) pr2 h2t
        exact absurd hd (by have := hb.2.1; simp; omega)
    · rcases List.mem_cons.1 h2 with rfl | h2t
      · have hb := entF_bounds cs (k + 1) (d + 1) c0 (some k) pr1 h1t
        exact absurd hd (by have := hb.2.1; simp; omega)
      · exact entF_sep cs (k + 1) (d + 1) c0 (some k) pr1 h1t pr2 h2t hd hne

theorem entF_sep : ∀ (cs : List Node) (k d : Nat) (c0 : ℚ) (p : Option Nat),
    ∀ pr1 ∈ entF cs k d c0 p, ∀ pr2 ∈ entF cs k d c0 p,
      pr1.1.depth = pr2.1.depth → pr1.1.id ≠ pr2.1.id →
      pr1.2 + 1 ≤ pr2.2 ∨ pr2.2 + 1 ≤ pr1.2
  | [], _, _, _, _ => by intro pr1 h1; cases h1
  | c :: rest, k, d, c0, p => by
    intro pr1 h1 pr2 h2 hd hne
    rw [entF] at h1 h2
    rcases List.mem_append.1 h1 with h1c | h1r
    · rcases List.mem_append.1 h2 with h2c | h2r
      · exact entN_sep c k d c0 p pr1 h1c pr2 h2c hd hne
      · left
        have hb1 := entN_bounds c k d c0 p pr1 h1c
        have hb2 := entF_bounds rest (k + size c) d (c0 + (leafCnt c : ℚ)) p pr2 h2r
        linarith [hb1.2.2.2.1.2, hb2.2.2.1.1]
    · rcases List.mem_append.1 h2 with h2c | h2r
      · right
        have hb1 := entF_bounds rest (k + size c) d (c0 + (leafCnt c : ℚ)) p pr1 h1r
        have hb2 := entN_bounds c k d c0 p pr2 h2c
        linarith [hb1.2.2.1.1, hb2.2.2.2.1.2]
      · exact entF_sep rest (k + size c) d (c0 + (leafCnt c : ℚ)) p pr1 h1r pr2 h2r hd hne

end

/-! ## Looking up an entry's xUnit in the structural map -/

theorem xuListN_head (t : Node) (k : Nat) (c0 : ℚ) :
    getM (xuListN t k c0) k = some (xuN t c0) := by
  cases t with
  | mk txt cs =>
    cases cs with
    | nil => simp [xuListN, xuN, getM]
    | cons c rest => simp [xuListN, xuN, getM]

mutual

theorem entN_lookup : ∀ (t : Node) (k d : Nat) (c0 : ℚ) (p : Option Nat),
    ∀ pr ∈ entN t k d c0 p, getM (xuListN t k c0) pr.1.id = some pr.2
  | .mk txt cs, k, d, c0, p => by
    intro pr hpr
    rw [entN] at hpr
    rcases List.mem_cons.1 hpr with rfl | h
    · exact xuListN_head (Node.mk txt cs) k c0
    · cases cs with
      | nil => cases h
      | cons c rest =>
        have hb := entF_bounds (c :: rest) (k + 1) (d + 1) c0 (some k) pr h
        have hne : ¬ (k = pr.1.id) := by omega
        rw [show xuListN (Node.mk txt (c :: rest)) k c0
            = (k, (xuKids (c :: rest) c0).sum / (((c :: rest).length : ℚ))) ::
              xuListF (c :: rest) (k + 1) c0 from rfl]
        rw [getM, if_neg hne]
        exact entF_lookup (c :: rest) (k + 1) (d + 1) c0 (some k) pr h

theorem entF_lookup : ∀ (cs : List Node) (k d : Nat) (c0 : ℚ) (p : Option Nat),
    ∀ pr ∈ entF cs k d c0 p, getM (xuListF cs k c0) pr.1.id = some pr.2
  | [], _, _, _, _ => by intro pr hpr; cases hpr
  | c :: rest, k, d, c0, p => by
    intro pr hpr
    rw [entF] at hpr
    rw [show xuListF (c :: rest) k c0
        = xuListF rest (k + size c) (c0 + (leafCnt c : ℚ)) ++ xuListN c k c0 from rfl]
    rcases List.mem_append.1 hpr with h | h
    · have hb := entN_bounds c k d c0 p pr h
      rw [getM_skip
        (fun q hq => (xuListF_keys rest (k + size c) (c0 + (leafCnt c : ℚ)) q hq).1)
        (by omega) _]
      exact entN_lookup c k d c0 p pr h
    · exact getM_append_left _ (entF_lookup rest (k + size c) d (c0 + (leafCnt c : ℚ)) p pr h)

end


/-! ## The imperative passes compute the structural maps -/

theorem assignLeavesGo_step (F : List FlatNode) (f k : Nat) (st : ℚ × List (Nat × ℚ)) :
    assignLeavesGo F (f + 1) k st =
      if isLeafF F k then (st.1 + 1, (k, st.1) :: st.2)
      else
        match byId F k with
        | some n => n.childrenIds.foldl (fun a c => assignLeavesGo F f c a) st
        | none => st := rfl

theorem computeXGo_step (F : List FlatNode) (f k : Nat) (lx acc : List (Nat × ℚ)) :
    computeXGo F (f + 1) k lx acc =
      match byId F k with
      | none => acc
      | some n =>
        let acc1 := n.childrenIds.foldl (fun a c => computeXGo F f c lx a) acc
        if n.childrenIds.isEmpty then (k, (getM lx k).getD 0) :: acc1
        else
          let xs := n.childrenIds.map (fun c => (getM acc1 c).getD 0)
          (k, xs.sum / (xs.length : ℚ)) :: acc1 := rfl

mutual

theorem assignLeaves_eq : ∀ (t : Node) (k d : Nat) (p : Option Nat) (F : List FlatNode),
    ResolvedN F t k d p → ∀ fuel, size t ≤ fuel → ∀ st : ℚ × List (Nat × ℚ),
    assignLeavesGo F fuel k st = (st.1 + (leafCnt t : ℚ), lxListN t k st.1 ++ st.2)
  | .mk txt cs, k, d, p, F => by
    intro hres fuel hfuel st
    obtain ⟨hby, hrest⟩ := hres
    cases fuel with
    | zero => exact absurd hfuel (by have := size_pos (Node.mk txt cs); omega)
    | succ f =>
      have hleaf : isLeafF F k = cs.isEmpty := by
        rw [isLeafF, hby]
        cases cs with
        | nil => rfl
        | cons a b => rfl
      rw [assignLeavesGo_step]
      cases cs with
      | nil =>
        rw [if_pos (by rw [hleaf]; rfl)]
        rw [show lxListN (Node.mk txt []) k st.1 = [(k, st.1)] from rfl]
        rw [show leafCnt (Node.mk txt []) = 1 from rfl, Nat.cast_one]
        rfl
      | cons c rest =>
        rw [if_neg (by simp [hleaf])]
        rw [hby]
        show (childStarts (k + 1) (c :: rest)).foldl (fun a c2 => assignLeavesGo F f c2 a) st = _
        have hsz : size (Node.mk txt (c :: rest)) = 1 + sizeF (c :: rest) := rfl
        rw [assignLeavesF_eq (c :: rest) (k + 1) (d + 1) (some k) F hrest f (by omega) st]
        rfl

theorem assignLeavesF_eq : ∀ (cs : List Node) (k d : Nat) (p : Option Nat) (F : List FlatNode),
    ResolvedF F cs k d p → ∀ fuel, sizeF cs ≤ fuel → ∀ st : ℚ × List (Nat × ℚ),
    (childStarts k cs).foldl (fun a c => assignLeavesGo F fuel c a) st
      = (st.1 + (leafCntF cs : ℚ), lxListF cs k st.1 ++ st.2)
  | [], k, d, p, F => by
    intro _ fuel _ st
    rw [show childStarts k ([] : List Node) = [] from rfl]
    rw [show leafCntF ([] : List Node) = 0 from rfl, Nat.cast_zero]
    simp [lxListF]
  | c :: rest, k, d, p, F => by
    intro hres fuel hfuel st
    obtain ⟨hc, hrest⟩ := hres
    have hsz : sizeF (c :: rest) = size c + sizeF rest := rfl
    have hszc := size_pos c
    rw [show childStarts k (c :: rest) = k :: childStarts (k + size c) rest from rfl]
    rw [List.foldl_cons]
    rw [assignLeaves_eq c k d p F hc fuel (by omega) st]
    rw [assignLeavesF_eq rest (k + size c) d p F hrest fuel (by omega) _]
    apply Prod.ext
    · show st.1 + (leafCnt c : ℚ) + (leafCntF rest : ℚ) = st.1 + (leafCntF (c :: rest) : ℚ)
      rw [show leafCntF (c :: rest) = leafCnt c + leafCntF rest from rfl]
      push_cast
      ring
    · show lxListF rest (k + size c) (st.1 + (leafCnt c : ℚ)) ++ (lxListN c k st.1 ++ st.2)
        = lxListF (c :: rest) k st.1 ++ st.2
      rw [show lxListF (c :: rest) k st.1
          = lxListF rest (k + size c) (st.1 + (leafCnt c : ℚ)) ++ lxListN c k st.1 from rfl]
      rw [List.append_assoc]

end

/-! ## Child lookups in the structural xUnit map -/

theorem mapx : ∀ (cs : List Node) (k : Nat) (c0 : ℚ) (tail : List (Nat × ℚ)),
    (childStarts k cs).map (fun cid => (getM (xuListF cs k c0 ++ tail) cid).getD 0)
      = xuKids cs c0
  | [], _, _, _ => rfl
  | c :: rest, k, c0, tail => by
    rw [show childStarts k (c :: rest) = k :: childStarts (k + size c) rest from rfl]
    rw [show xuListF (c :: rest) k c0
        = xuListF rest (k + size c) (c0 + (leafCnt c : ℚ)) ++ xuListN c k c0 from rfl]
    rw [List.append_assoc]
    rw [List.map_cons]
    rw [show xuKids (c :: rest) c0 = xuN c c0 :: xuKids rest (c0 + (leafCnt c : ℚ)) from rfl]
    have hszc := size_pos c
    have h1 : (getM (xuListF rest (k + size c) (c0 + (leafCnt c : ℚ)) ++
        (xuListN c k c0 ++ tail)) k).getD 0 = xuN c c0 := by
      rw [getM_skip
        (fun q hq => (xuListF_keys rest (k + size c) (c0 + (leafCnt c : ℚ)) q hq).1)
        (by omega) _]
      rw [getM_append_left _ (xuListN_head c k c0)]
      rfl
    rw [h1]
    rw [mapx rest (k + size c) (c0 + (leafCnt c : ℚ)) (xuListN c k c0 ++ tail)]

mutual

theorem computeX_eq : ∀ (t : Node) (k d : Nat) (p : Option Nat) (F : List FlatNode)
    (LXG : List (Nat × ℚ)) (c0 : ℚ),
    ResolvedN F t k d p → LeafOkN LXG t k c0 → ∀ fuel, size t ≤ fuel →
    ∀ acc : List (Nat × ℚ),
    computeXGo F fuel k LXG acc = xuListN t k c0 ++ acc
  | .mk txt cs, k, d, p, F, LXG, c0 => by
    intro hres hlok fuel hfuel acc
    obtain ⟨hby, hrest⟩ := hres
    cases fuel with
    | zero => exact absurd hfuel (by have := size_pos (Node.mk txt cs); omega)
    | succ f =>
      rw [computeXGo_step, hby]
      cases cs with
      | nil =>
        show (k, (getM LXG k).getD 0) :: acc = xuListN (Node.mk txt []) k c0 ++ acc
        have hl : getM LXG k = some c0 := hlok
        rw [hl]
        rfl
      | cons c rest =>
        have hsz : size (Node.mk txt (c :: rest)) = 1 + sizeF (c :: rest) := rfl
        have hacc1 : (childStarts (k + 1) (c :: rest)).foldl
            (fun a c2 => computeXGo F f c2 LXG a) acc
            = xuListF (c :: rest) (k + 1) c0 ++ acc :=
          computeXF_eq (c :: rest) (k + 1) (d + 1) (some k) F LXG c0 hrest hlok f (by omega) acc
        show ((k, (List.map (fun c2 => (getM ((childStarts (k + 1) (c :: rest)).foldl (fun a c2 => computeXGo F f c2 LXG a) acc) c2).getD 0) (childStarts (k + 1) (c :: rest))).sum / ((List.map (fun c2 => (getM ((childStarts (k + 1) (c :: rest)).foldl (fun a c2 => computeXGo F f c2 LXG a) acc) c2).getD 0) (childStarts (k + 1) (c :: rest))).length : ℚ)) :: (childStarts (k + 1) (c :: rest)).foldl (fun a c2 => computeXGo F f c2 LXG a) acc)
          = xuListN (Node.mk txt (c :: rest)) k c0 ++ acc
        rw [hacc1]
        rw [mapx (c :: rest) (k + 1) c0 acc]
        rw [xuKids_length (c :: rest) c0]
        rfl

theorem computeXF_eq : ∀ (cs : List Node) (k d : Nat) (p : Option Nat) (F : List FlatNode)
    (LXG : List (Nat × ℚ)) (c0 : ℚ),
    ResolvedF F cs k d p → LeafOkF LXG cs k c0 → ∀ fuel, sizeF cs ≤ fuel →
    ∀ acc : List (Nat × ℚ),
    (childStarts k cs).foldl (fun a c => computeXGo F fuel c LXG a) acc
      = xuListF cs k c0 ++ acc
  | [], k, d, p, F, LXG, c0 => by
    intro _ _ fuel _ acc
    rfl
  | c :: rest, k, d, p, F, LXG, c0 => by
    intro hres hlok fuel hfuel acc
    obtain ⟨hc, hrest⟩ := hres
    obtain ⟨hlc, hlrest⟩ := hlok
    have hsz : sizeF (c :: rest) = size c + sizeF rest := rfl
    have hszc := size_pos c
    rw [show childStarts k (c :: rest) = k :: childStarts (k + size c) rest from rfl]
    rw [List.foldl_cons]
    rw [computeX_eq c k d p F LXG c0 hc hlc fuel (by omega) acc]
    rw [computeXF_eq rest (k + size c) d p F LXG (c0 + (leafCnt c : ℚ)) hrest hlrest fuel
      (by omega) _]
    rw [show xuListF (c :: rest) k c0
        = xuListF rest (k + size c) (c0 + (leafCnt c : ℚ)) ++ xuListN c k c0 from rfl]
    rw [List.append_assoc]

end


/-! ## The leafX map answers every leaf globally -/

mutual

theorem leafOkN_global : ∀ (t : Node) (k : Nat) (c0 : ℚ) (A B : List (Nat × ℚ)),
    (∀ pr ∈ A, k + size t ≤ pr.1) → LeafOkN (A ++ lxListN t k c0 ++ B) t k c0
  | .mk txt [], k, c0, A, B => by
    intro hA
    show getM (A ++ lxListN (Node.mk txt []) k c0 ++ B) k = some c0
    rw [show lxListN (Node.mk txt []) k c0 = [(k, c0)] from rfl]
    rw [List.append_assoc]
    rw [getM_skip hA
      (by have := size_pos (Node.mk txt []); omega) _]
    rw [getM_append]
    simp [getM]
  | .mk txt (c :: rest), k, c0, A, B => by
    intro hA
    show LeafOkF (A ++ lxListN (Node.mk txt (c :: rest)) k c0 ++ B) (c :: rest) (k + 1) c0
    rw [show lxListN (Node.mk txt (c :: rest)) k c0 = lxListF (c :: rest) (k + 1) c0 from rfl]
    apply leafOkF_global (c :: rest) (k + 1) c0 A B
    intro pr hpr
    have h := hA pr hpr
    have hsz : size (Node.mk txt (c :: rest)) = 1 + sizeF (c :: rest) := rfl
    omega

theorem leafOkF_global : ∀ (cs : List Node) (k : Nat) (c0 : ℚ) (A B : List (Nat × ℚ)),
    (∀ pr ∈ A, k + sizeF cs ≤ pr.1) → LeafOkF (A ++ lxListF cs k c0 ++ B) cs k c0
  | [], _, _, _, _ => fun _ => trivial
  | c :: rest, k, c0, A, B => by
    intro hA
    have hsz : sizeF (c :: rest) = size c + sizeF rest := rfl
    refine ⟨?_, ?_⟩
    · have h := leafOkN_global c k c0 (A ++ lxListF rest (k + size c) (c0 + (leafCnt c : ℚ))) B
        (by
          intro pr hpr
          rcases List.mem_append.1 hpr with h | h
          · have := hA pr h
            omega
          · exact (lxListF_keys rest (k + size c) (c0 + (leafCnt c : ℚ)) pr h).1)
      rw [show A ++ lxListF (c :: rest) k c0 ++ B
          = (A ++ lxListF rest (k + size c) (c0 + (leafCnt c : ℚ))) ++ lxListN c k c0 ++ B from by
        rw [show lxListF (c :: rest) k c0
            = lxListF rest (k + size c) (c0 + (leafCnt c : ℚ)) ++ lxListN c k c0 from rfl]
        simp [List.append_assoc]]
      exact h
    · have h := leafOkF_global rest (k + size c) (c0 + (leafCnt c : ℚ)) A (lxListN c k c0 ++ B)
        (by intro pr hpr; have := hA pr hpr; omega)
      rw [show A ++ lxListF (c :: rest) k c0 ++ B
          = A ++ lxListF rest (k + size c) (c0 + (leafCnt c : ℚ)) ++ (lxListN c k c0 ++ B) from by
        rw [show lxListF (c :: rest) k c0
            = lxListF rest (k + size c) (c0 + (leafCnt c : ℚ)) ++ lxListN c k c0 from rfl]
        simp [List.append_assoc]]
      exact h

end

theorem leafOk_global (roots : List Node) : LeafOkF (lxListF roots 1 0) roots 1 0 := by
  have h := leafOkF_global roots 1 0 [] [] (by intro pr hpr; cases hpr)
  simpa using h

/-! ## The final maps of the layout passes -/

theorem leafXOf_flatten (roots : List Node) :
    leafXOf (flattenTree roots) = ((leafCntF roots : ℚ), lxListF roots 1 0) := by
  rw [leafXOf, rootIds_flattenTree]
  have hfuel : sizeF roots ≤ (flattenTree roots).length + 1 := by
    rw [flattenTree_length]
    omega
  rw [assignLeavesF_eq roots 1 0 none (flattenTree roots) (flattenTree_resolved roots)
    ((flattenTree roots).length + 1) hfuel ((0 : ℚ), ([] : List (Nat × ℚ)))]
  simp

theorem xUnitOf_flatten (roots : List Node) :
    xUnitOf (flattenTree roots) = xuListF roots 1 0 := by
  rw [xUnitOf, rootIds_flattenTree]
  have hlx : (leafXOf (flattenTree roots)).2 = lxListF roots 1 0 := by
    rw [leafXOf_flatten]
  rw [hlx]
  have hfuel : sizeF roots ≤ (flattenTree roots).length + 1 := by
    rw [flattenTree_length]
    omega
  rw [computeXF_eq roots 1 0 none (flattenTree roots) (lxListF roots 1 0) 0
    (flattenTree_resolved roots) (leafOk_global roots)
    ((flattenTree roots).length + 1) hfuel []]
  simp


/-! ## The final positioned list is a uniform shift of the base list -/

theorem map_congr_mem {α β : Type} {l : List α} {f g : α → β}
    (h : ∀ a ∈ l, f a = g a) : l.map f = l.map g := by
  induction l with
  | nil => rfl
  | cons a t ih =>
    rw [List.map_cons, List.map_cons, h a (by simp), ih (fun b hb => h b (by simp [hb]))]

theorem shiftXY_zero (p : PositionedNode) : shiftXY p 0 0 = p := by
  cases p
  simp [shiftXY]

theorem shiftXY_comp (p : PositionedNode) (a b c d : ℚ) :
    shiftXY (shiftXY p a b) c d = shiftXY p (a + c) (b + d) := by
  cases p
  simp [shiftXY, add_assoc]

theorem map_shift_zero (l : List PositionedNode) : l.map (fun p => shiftXY p 0 0) = l := by
  induction l with
  | nil => rfl
  | cons a t ih => simp [shiftXY_zero, ih]

theorem pos1Of_shift (μ : Line → ℚ) (F : List FlatNode) :
    ∃ a b : ℚ, pos1Of μ F = (basePos μ F).map (fun p => shiftXY p a b) := by
  rw [pos1Of]
  by_cases h : dxOf μ F ≠ 0 ∨ dyOf μ F ≠ 0
  · rw [if_pos h]
    exact ⟨dxOf μ F, dyOf μ F, rfl⟩
  · rw [if_neg h]
    exact ⟨0, 0, (map_shift_zero _).symm⟩

theorem positionedOf_shift (μ : Line → ℚ) (F : List FlatNode) :
    ∃ S dy : ℚ, positionedOf μ F = (basePos μ F).map (fun p => shiftXY p S dy) := by
  obtain ⟨a, b, h1⟩ := pos1Of_shift μ F
  rw [positionedOf]
  rcases hdc : dxCenterOf μ F with _ | dc
  · exact ⟨a, b, h1⟩
  · show ∃ S dy, (if dc ≠ 0 then (pos1Of μ F).map (fun p => shiftXY p dc 0) else pos1Of μ F)
        = (basePos μ F).map (fun p => shiftXY p S dy)
    by_cases h : dc ≠ 0
    · rw [if_pos h, h1, List.map_map]
      refine ⟨a + dc, b, ?_⟩
      have : ((fun p => shiftXY p dc 0) ∘ fun p => shiftXY p a b)
          = fun p => shiftXY p (a + dc) b := by
        funext p
        simp [Function.comp, shiftXY_comp]
      rw [this]
    · rw [if_neg h]
      exact ⟨a, b, h1⟩

theorem map_flattenTree {β : Type} (G : FlatNode → β) (roots : List Node) :
    (flattenTree roots).map G = (entF roots 1 0 0 none).map (fun pr => G pr.1) := by
  rw [flattenTree_eq roots 0, List.map_map]
  rfl

theorem basePos_flatten (μ : Line → ℚ) (roots : List Node) :
    basePos μ (flattenTree roots)
      = (entF roots 1 0 0 none).map (fun pr => basePosFn μ (flattenTree roots) pr.1) := by
  rw [basePos]
  exact map_flattenTree _ roots

/-! ## Per-entry geometry of the base positions -/

theorem basePosFn_center (μ : Line → ℚ) (roots : List Node) (pr : FlatNode × ℚ)
    (hpr : pr ∈ entF roots 1 0 0 none) :
    (basePosFn μ (flattenTree roots) pr.1).x + (basePosFn μ (flattenTree roots) pr.1).w / 2
      = 30 + pr.2 * (210 + 54) := by
  have hxu : getM (xUnitOf (flattenTree roots)) pr.1.id = some pr.2 := by
    rw [xUnitOf_flatten]
    exact entF_lookup roots 1 0 0 none pr hpr
  have hx : (basePosFn μ (flattenTree roots) pr.1).x
      = 30 + ((getM (xUnitOf (flattenTree roots)) pr.1.id).getD 0) * (210 + 54)
        - ((getM (sizesOf μ (flattenTree roots)) pr.1.id).getD ([], 0, 0)).2.1 / 2 := rfl
  have hw : (basePosFn μ (flattenTree roots) pr.1).w
      = ((getM (sizesOf μ (flattenTree roots)) pr.1.id).getD ([], 0, 0)).2.1 := rfl
  rw [hx, hw, hxu]
  show 30 + pr.2 * (210 + 54) - _ / 2 + _ / 2 = 30 + pr.2 * (210 + 54)
  ring

/-! ## Width and height bounds -/

theorem clampW_le (v : ℚ) : clampW v ≤ 210 := by
  rw [clampW]
  apply max_le
  · norm_num
  · exact min_le_left _ _

theorem nodeSize_w_le (μ : Line → ℚ) (t : Line) : (nodeSize μ t).2.1 ≤ 210 := by
  have h : (nodeSize μ t).2.1
      = if 210 < μ (trim (collapseWs t)) + 2 * 12 then (210 : ℚ)
        else clampW (μ (trim (collapseWs t)) + 2 * 12) := rfl
  rw [h]
  by_cases hc : 210 < μ (trim (collapseWs t)) + 2 * 12
  · rw [if_pos hc]
  · rw [if_neg hc]
    exact clampW_le _

theorem sizesOf_mem {μ : Line → ℚ} {F : List FlatNode} {pr : Nat × (List Line × ℚ × ℚ)}
    (h : pr ∈ sizesOf μ F) : ∃ n ∈ F, pr = (n.id, nodeSize μ n.text) := by
  rw [sizesOf] at h
  suffices hgen : ∀ acc : List (Nat × (List Line × ℚ × ℚ)),
      pr ∈ F.foldl (fun m n => (n.id, nodeSize μ n.text) :: m) acc →
      (∃ n ∈ F, pr = (n.id, nodeSize μ n.text)) ∨ pr ∈ acc by
    rcases hgen [] h with h2 | h2
    · exact h2
    · cases h2
  clear h
  induction F with
  | nil => intro acc h; exact Or.inr h
  | cons n rest ih =>
    intro acc h
    rw [List.foldl_cons] at h
    rcases ih _ h with h2 | h2
    · rcases h2 with ⟨m, hm, he⟩
      exact Or.inl ⟨m, by simp [hm], he⟩
    · rcases List.mem_cons.1 h2 with rfl | h3
      · exact Or.inl ⟨n, by simp, rfl⟩
      · exact Or.inr h3

theorem sizes_w_le (μ : Line → ℚ) (F : List FlatNode) (k : Nat) :
    ((getM (sizesOf μ F) k).getD ([], 0, 0)).2.1 ≤ 210 := by
  cases h : getM (sizesOf μ F) k with
  | none => norm_num
  | some v =>
    rcases sizesOf_mem (getM_mem h) with ⟨n, _, he⟩
    have hv : v = nodeSize μ n.text := by
      have := congrArg Prod.snd he
      simpa using this
    rw [Option.getD_some, hv]
    exact nodeSize_w_le μ n.text

theorem basePosFn_w_le (μ : Line → ℚ) (F : List FlatNode) (n : FlatNode) :
    (basePosFn μ F n).w ≤ 210 :=
  sizes_w_le μ F n.id

/-! ## Row geometry: depths occupy disjoint vertical bands -/

theorem foldl_max_seed (l : List FlatNode) (g : FlatNode → ℚ) (d : Nat) :
    ∀ a : ℚ, a ≤ l.foldl (fun m n => if n.depth = d then max m (g n) else m) a := by
  induction l with
  | nil => intro a; exact le_refl a
  | cons n t ih =>
    intro a
    rw [List.foldl_cons]
    refine le_trans ?_ (ih _)
    by_cases h : n.depth = d
    · rw [if_pos h]
      exact le_max_left _ _
    · rw [if_neg h]

theorem foldl_max_le_mem {l : List FlatNode} {g : FlatNode → ℚ} {d : Nat} {e : FlatNode}
    (he : e ∈ l) (hd : e.depth = d) :
    ∀ a : ℚ, g e ≤ l.foldl (fun m n => if n.depth = d then max m (g n) else m) a := by
  induction l with
  | nil => cases he
  | cons n t ih =>
    intro a
    rw [List.foldl_cons]
    rcases List.mem_cons.1 he with rfl | h2
    · refine le_trans ?_ (foldl_max_seed t g d _)
      rw [if_pos hd]
      exact le_max_right _ _
    · exact ih h2 _

theorem height_le_maxH (μ : Line → ℚ) (F : List FlatNode) {e : FlatNode} (he : e ∈ F) :
    heightOfId μ F e.id ≤ maxHAt μ F e.depth := by
  rw [maxHAt]
  exact foldl_max_le_mem he rfl 0

theorem maxHAt_nonneg (μ : Line → ℚ) (F : List FlatNode) (d : Nat) :
    0 ≤ maxHAt μ F d := by
  rw [maxHAt]
  exact foldl_max_seed F _ d 0

theorem yTopAt_lt (μ : Line → ℚ) (F : List FlatNode) {d d' : Nat} (h : d < d') :
    yTopAt μ F d + maxHAt μ F d + 50 ≤ yTopAt μ F d' := by
  induction d' with
  | zero => omega
  | succ e ih =>
    rcases Nat.lt_succ_iff_lt_or_eq.1 h with h2 | rfl
    · have h3 := ih h2
      have h0 := maxHAt_nonneg μ F e
      rw [yTopAt]
      linarith
    · rw [yTopAt]

/-! ## Remaining lookup helpers -/

theorem getM_eq_none {α : Type} {m : List (Nat × α)} {k : Nat}
    (h : ∀ pr ∈ m, ¬ pr.1 = k) : getM m k = none := by
  induction m with
  | nil => rfl
  | cons p t ih =>
    rw [getM, if_neg (h p (by simp))]
    exact ih (fun q hq => h q (by simp [hq]))

theorem sum_map_affine {α : Type} (l : List α) (v : α → ℚ) (a b c : ℚ) :
    (l.map (fun x => a + v x * b + c)).sum
      = (l.length : ℚ) * (a + c) + (l.map v).sum * b := by
  induction l with
  | nil => simp
  | cons x t ih =>
    simp only [List.map_cons, List.sum_cons, List.length_cons, ih]
    push_cast
    ring


/-! ## A non-leaf entry's xUnit is the mean of its children's xUnits -/

mutual

theorem entN_children : ∀ (t : Node) (k d : Nat) (c0 : ℚ) (p : Option Nat),
    ∀ pr ∈ entN t k d c0 p, pr.1.childrenIds ≠ [] →
    pr.2 = ((pr.1.childrenIds.map (fun cid => (getM (xuListN t k c0) cid).getD 0)).sum)
      / ((pr.1.childrenIds.length : ℚ))
  | .mk txt cs, k, d, c0, p => by
    intro pr hpr hne
    rw [entN] at hpr
    rcases List.mem_cons.1 hpr with rfl | h
    · cases cs with
      | nil => exact absurd rfl hne
      | cons c rest =>
        have hx : (⟨(⟨k, txt, d, p, childStarts (k + 1) (c :: rest)⟩ : FlatNode),
            xuN (.mk txt (c :: rest)) c0⟩ : FlatNode × ℚ).2
            = (xuKids (c :: rest) c0).sum / (((c :: rest).length : ℚ)) := rfl
        rw [hx]
        have hmap : (childStarts (k + 1) (c :: rest)).map
            (fun cid => (getM (xuListN (Node.mk txt (c :: rest)) k c0) cid).getD 0)
            = xuKids (c :: rest) c0 := by
          have hstep : ∀ cid ∈ childStarts (k + 1) (c :: rest),
              (getM (xuListN (Node.mk txt (c :: rest)) k c0) cid).getD 0
                = (getM (xuListF (c :: rest) (k + 1) c0 ++ []) cid).getD 0 := by
            intro cid hcid
            have hb := childStarts_bounds hcid
            have hnk : ¬ (k = cid) := by omega
            rw [show xuListN (Node.mk txt (c :: rest)) k c0
                = (k, (xuKids (c :: rest) c0).sum / (((c :: rest).length : ℚ))) ::
                  xuListF (c :: rest) (k + 1) c0 from rfl]
            rw [getM, if_neg hnk, List.append_nil]
          rw [map_congr_mem hstep]
          exact mapx (c :: rest) (k + 1) c0 []
        rw [show (⟨(⟨k, txt, d, p, childStarts (k + 1) (c :: rest)⟩ : FlatNode),
            xuN (.mk txt (c :: rest)) c0⟩ : FlatNode × ℚ).1.childrenIds
            = childStarts (k + 1) (c :: rest) from rfl]
        rw [hmap, childStarts_length (c :: rest) (k + 1)]
    · cases cs with
      | nil => cases h
      | cons c rest =>
        have hrec := entF_children (c :: rest) (k + 1) (d + 1) c0 (some k) pr h hne
        rw [hrec]
        have hcb := (entF_bounds (c :: rest) (k + 1) (d + 1) c0 (some k) pr h).2.2.2
        have hstep : ∀ cid ∈ pr.1.childrenIds,
            (getM (xuListF (c :: rest) (k + 1) c0) cid).getD 0
              = (getM (xuListN (Node.mk txt (c :: rest)) k c0) cid).getD 0 := by
          intro cid hcid
          have hb := hcb cid hcid
          have hnk : ¬ (k = cid) := by omega
          rw [show xuListN (Node.mk txt (c :: rest)) k c0
              = (k, (xuKids (c :: rest) c0).sum / (((c :: rest).length : ℚ))) ::
                xuListF (c :: rest) (k + 1) c0 from rfl]
          rw [getM, if_neg hnk]
        rw [map_congr_mem hstep]

theorem entF_children : ∀ (cs : List Node) (k d : Nat) (c0 : ℚ) (p : Option Nat),
    ∀ pr ∈ entF cs k d c0 p, pr.1.childrenIds ≠ [] →
    pr.2 = ((pr.1.childrenIds.map (fun cid => (getM (xuListF cs k c0) cid).getD 0)).sum)
      / ((pr.1.childrenIds.length : ℚ))
  | [], _, _, _, _ => by intro pr hpr; cases hpr
  | c :: rest, k, d, c0, p => by
    intro pr hpr hne
    rw [entF] at hpr
    rw [show xuListF (c :: rest) k c0
        = xuListF rest (k + size c) (c0 + (leafCnt c : ℚ)) ++ xuListN c k c0 from rfl]
    rcases List.mem_append.1 hpr with h | h
    · have hrec := entN_children c k d c0 p pr h hne
      rw [hrec]
      have hcb := (entN_bounds c k d c0 p pr h).2.2.2.2
      have hstep : ∀ cid ∈ pr.1.childrenIds,
          (getM (xuListN c k c0) cid).getD 0
            = (getM (xuListF rest (k + size c) (c0 + (leafCnt c : ℚ)) ++ xuListN c k c0)
                cid).getD 0 := by
        intro cid hcid
        have hb := hcb cid hcid
        rw [getM_skip
          (fun q hq => (xuListF_keys rest (k + size c) (c0 + (leafCnt c : ℚ)) q hq).1)
          (by omega) _]
      rw [map_congr_mem hstep]
    · have hrec := entF_children rest (k + size c) d (c0 + (leafCnt c : ℚ)) p pr h hne
      rw [hrec]
      have hcb := (entF_bounds rest (k + size c) d (c0 + (leafCnt c : ℚ)) p pr h).2.2.2
      have hstep : ∀ cid ∈ pr.1.childrenIds,
          (getM (xuListF rest (k + size c) (c0 + (leafCnt c : ℚ))) cid).getD 0
            = (getM (xuListF rest (k + size c) (c0 + (leafCnt c : ℚ)) ++ xuListN c k c0)
                cid).getD 0 := by
        intro cid hcid
        have hb := hcb cid hcid
        cases hg : getM (xuListF rest (k + size c) (c0 + (leafCnt c : ℚ))) cid with
        | some v => rw [getM_append_left _ hg]
        | none =>
          rw [getM_append, hg]
          rw [getM_eq_none (fun q hq => by
            have := (xuList_keys c k c0 q hq).2
            omega)]
      rw [map_congr_mem hstep]

end

/-! ## Resolving a positioned node by id -/

theorem findById_map {f : FlatNode × ℚ → PositionedNode} {P : List (FlatNode × ℚ)}
    (hidf : ∀ pr, (f pr).id = pr.1.id)
    (hnd : (P.map (fun pr => pr.1.id)).Nodup)
    {pr0 : FlatNode × ℚ} (h0 : pr0 ∈ P) {cid : Nat} (hid : pr0.1.id = cid) :
    findById (P.map f) cid = some (f pr0) := by
  induction P with
  | nil => cases h0
  | cons a t ih =>
    rw [List.map_cons, findById]
    have hnd2 := (List.nodup_cons.1 hnd).2
    have hni := (List.nodup_cons.1 hnd).1
    rcases List.mem_cons.1 h0 with rfl | hmem
    · rw [if_pos (by rw [hidf]; exact hid)]
    · have hane : ¬ ((f a).id = cid) := by
        rw [hidf]
        intro heq
        exact hni (by
          show a.1.id ∈ List.map (fun pr => pr.1.id) t
          rw [heq, ← hid]
          exact List.mem_map_of_mem _ hmem)
      rw [if_neg hane]
      exact ih hnd2 hmem

theorem entF_pair_ids_nodup (roots : List Node) :
    ((entF roots 1 0 0 none).map (fun pr => pr.1.id)).Nodup := by
  rw [entF_ids roots 1 0 0 none]
  exact List.nodup_range' _ _


/-! ## C5 and C6 -/

/-- C5: for every flat array produced by flattenTree and every measuring
function, any two positioned nodes with distinct ids, neither an ancestor of
the other, have disjoint axis-aligned boxes: one lies strictly to the side of
or strictly above the other. Same-depth nodes are at least SLOT_W + GAP_X
apart in centers while boxes are at most MAX_NODE_W wide; different depths
occupy vertical bands separated by GAP_Y. -/
theorem layout_no_overlap (roots : List Node) (μ : Line → ℚ) (p q : PositionedNode)
    (hp : p ∈ (layoutTreeForSvg μ (flattenTree roots)).positioned)
    (hq : q ∈ (layoutTreeForSvg μ (flattenTree roots)).positioned)
    (hne : p.id ≠ q.id)
    (hanc1 : ¬ ancestorOf (flattenTree roots) p.id q.id)
    (hanc2 : ¬ ancestorOf (flattenTree roots) q.id p.id) :
    p.x + p.w < q.x ∨ q.x + q.w < p.x ∨ p.y + p.h < q.y ∨ q.y + q.h < p.y := by
  obtain ⟨S, dyv, hshift⟩ := positionedOf_shift μ (flattenTree roots)
  have hpos : (layoutTreeForSvg μ (flattenTree roots)).positioned
      = (entF roots 1 0 0 none).map
        (fun pr => shiftXY (basePosFn μ (flattenTree roots) pr.1) S dyv) := by
    show positionedOf μ (flattenTree roots) = _
    rw [hshift, basePos_flatten μ roots, List.map_map]
    rfl
  rw [hpos] at hp hq
  obtain ⟨pr1, hpr1, rfl⟩ := List.mem_map.1 hp
  obtain ⟨pr2, hpr2, rfl⟩ := List.mem_map.1 hq
  have hneid : pr1.1.id ≠ pr2.1.id := hne
  have e1x : (shiftXY (basePosFn μ (flattenTree roots) pr1.1) S dyv).x
      = (basePosFn μ (flattenTree roots) pr1.1).x + S := rfl
  have e2x : (shiftXY (basePosFn μ (flattenTree roots) pr2.1) S dyv).x
      = (basePosFn μ (flattenTree roots) pr2.1).x + S := rfl
  have e1w : (shiftXY (basePosFn μ (flattenTree roots) pr1.1) S dyv).w
      = (basePosFn μ (flattenTree roots) pr1.1).w := rfl
  have e2w : (shiftXY (basePosFn μ (flattenTree roots) pr2.1) S dyv).w
      = (basePosFn μ (flattenTree roots) pr2.1).w := rfl
  have e1y : (shiftXY (basePosFn μ (flattenTree roots) pr1.1) S dyv).y
      = yTopAt μ (flattenTree roots) pr1.1.depth + dyv := rfl
  have e2y : (shiftXY (basePosFn μ (flattenTree roots) pr2.1) S dyv).y
      = yTopAt μ (flattenTree roots) pr2.1.depth + dyv := rfl
  have e1h : (shiftXY (basePosFn μ (flattenTree roots) pr1.1) S dyv).h
      = heightOfId μ (flattenTree roots) pr1.1.id := rfl
  have e2h : (shiftXY (basePosFn μ (flattenTree roots) pr2.1) S dyv).h
      = heightOfId μ (flattenTree roots) pr2.1.id := rfl
  by_cases hd : pr1.1.depth = pr2.1.depth
  · have hsep := entF_sep roots 1 0 0 none pr1 hpr1 pr2 hpr2 hd hneid
    have hc1 := basePosFn_center μ roots pr1 hpr1
    have hc2 := basePosFn_center μ roots pr2 hpr2
    have hw1 := basePosFn_w_le μ (flattenTree roots) pr1.1
    have hw2 := basePosFn_w_le μ (flattenTree roots) pr2.1
    rcases hsep with h | h
    · left
      rw [e1x, e1w, e2x]
      have hmul := mul_le_mul_of_nonneg_right h (by norm_num : (0 : ℚ) ≤ 210 + 54)
      rw [add_mul] at hmul
      linarith
    · right
      left
      rw [e2x, e2w, e1x]
      have hmul := mul_le_mul_of_nonneg_right h (by norm_num : (0 : ℚ) ≤ 210 + 54)
      rw [add_mul] at hmul
      linarith
  · have key : ∀ prA prB : FlatNode × ℚ, prA ∈ entF roots 1 0 0 none →
        prA.1.depth < prB.1.depth →
        yTopAt μ (flattenTree roots) prA.1.depth
          + heightOfId μ (flattenTree roots) prA.1.id + 50
          ≤ yTopAt μ (flattenTree roots) prB.1.depth := by
      intro prA prB hA hlt
      have hmem : prA.1 ∈ flattenTree roots := by
        rw [flattenTree_eq roots 0]
        exact List.mem_map_of_mem _ hA
      have h1 := height_le_maxH μ (flattenTree roots) hmem
      have h2 := yTopAt_lt μ (flattenTree roots) hlt
      linarith
    have hdlt : pr1.1.depth < pr2.1.depth ∨ pr2.1.depth < pr1.1.depth := by omega
    rcases hdlt with hlt | hlt
    · right
      right
      left
      have hk := key pr1 pr2 hpr1 hlt
      rw [e1y, e1h, e2y]
      linarith
    · right
      right
      right
      have hk := key pr2 pr1 hpr2 hlt
      rw [e2y, e2h, e1y]
      linarith

/-- C6: for every positioned node with at least one child id, its horizontal
center x + w/2 equals the arithmetic mean of the horizontal centers of the
positioned nodes carrying its childrenIds — exactly, in rational arithmetic. -/
theorem layout_centering (roots : List Node) (μ : Line → ℚ) (p : PositionedNode)
    (hp : p ∈ (layoutTreeForSvg μ (flattenTree roots)).positioned)
    (hne : p.childrenIds ≠ []) :
    p.x + p.w / 2 =
      ((p.childrenIds.map
          (centerOfId (layoutTreeForSvg μ (flattenTree roots)).positioned)).sum)
        / ((p.childrenIds.length : ℚ)) := by
  obtain ⟨S, dyv, hshift⟩ := positionedOf_shift μ (flattenTree roots)
  have hpos : (layoutTreeForSvg μ (flattenTree roots)).positioned
      = (entF roots 1 0 0 none).map
        (fun pr => shiftXY (basePosFn μ (flattenTree roots) pr.1) S dyv) := by
    show positionedOf μ (flattenTree roots) = _
    rw [hshift, basePos_flatten μ roots, List.map_map]
    rfl
  rw [hpos] at hp ⊢
  obtain ⟨pr, hpr, rfl⟩ := List.mem_map.1 hp
  have hne' : pr.1.childrenIds ≠ [] := hne
  have hcid : (shiftXY (basePosFn μ (flattenTree roots) pr.1) S dyv).childrenIds
      = pr.1.childrenIds := rfl
  rw [hcid]
  have hcp : (shiftXY (basePosFn μ (flattenTree roots) pr.1) S dyv).x
      + (shiftXY (basePosFn μ (flattenTree roots) pr.1) S dyv).w / 2
      = 30 + pr.2 * (210 + 54) + S := by
    have e1 : (shiftXY (basePosFn μ (flattenTree roots) pr.1) S dyv).x
        = (basePosFn μ (flattenTree roots) pr.1).x + S := rfl
    have e2 : (shiftXY (basePosFn μ (flattenTree roots) pr.1) S dyv).w
        = (basePosFn μ (flattenTree roots) pr.1).w := rfl
    rw [e1, e2]
    have hc := basePosFn_center μ roots pr hpr
    linarith
  rw [hcp]
  have hptwise : ∀ cid ∈ pr.1.childrenIds,
      centerOfId ((entF roots 1 0 0 none).map
          (fun pr2 => shiftXY (basePosFn μ (flattenTree roots) pr2.1) S dyv)) cid
        = 30 + ((getM (xuListF roots 1 0) cid).getD 0) * (210 + 54) + S := by
    intro cid hcid2
    have hbnd := (entF_bounds roots 1 0 0 none pr hpr).2.2.2 cid hcid2
    have hcin : cid ∈ (entF roots 1 0 0 none).map (fun prq => prq.1.id) := by
      rw [entF_ids roots 1 0 0 none]
      exact List.mem_range'_1.2 ⟨by omega, by omega⟩
    obtain ⟨prc, hprc, hprcid⟩ := List.mem_map.1 hcin
    rw [centerOfId, findById_map (fun _ => rfl) (entF_pair_ids_nodup roots) hprc hprcid]
    have hxc : getM (xuListF roots 1 0) cid = some prc.2 := by
      rw [← hprcid]
      exact entF_lookup roots 1 0 0 none prc hprc
    rw [hxc]
    show (shiftXY (basePosFn μ (flattenTree roots) prc.1) S dyv).x
        + (shiftXY (basePosFn μ (flattenTree roots) prc.1) S dyv).w / 2
        = 30 + prc.2 * (210 + 54) + S
    have e1 : (shiftXY (basePosFn μ (flattenTree roots) prc.1) S dyv).x
        = (basePosFn μ (flattenTree roots) prc.1).x + S := rfl
    have e2 : (shiftXY (basePosFn μ (flattenTree roots) prc.1) S dyv).w
        = (basePosFn μ (flattenTree roots) prc.1).w := rfl
    rw [e1, e2]
    have hc := basePosFn_center μ roots prc hprc
    linarith
  rw [map_congr_mem hptwise]
  rw [sum_map_affine pr.1.childrenIds
    (fun cid => (getM (xuListF roots 1 0) cid).getD 0) 30 (210 + 54) S]
  have hmean := entF_children roots 1 0 0 none pr hpr hne'
  have hlen : (0 : ℚ) < (pr.1.childrenIds.length : ℚ) := by
    have : 0 < pr.1.childrenIds.length := List.length_pos.2 hne'
    exact_mod_cast this
  rw [hmean]
  field_simp
  ring


/-! ## C4 and concrete layout witnesses -/

set_option maxRecDepth 100000 in
/-- C4: an empty input parses to zero roots, flattens to an empty array, and
layoutTreeForSvg returns an empty positioned list with the canvas exactly at
the configured minimums plus margin: 900 + 20 by 600 + 20. The empty spreads
that produce Infinity/NaN in JS are modelled by the none branches, on which
no shift applies and the minima prevail. -/
theorem layout_empty_input (n : Nat) (μ : Line → ℚ) :
    parseIndentedTree "" n = [] ∧
    flattenTree (parseIndentedTree "" n) = [] ∧
    layoutTreeForSvg μ (flattenTree (parseIndentedTree "" n)) = ⟨[], 920, 620⟩ := by
  have h1 : parseIndentedTree "" n = [] := rfl
  refine ⟨h1, ?_, ?_⟩
  · rw [h1]
    rfl
  · rw [h1]
    with_unfolding_all rfl

/-- The concrete forest of scenario 1: root A with children B and C. -/
def roots0 : List Node := [Node.mk ['A'] [Node.mk ['B'] [], Node.mk ['C'] []]]

/-- A concrete measuring function: 7 pixels per character, the fallback the
source uses when no canvas context is available. -/
def mu0 : Line → ℚ := fun l => 7 * (l.length : ℚ)

/-- A default positioned node for list indexing in witnesses. -/
def posDefault : PositionedNode := ⟨0, [], 0, none, [], 0, 0, 0, 0, []⟩

set_option maxRecDepth 1000000 in
set_option maxHeartbeats 2000000 in
/-- The concrete layout of scenario 1, evaluated: A is centered at 460 over
its children B (center 328) and C (center 592), one 94-pixel row apart. -/
theorem layout0_eval :
    (layoutTreeForSvg mu0 (flattenTree roots0)).positioned =
      [⟨1, ['A'], 0, none, [2, 3], 400, 30, 120, 44, [['A']]⟩,
       ⟨2, ['B'], 1, some 1, [], 268, 124, 120, 44, [['B']]⟩,
       ⟨3, ['C'], 1, some 1, [], 532, 124, 120, 44, [['C']]⟩] := by
  with_unfolding_all decide

/-- Witness for C5: in the concrete layout of scenario 1 the sibling nodes B
and C (positions 1 and 2) are distinct and non-ancestral, and their boxes
are disjoint. -/
theorem layout_no_overlap_witness :
    ((layoutTreeForSvg mu0 (flattenTree roots0)).positioned.getD 1 posDefault ∈
        (layoutTreeForSvg mu0 (flattenTree roots0)).positioned) ∧
    ((layoutTreeForSvg mu0 (flattenTree roots0)).positioned.getD 2 posDefault ∈
        (layoutTreeForSvg mu0 (flattenTree roots0)).positioned) ∧
    (((layoutTreeForSvg mu0 (flattenTree roots0)).positioned.getD 1 posDefault).id ≠
        ((layoutTreeForSvg mu0 (flattenTree roots0)).positioned.getD 2 posDefault).id) ∧
    (¬ ancestorOf (flattenTree roots0)
        (((layoutTreeForSvg mu0 (flattenTree roots0)).positioned.getD 1 posDefault).id)
        (((layoutTreeForSvg mu0 (flattenTree roots0)).positioned.getD 2 posDefault).id)) ∧
    (¬ ancestorOf (flattenTree roots0)
        (((layoutTreeForSvg mu0 (flattenTree roots0)).positioned.getD 2 posDefault).id)
        (((layoutTreeForSvg mu0 (flattenTree roots0)).positioned.getD 1 posDefault).id)) ∧
    (((layoutTreeForSvg mu0 (flattenTree roots0)).positioned.getD 1 posDefault).x +
        ((layoutTreeForSvg mu0 (flattenTree roots0)).positioned.getD 1 posDefault).w <
        ((layoutTreeForSvg mu0 (flattenTree roots0)).positioned.getD 2 posDefault).x ∨
      ((layoutTreeForSvg mu0 (flattenTree roots0)).positioned.getD 2 posDefault).x +
        ((layoutTreeForSvg mu0 (flattenTree roots0)).positioned.getD 2 posDefault).w <
        ((layoutTreeForSvg mu0 (flattenTree roots0)).positioned.getD 1 posDefault).x ∨
      ((layoutTreeForSvg mu0 (flattenTree roots0)).positioned.getD 1 posDefault).y +
        ((layoutTreeForSvg mu0 (flattenTree roots0)).positioned.getD 1 posDefault).h <
        ((layoutTreeForSvg mu0 (flattenTree roots0)).positioned.getD 2 posDefault).y ∨
      ((layoutTreeForSvg mu0 (flattenTree roots0)).positioned.getD 2 posDefault).y +
        ((layoutTreeForSvg mu0 (flattenTree roots0)).positioned.getD 2 posDefault).h <
        ((layoutTreeForSvg mu0 (flattenTree roots0)).positioned.getD 1 posDefault).y) := by
  refine ⟨?_, ?_, ?_, ?_, ?_,
    layout_no_overlap roots0 mu0 _ _ ?_ ?_ ?_ ?_ ?_⟩ <;>
    rw [layout0_eval] <;> decide

/-- Witness for C6: in the concrete layout of scenario 1 the root node A
(position 0) has children, and its center is the mean of their centers. -/
theorem layout_centering_witness :
    ((layoutTreeForSvg mu0 (flattenTree roots0)).positioned.getD 0 posDefault ∈
        (layoutTreeForSvg mu0 (flattenTree roots0)).positioned) ∧
    (((layoutTreeForSvg mu0 (flattenTree roots0)).positioned.getD 0 posDefault).childrenIds
        ≠ []) ∧
    (((layoutTreeForSvg mu0 (flattenTree roots0)).positioned.getD 0 posDefault).x +
        ((layoutTreeForSvg mu0 (flattenTree roots0)).positioned.getD 0 posDefault).w / 2 =
      ((((layoutTreeForSvg mu0 (flattenTree roots0)).positioned.getD 0
            posDefault).childrenIds.map
          (centerOfId (layoutTreeForSvg mu0 (flattenTree roots0)).positioned)).sum)
        / ((((layoutTreeForSvg mu0 (flattenTree roots0)).positioned.getD 0
            posDefault).childrenIds.length : ℚ))) := by
  refine ⟨?_, ?_, layout_centering roots0 mu0 _ ?_ ?_⟩ <;>
    rw [layout0_eval] <;> decide

end DTB
